import Mathlib

/-!
Verification of the Path-Planning repository (src/dijkstra.cpp, src/a_star.cpp)
against its natural-language specification.

Embedding conventions:
* C++ `int` is modelled as `Int` together with two's-complement wrap-around
  (`wrap32`) at every addition the source performs, since signed overflow is
  the one place where machine arithmetic diverges from unbounded integers.
* `std::vector` indexing is modelled by `List.getD`/`List.set`; an
  out-of-bounds access is undefined behaviour in C++, so theorems carry the
  in-bounds hypotheses under which the C++ behaviour is defined, and the
  entry checks of both functions are additionally modelled as `Option`
  (`aStarDims`, `distInitChecked`) to record exactly where an empty input
  faults.
* `std::priority_queue<pair<int,int>, ..., greater<...>>` extracts the
  lexicographically smallest pair; equal pairs are indistinguishable, so the
  queue is modelled canonically as a list kept sorted by the pair order.
* The A* open set, `std::priority_queue<Node*, vector<Node*>, CompareFCost>`,
  compares `fCost` through the stored pointers while the relax step mutates
  those keys in place, breaking the heap invariant; its `top()` therefore
  need not be a current minimum.  The development keeps two frontier models:
  the exact container semantics (`heapPush`/`heapPop`, the verbatim
  libstdc++ `push_heap`/`__adjust_heap`/`pop_heap`, run by `aStarSearchH`)
  and an idealized current-minimum extraction (`minFCost`, run by
  `aStarSearch`) used for the properties that are insensitive to the
  extraction order and to isolate what the broken heap costs.
* The `while` loops are modelled with explicit fuel; the fuel supplied in
  `dijkstra` and `aStarSearch` is proved sufficient (the loop empties its
  frontier first) in the regimes where the C++ run is defined and finite.
-/

namespace PathPlanning

/-- `numeric_limits<int>::max()`, the sentinel used by `dijkstra`. -/
def INF : Int := 2147483647

/-- Two's-complement wrap-around of a 32-bit signed integer, the conventional
model of what `int` arithmetic produces when it overflows. -/
def wrap32 (x : Int) : Int := (x + 2147483648) % 4294967296 - 2147483648

/-- `int` addition as performed by the C++ source. -/
def wadd (a b : Int) : Int := wrap32 (a + b)

theorem wrap32_eq_self {x : Int} (h0 : -2147483648 ≤ x) (h1 : x ≤ 2147483647) :
    wrap32 x = x := by
  unfold wrap32
  omega

theorem wadd_eq_add {a b : Int} (h0 : -2147483648 ≤ a + b) (h1 : a + b ≤ 2147483647) :
    wadd a b = a + b := wrap32_eq_self h0 h1

/-- The adjacency list `vector<vector<pair<int,int>>>`: entry `(v, w)` in row
`u` is a directed edge `u → v` of weight `w`.  Vertices are 0-based indices,
modelled as `Nat` (a negative vertex index is undefined behaviour in C++). -/
abbrev Graph := List (List (Nat × Int))

/-- Sum of the weights of the edges leaving `u`. -/
def rowSum (g : Graph) (u : Nat) : Int := ((g.getD u []).map (fun p => p.2)).sum

/-- Sum of all edge weights of the first `n` rows. -/
def totalWeight (g : Graph) (n : Nat) : Int := ((List.range n).map (rowSum g)).sum

/-- Total number of stored edges, used to size the loop fuel. -/
def totalEdges (g : Graph) : Nat := (g.map List.length).sum

/-- The state of the `dijkstra` loop: the `dist` vector and the priority
queue, the latter as the sorted list of its `(distance, vertex)` entries. -/
structure DState where
  dist : List Int
  pq : List (Int × Nat)

/-- The strict order `greater<pair<int,int>>` inverts: entry `e1` leaves the
queue no later than `e2`. -/
def pairLe (e1 e2 : Int × Nat) : Prop :=
  e1.1 < e2.1 ∨ (e1.1 = e2.1 ∧ e1.2 ≤ e2.2)

instance : DecidablePred fun e : (Int × Nat) × (Int × Nat) => pairLe e.1 e.2 :=
  fun e => by unfold pairLe; infer_instance

instance (e1 e2 : Int × Nat) : Decidable (pairLe e1 e2) := by
  unfold pairLe; infer_instance

/-- Insert an entry into the sorted queue (the canonical model of
`priority_queue::push`). -/
def pqInsert (e : Int × Nat) : List (Int × Nat) → List (Int × Nat)
  | [] => [e]
  | x :: xs => if pairLe e x then e :: x :: xs else x :: pqInsert e xs

/-- The body of the edge loop of `dijkstra` (lines 54-62) for one edge
`e = (v, weight)` out of `u`: compute `dist[u] + weight` (in `int`
arithmetic), and on strict improvement write `dist[v]` and push. -/
def relaxStep (u : Nat) (s : DState) (e : Nat × Int) : DState :=
  let v := e.1
  let cand := wadd (s.dist.getD u 0) e.2
  if cand < s.dist.getD v 0 then
    { dist := s.dist.set v cand, pq := pqInsert (cand, v) s.pq }
  else s

/-- The whole edge loop of `dijkstra` (lines 54-63): fold `relaxStep` over
the outgoing edges of `u`, re-reading `dist[u]` at each edge exactly as the
source does. -/
def relaxAll (u : Nat) (es : List (Nat × Int)) (s : DState) : DState :=
  es.foldl (relaxStep u) s

/-- The `while(!pq.empty())` loop of `dijkstra`, with fuel.  Each iteration
pops the minimum entry, discards it when stale (`currentDist > dist[u]`),
and otherwise relaxes the edges out of `u`. -/
def dijkstraGo (g : Graph) : Nat → DState → DState
  | 0, s => s
  | fuel + 1, s =>
    match s.pq with
    | [] => s
    | (d, u) :: rest =>
      if d > s.dist.getD u 0 then
        dijkstraGo g fuel { s with pq := rest }
      else
        dijkstraGo g fuel (relaxAll u (g.getD u []) { s with pq := rest })

/-- `dijkstraGo` instrumented with the list of expanded (non-stale popped)
vertices, in expansion order; used to state the no-re-expansion claims. -/
def dijkstraGoT (g : Graph) : Nat → DState → List Nat → DState × List Nat
  | 0, s, t => (s, t)
  | fuel + 1, s, t =>
    match s.pq with
    | [] => (s, t)
    | (d, u) :: rest =>
      if d > s.dist.getD u 0 then
        dijkstraGoT g fuel { s with pq := rest } t
      else
        dijkstraGoT g fuel (relaxAll u (g.getD u []) { s with pq := rest }) (t ++ [u])

/-- Initial state of `dijkstra` (lines 29-40): `dist` is `n` copies of `INF`
with `dist[source] = 0`, and the queue holds the single entry `(0, source)`.
(`dist[source]` with `source ≥ n` is undefined behaviour in C++; `List.set`
is then a no-op.) -/
def dijkstraInit (n source : Nat) : DState :=
  { dist := (List.replicate n INF).set source 0, pq := [(0, source)] }

/-- `dijkstra` from src/dijkstra.cpp.  The fuel `1 + n + totalEdges g` is
proved sufficient whenever the C++ loop terminates with defined behaviour:
the loop performs at most one iteration per queue entry, and at most
`1 + totalEdges g` entries are ever pushed because each vertex is expanded
at most once. -/
def dijkstra (n : Nat) (g : Graph) (source : Nat) : List Int :=
  (dijkstraGo g (1 + n + totalEdges g) (dijkstraInit n source)).dist

/-- The expansion trace of the same run. -/
def dijkstraTrace (n : Nat) (g : Graph) (source : Nat) : List Nat :=
  (dijkstraGoT g (1 + n + totalEdges g) (dijkstraInit n source) []).2

/-- The first lines of `dijkstra` (`vector<int> dist(n, INF); dist[source] = 0;`)
with the vector write modelled as fallible: writing `dist[source]` with
`source ≥ n` — in particular whenever `n = 0` — is an out-of-bounds access,
undefined behaviour in C++, not an exception. -/
def distInitChecked (n source : Nat) : Option (List Int) :=
  let dist := List.replicate n INF
  if source < dist.length then some (dist.set source 0) else none

/-- The graph obtained by adding `inc` to the weight of the `i`-th stored
edge of row `u` (the identity when no such edge exists).  Used to state the
claim that distances do not decrease when an edge weight increases. -/
def bump (g : Graph) (u i : Nat) (inc : Int) : Graph :=
  match (g.getD u []).get? i with
  | some (v, w) => g.set u ((g.getD u []).set i (v, w + inc))
  | none => g

/-- A walk through `g` from `a` to `b`: each step names the index `i` of the
adjacency-list entry it uses, so that parallel edges are distinguished. -/
inductive DWalk (g : Graph) : Nat → Nat → Type where
  | nil (a : Nat) : DWalk g a a
  | cons {b c : Nat} (a : Nat) (w : Int) (i : Nat)
      (h : (g.getD a []).get? i = some (b, w)) (rest : DWalk g b c) : DWalk g a c

/-- The sum of the edge weights along a walk. -/
def DWalk.cost {g : Graph} : {a b : Nat} → DWalk g a b → Int
  | _, _, .nil _ => 0
  | _, _, .cons _ w _ _ rest => w + rest.cost

/-- The vertices a walk visits, in order, starting vertex included. -/
def DWalk.verts {g : Graph} : {a b : Nat} → DWalk g a b → List Nat
  | _, _, .nil a => [a]
  | _, _, .cons a _ _ _ rest => a :: rest.verts

/-- Concatenation of walks. -/
def DWalk.append {g : Graph} : {a b c : Nat} → DWalk g a b → DWalk g b c → DWalk g a c
  | _, _, _, .nil _, ω => ω
  | _, _, _, .cons a w i h rest, ω => .cons a w i h (rest.append ω)

/-- `v` is reachable from `s` in `g`. -/
def DReachable (g : Graph) (s v : Nat) : Prop := Nonempty (DWalk g s v)

/-- `d` is the minimum possible sum of edge weights over the walks from `s`
to `v`: it is attained by one of them and bounds all of them from below. -/
def IsShortestDist (g : Graph) (s v : Nat) (d : Int) : Prop :=
  (∃ ω : DWalk g s v, ω.cost = d) ∧ ∀ ω : DWalk g s v, d ≤ ω.cost

/-- Row `u` of the adjacency list has non-negative weights only. -/
def NonnegRow (g : Graph) (u : Nat) : Prop := ∀ p ∈ g.getD u [], 0 ≤ p.2

/-- Every edge weight of the `n`-vertex graph is non-negative. -/
def Nonneg (g : Graph) (n : Nat) : Prop := ∀ u < n, NonnegRow g u

/-- Every stored edge points back into `[0, n)`. -/
def WellFormed (g : Graph) (n : Nat) : Prop := ∀ u < n, ∀ p ∈ g.getD u [], p.1 < n

instance (g : Graph) (u : Nat) : Decidable (NonnegRow g u) := by
  unfold NonnegRow; infer_instance

instance (g : Graph) (n : Nat) : Decidable (Nonneg g n) := by
  unfold Nonneg; infer_instance

instance (g : Graph) (n : Nat) : Decidable (WellFormed g n) := by
  unfold WellFormed; infer_instance

/-! ### List access helpers -/

theorem getD_set_self {α : Type} (l : List α) (i : Nat) (a d : α) (h : i < l.length) :
    (l.set i a).getD i d = a := by
  induction l generalizing i with
  | nil => simp at h
  | cons x xs ih =>
    cases i with
    | zero => simp [List.set]
    | succ j => simpa [List.set] using ih j (by simpa using h)

theorem getD_set_ne {α : Type} (l : List α) (i j : Nat) (a d : α) (h : i ≠ j) :
    (l.set i a).getD j d = l.getD j d := by
  induction l generalizing i j with
  | nil => simp [List.set]
  | cons x xs ih =>
    cases i with
    | zero =>
      cases j with
      | zero => exact absurd rfl h
      | succ j2 => simp [List.set]
    | succ i2 =>
      cases j with
      | zero => simp [List.set]
      | succ j2 => simpa [List.set] using ih i2 j2 (by omega)

theorem getD_replicate_lt {α : Type} (n i : Nat) (a d : α) (h : i < n) :
    (List.replicate n a).getD i d = a := by
  induction n generalizing i with
  | zero => omega
  | succ m ih =>
    cases i with
    | zero => simp [List.replicate]
    | succ j => simpa [List.replicate] using ih j (by omega)

theorem getD_ge_length {α : Type} (l : List α) (i : Nat) (d : α) (h : l.length ≤ i) :
    l.getD i d = d := by
  induction l generalizing i with
  | nil => simp
  | cons x xs ih =>
    cases i with
    | zero => simp at h
    | succ j => simpa using ih j (by simpa using h)

/-! ### Walk lemmas -/

theorem DWalk.cost_append {g : Graph} {a b c : Nat} (ω1 : DWalk g a b) (ω2 : DWalk g b c) :
    (ω1.append ω2).cost = ω1.cost + ω2.cost := by
  induction ω1 with
  | nil a => simp [DWalk.append, DWalk.cost]
  | cons a w i h rest ih => simp [DWalk.append, DWalk.cost, ih]; ring

theorem DWalk.start_mem_verts {g : Graph} {a b : Nat} (ω : DWalk g a b) : a ∈ ω.verts := by
  cases ω <;> simp [DWalk.verts]

theorem DWalk.end_mem_verts {g : Graph} {a b : Nat} (ω : DWalk g a b) : b ∈ ω.verts := by
  induction ω with
  | nil a => simp [DWalk.verts]
  | cons a w i h rest ih => simp [DWalk.verts, ih]

theorem DWalk.verts_lt {g : Graph} {n : Nat} (wf : WellFormed g n) {a b : Nat}
    (ω : DWalk g a b) (ha : a < n) : ∀ v ∈ ω.verts, v < n := by
  induction ω with
  | nil a => intro v hv; simp [DWalk.verts] at hv; omega
  | cons a w i h rest ih =>
    intro v hv
    simp [DWalk.verts] at hv
    have hb : _ < n := wf a ha _ (List.get?_mem h)
    rcases hv with rfl | hv
    · exact ha
    · exact ih hb v hv

theorem DWalk.cost_nonneg {g : Graph} {n : Nat} (hn : Nonneg g n) {a b : Nat}
    (ω : DWalk g a b) (hv : ∀ v ∈ ω.verts, v < n) : 0 ≤ ω.cost := by
  induction ω with
  | nil a => simp [DWalk.cost]
  | cons a w i h rest ih =>
    have ha : a < n := hv a (by simp [DWalk.verts])
    have hw : 0 ≤ w := hn a ha _ (List.get?_mem h)
    have := ih (fun v hvv => hv v (by simp [DWalk.verts]; exact Or.inr hvv))
    simp [DWalk.cost]
    omega

/-- Dropping the portion of a walk before a visit of `x` yields a walk from
`x` that is no more expensive (weights being non-negative) and whose vertex
list is a sublist of the original one. -/
theorem DWalk.drop_to {g : Graph} {n : Nat} (hn : Nonneg g n) {a b : Nat}
    (ω : DWalk g a b) (hv : ∀ v ∈ ω.verts, v < n) (x : Nat) (hx : x ∈ ω.verts) :
    ∃ ω2 : DWalk g x b, ω2.cost ≤ ω.cost ∧ ω2.verts.Sublist ω.verts := by
  induction ω with
  | nil a =>
    simp [DWalk.verts] at hx
    subst hx
    refine ⟨.nil _, le_rfl, ?_⟩
    exact List.Sublist.refl _
  | cons a w i h rest ih =>
    by_cases hxa : x = a
    · subst hxa
      exact ⟨.cons x w i h rest, le_rfl, List.Sublist.refl _⟩
    · have hx2 : x ∈ rest.verts := by
        simp [DWalk.verts] at hx
        tauto
      have ha : a < n := hv a (by simp [DWalk.verts])
      have hw : 0 ≤ w := hn a ha _ (List.get?_mem h)
      obtain ⟨ω2, hc, hs⟩ := ih (fun v hvv => hv v (by simp [DWalk.verts]; exact Or.inr hvv)) hx2
      refine ⟨ω2, ?_, ?_⟩
      · simp [DWalk.cost]; omega
      · exact hs.trans (List.sublist_cons_self a rest.verts)

/-- Any walk can be shortcut to a walk with pairwise-distinct vertices that
is no more expensive. -/
theorem DWalk.cut {g : Graph} {n : Nat} (hn : Nonneg g n) {a b : Nat}
    (ω : DWalk g a b) (hv : ∀ v ∈ ω.verts, v < n) :
    ∃ ω2 : DWalk g a b, ω2.cost ≤ ω.cost ∧ ω2.verts.Nodup ∧ ω2.verts.Sublist ω.verts := by
  induction ω with
  | nil a => exact ⟨.nil a, le_rfl, by simp [DWalk.verts], List.Sublist.refl _⟩
  | cons a w i h rest ih =>
    have ha : a < n := hv a (by simp [DWalk.verts])
    have hw : 0 ≤ w := hn a ha _ (List.get?_mem h)
    have hvr : ∀ v ∈ rest.verts, v < n :=
      fun v hvv => hv v (by simp [DWalk.verts]; exact Or.inr hvv)
    obtain ⟨r2, hc2, hd2, hs2⟩ := ih hvr
    by_cases hmem : a ∈ r2.verts
    · obtain ⟨ω3, hc3, hs3⟩ := DWalk.drop_to hn r2 (fun v hvv => hvr v (hs2.mem hvv)) a hmem
      refine ⟨ω3, ?_, hd2.sublist hs3, ?_⟩
      · simp [DWalk.cost]; omega
      · exact (hs3.trans hs2).trans (List.sublist_cons_self a rest.verts)
    · refine ⟨.cons a w i h r2, ?_, ?_, ?_⟩
      · simp [DWalk.cost]; omega
      · simp [DWalk.verts, hd2, hmem]
      · simpa [DWalk.verts] using hs2.cons₂ a

/-! ### Weight-sum bounds: a shortest distance plus the weight of any edge
leaving its endpoint stays below the total edge weight of the graph.  This is
what rules signed overflow out once `totalWeight g n < INF` is assumed. -/

theorem rowSum_nonneg {g : Graph} {n : Nat} (hn : Nonneg g n) {u : Nat} (hu : u < n) :
    0 ≤ rowSum g u := by
  apply List.sum_nonneg
  intro x hx
  obtain ⟨p, hp, rfl⟩ := List.mem_map.mp hx
  exact hn u hu p hp

theorem entry_le_rowSum {g : Graph} {u : Nat} {i : Nat} {b : Nat} {w : Int}
    (h : (g.getD u []).get? i = some (b, w)) (hrow : NonnegRow g u) :
    w ≤ rowSum g u := by
  unfold rowSum
  have hmem : (b, w) ∈ g.getD u [] := List.get?_mem h
  have : w ∈ (g.getD u []).map (fun p => p.2) := List.mem_map_of_mem _ hmem
  exact List.single_le_sum (by
    intro x hx
    obtain ⟨p, hp, rfl⟩ := List.mem_map.mp hx
    exact hrow p hp) _ this

theorem rowSum_le_totalWeight {g : Graph} {n : Nat} (hn : Nonneg g n) {u : Nat} (hu : u < n) :
    rowSum g u ≤ totalWeight g n := by
  unfold totalWeight
  have hmem : rowSum g u ∈ (List.range n).map (rowSum g) :=
    List.mem_map_of_mem _ (List.mem_range.mpr hu)
  exact List.single_le_sum (by
    intro x hx
    obtain ⟨v, hv, rfl⟩ := List.mem_map.mp hx
    exact rowSum_nonneg hn (List.mem_range.mp hv)) _ hmem

theorem totalWeight_nonneg {g : Graph} {n : Nat} (hn : Nonneg g n) :
    0 ≤ totalWeight g n := by
  apply List.sum_nonneg
  intro x hx
  obtain ⟨v, hv, rfl⟩ := List.mem_map.mp hx
  exact rowSum_nonneg hn (List.mem_range.mp hv)

theorem nodup_rowSums_le_totalWeight {g : Graph} {n : Nat} (hn : Nonneg g n)
    {l : List Nat} (hd : l.Nodup) (hlt : ∀ v ∈ l, v < n) :
    (l.map (rowSum g)).sum ≤ totalWeight g n := by
  have hsub : l ⊆ List.range n := fun v hv => List.mem_range.mpr (hlt v hv)
  obtain ⟨l2, hperm, hsl⟩ := List.subperm_of_subset hd hsub
  calc (l.map (rowSum g)).sum = (l2.map (rowSum g)).sum :=
        (hperm.map (rowSum g)).sum_eq.symm
    _ ≤ ((List.range n).map (rowSum g)).sum := by
        apply List.Sublist.sum_le_sum (hsl.map (rowSum g))
        intro x hx
        obtain ⟨v, hv, rfl⟩ := List.mem_map.mp hx
        exact rowSum_nonneg hn (List.mem_range.mp hv)
    _ = totalWeight g n := rfl

theorem cost_add_rowSum_le_sum_verts {g : Graph} {n : Nat} (hn : Nonneg g n)
    {a b : Nat} (ω : DWalk g a b) (hv : ∀ v ∈ ω.verts, v < n) :
    ω.cost + rowSum g b ≤ (ω.verts.map (rowSum g)).sum := by
  induction ω with
  | nil a => simp [DWalk.cost, DWalk.verts]
  | cons a w i h rest ih =>
    have ha : a < n := hv a (by simp [DWalk.verts])
    have hw : w ≤ rowSum g a := entry_le_rowSum h (hn a ha)
    have := ih (fun v hvv => hv v (by simp [DWalk.verts]; exact Or.inr hvv))
    simp [DWalk.cost, DWalk.verts]
    omega

/-- A walk with pairwise-distinct vertices, together with any one edge
leaving its final vertex, weighs no more than the whole graph. -/
theorem simple_cost_bound {g : Graph} {n : Nat} (hn : Nonneg g n)
    {a b : Nat} (ω : DWalk g a b) (hd : ω.verts.Nodup) (hv : ∀ v ∈ ω.verts, v < n) :
    ω.cost + rowSum g b ≤ totalWeight g n :=
  (cost_add_rowSum_le_sum_verts hn ω hv).trans (nodup_rowSums_le_totalWeight hn hd hv)

/-- A shortest distance to `u`, plus the total weight of the edges leaving
`u`, is bounded by the total weight of the graph. -/
theorem shortest_add_rowSum_le {g : Graph} {n : Nat} (hn : Nonneg g n)
    (wf : WellFormed g n) {s u : Nat} (hs : s < n) {d : Int}
    (hmin : ∀ ω : DWalk g s u, d ≤ ω.cost) (ω0 : DWalk g s u) :
    d + rowSum g u ≤ totalWeight g n := by
  have hv0 : ∀ v ∈ ω0.verts, v < n := DWalk.verts_lt wf ω0 hs
  obtain ⟨ω2, _, hd2, hs2⟩ := DWalk.cut hn ω0 hv0
  have hv2 : ∀ v ∈ ω2.verts, v < n := fun v hv => hv0 v (hs2.mem hv)
  have := simple_cost_bound hn ω2 hd2 hv2
  have := hmin ω2
  omega


/-! ### Priority-queue lemmas -/

theorem pairLe_total (e1 e2 : Int × Nat) : pairLe e1 e2 ∨ pairLe e2 e1 := by
  unfold pairLe
  rcases lt_trichotomy e1.1 e2.1 with h | h | h
  · exact Or.inl (Or.inl h)
  · rcases Nat.le_total e1.2 e2.2 with h2 | h2
    · exact Or.inl (Or.inr ⟨h, h2⟩)
    · exact Or.inr (Or.inr ⟨h.symm, h2⟩)
  · exact Or.inr (Or.inl h)

theorem pairLe_trans {e1 e2 e3 : Int × Nat} (h1 : pairLe e1 e2) (h2 : pairLe e2 e3) :
    pairLe e1 e3 := by
  unfold pairLe at h1 h2 ⊢
  rcases h1 with h1 | ⟨h1a, h1b⟩ <;> rcases h2 with h2 | ⟨h2a, h2b⟩
  · exact Or.inl (h1.trans h2)
  · exact Or.inl (h2a ▸ h1)
  · exact Or.inl (h1a ▸ h2)
  · exact Or.inr ⟨h1a.trans h2a, h1b.trans h2b⟩

theorem mem_pqInsert {a e : Int × Nat} {l : List (Int × Nat)} :
    a ∈ pqInsert e l ↔ a = e ∨ a ∈ l := by
  induction l with
  | nil => simp [pqInsert]
  | cons x xs ih =>
    by_cases h : pairLe e x
    · simp [pqInsert, h]
    · simp [pqInsert, h, ih]
      tauto

theorem pqSorted_insert {e : Int × Nat} {l : List (Int × Nat)}
    (h : List.Pairwise pairLe l) : List.Pairwise pairLe (pqInsert e l) := by
  induction l with
  | nil => simp [pqInsert]
  | cons x xs ih =>
    rcases List.pairwise_cons.mp h with ⟨hx, hxs⟩
    by_cases hle : pairLe e x
    · rw [pqInsert, if_pos hle]
      refine List.pairwise_cons.mpr ⟨?_, h⟩
      intro b hb
      rcases List.mem_cons.mp hb with rfl | hb
      · exact hle
      · exact pairLe_trans hle (hx b hb)
    · rw [pqInsert, if_neg hle]
      refine List.pairwise_cons.mpr ⟨?_, ih hxs⟩
      intro b hb
      rcases mem_pqInsert.mp hb with hbe | hb
      · rw [hbe]
        exact (pairLe_total e x).resolve_left hle
      · exact hx b hb

theorem head_le_of_sorted {d : Int} {u : Nat} {rest : List (Int × Nat)}
    (h : List.Pairwise pairLe ((d, u) :: rest)) :
    ∀ e ∈ rest, d ≤ e.1 := by
  intro e he
  have := (List.pairwise_cons.mp h).1 e he
  unfold pairLe at this
  rcases this with h1 | ⟨h1, _⟩
  · exact le_of_lt h1
  · exact le_of_eq h1

/-- Number of occurrences of an entry in the queue. -/
def countEntry : List (Int × Nat) → (Int × Nat) → Nat
  | [], _ => 0
  | x :: xs, e => (if x = e then 1 else 0) + countEntry xs e

theorem countEntry_pos_iff {l : List (Int × Nat)} {e : Int × Nat} :
    0 < countEntry l e ↔ e ∈ l := by
  induction l with
  | nil => simp [countEntry]
  | cons x xs ih =>
    by_cases h : x = e
    · subst h; simp [countEntry]
    · simp [countEntry, h, ih, Ne.symm h]

theorem countEntry_eq_zero_of_not_mem {l : List (Int × Nat)} {e : Int × Nat}
    (h : e ∉ l) : countEntry l e = 0 := by
  by_contra hne
  exact h (countEntry_pos_iff.mp (Nat.pos_of_ne_zero hne))

theorem countEntry_pqInsert (l : List (Int × Nat)) (e a : Int × Nat) :
    countEntry (pqInsert e l) a = countEntry l a + (if e = a then 1 else 0) := by
  induction l with
  | nil => simp [pqInsert, countEntry]
  | cons x xs ih =>
    by_cases h : pairLe e x
    · simp [pqInsert, h, countEntry]
      omega
    · simp [pqInsert, h, countEntry, ih]
      omega


/-! ### The Dijkstra loop invariant

`T` is the (ghost) list of vertices expanded so far, in order.  `dv σ v` is
the running `dist[v]`. -/

/-- The running `dist[v]`. -/
def dv (σ : DState) (v : Nat) : Int := σ.dist.getD v 0

/-- Invariant of the `dijkstra` loop, relative to the expansion trace `T`. -/
structure DInv (n : Nat) (g : Graph) (s : Nat) (σ : DState) (T : List Nat) : Prop where
  len : σ.dist.length = n
  sorted : List.Pairwise pairLe σ.pq
  base : s ∉ T → σ = dijkstraInit n s ∧ T = []
  memT : ∀ u ∈ T, u < n
  nodupT : T.Nodup
  settled : ∀ u ∈ T, IsShortestDist g s u (dv σ u)
  settledPq : ∀ u ∈ T, ∀ e ∈ σ.pq, e.2 = u → dv σ u < e.1
  pqKeys : ∀ e ∈ σ.pq, e.2 < n ∧ dv σ e.2 ≤ e.1 ∧ e.1 ≤ totalWeight g n ∧
    ∃ ω : DWalk g s e.2, ω.cost = e.1
  current : ∀ v, v < n → v ∉ T → dv σ v ≠ INF →
    countEntry σ.pq (dv σ v, v) = 1
  relaxed : ∀ u ∈ T, ∀ p ∈ g.getD u [], dv σ p.1 ≤ dv σ u + p.2

/-- The settled distance of the source is 0. -/
theorem dinv_source_zero {n : Nat} {g : Graph} {s : Nat} {σ : DState} {T : List Nat}
    (hs : s < n) (wf : WellFormed g n) (hn : Nonneg g n)
    (hI : DInv n g s σ T) (hsT : s ∈ T) : dv σ s = 0 := by
  obtain ⟨⟨ω0, h0⟩, hmin⟩ := hI.settled s hsT
  have h1 : dv σ s ≤ 0 := by simpa [DWalk.cost] using hmin (.nil s)
  have h2 : 0 ≤ ω0.cost := DWalk.cost_nonneg hn ω0 (DWalk.verts_lt wf ω0 hs)
  omega

/-- Any walk from the source to an unexpanded vertex is covered by a queue
entry of no larger key. -/
theorem dinv_cover {n : Nat} {g : Graph} {s : Nat} {σ : DState} {T : List Nat}
    (hs : s < n) (wf : WellFormed g n) (hn : Nonneg g n) (hb : totalWeight g n < INF)
    (hI : DInv n g s σ T) {a t : Nat} (ω : DWalk g a t) :
    a ∈ T → t ∉ T → ∃ e ∈ σ.pq, e.1 ≤ dv σ a + ω.cost := by
  induction ω with
  | nil a =>
    intro ha ht
    exact absurd ha ht
  | @cons b c a w i h rest ih =>
    intro ha ht
    have haN : a < n := hI.memT a ha
    have hbN : b < n := wf a haN (b, w) (List.get?_mem h)
    have hrelax : dv σ b ≤ dv σ a + w := hI.relaxed a ha (b, w) (List.get?_mem h)
    by_cases hbT : b ∈ T
    · obtain ⟨e, he, hle⟩ := ih hbT ht
      refine ⟨e, he, ?_⟩
      simp only [DWalk.cost] at *
      omega
    · obtain ⟨⟨ω0, h0⟩, hmin⟩ := hI.settled a ha
      have hbound : dv σ a + rowSum g a ≤ totalWeight g n :=
        shortest_add_rowSum_le hn wf hs hmin ω0
      have hwrow : w ≤ rowSum g a := entry_le_rowSum h (hn a haN)
      have hne : dv σ b ≠ INF := by
        intro hEq
        rw [hEq] at hrelax
        unfold INF at hrelax
        unfold INF at hb
        omega
      have hcnt := hI.current b hbN hbT hne
      have hmem : (dv σ b, b) ∈ σ.pq := countEntry_pos_iff.mp (by omega)
      have hrest : 0 ≤ rest.cost := DWalk.cost_nonneg hn rest (DWalk.verts_lt wf rest hbN)
      refine ⟨(dv σ b, b), hmem, ?_⟩
      simp only [DWalk.cost]
      omega

/-- When the loop pops a non-stale entry `(d, u)`, the vertex `u` has not
been expanded before, `d` is the current `dist[u]`, and `d` is the shortest
distance from the source to `u`. -/
theorem dinv_settle {n : Nat} {g : Graph} {s : Nat} {σ : DState} {T : List Nat}
    (hs : s < n) (wf : WellFormed g n) (hn : Nonneg g n) (hb : totalWeight g n < INF)
    (hI : DInv n g s σ T) {d : Int} {u : Nat} {rest : List (Int × Nat)}
    (hpq : σ.pq = (d, u) :: rest) (hno : ¬ d > dv σ u) :
    u ∉ T ∧ d = dv σ u ∧ IsShortestDist g s u d := by
  have hmem : (d, u) ∈ σ.pq := by rw [hpq]; exact List.mem_cons_self _ _
  obtain ⟨huN, hdvle, hdle, ω1, hω1⟩ := hI.pqKeys _ hmem
  simp only at huN hdvle hdle
  have huT : u ∉ T := by
    intro hu
    have := hI.settledPq u hu (d, u) hmem rfl
    simp at this hno
    omega
  have hdu : d = dv σ u := by simp at hno; omega
  refine ⟨huT, hdu, ⟨ω1, hω1⟩, ?_⟩
  intro ω
  by_cases hsT : s ∈ T
  · obtain ⟨e, he, hle⟩ := dinv_cover hs wf hn hb hI ω hsT huT
    have hds : dv σ s = 0 := dinv_source_zero hs wf hn hI hsT
    have hdmin : d ≤ e.1 := by
      rw [hpq] at he
      rcases List.mem_cons.mp he with rfl | he
      · exact le_rfl
      · exact head_le_of_sorted (hpq ▸ hI.sorted) e he
    omega
  · obtain ⟨hinit, hTnil⟩ := hI.base hsT
    have : σ.pq = [(0, s)] := by rw [hinit]; rfl
    rw [hpq] at this
    have hd0 : d = 0 ∧ u = s := by
      constructor <;> [skip; skip] <;>
        first
        | exact congrArg (fun l => (l.headD (0, 0)).1) this
        | exact congrArg (fun l => (l.headD (0, 0)).2) this
    have hcost : 0 ≤ ω.cost := by
      rcases hd0 with ⟨rfl, rfl⟩
      exact DWalk.cost_nonneg hn ω (DWalk.verts_lt wf ω hs)
    omega


/-! ### Preservation of the invariant -/

/-- Invariant holding in the middle of the expansion of `u`, after the edges
in `done` (a prefix of `u`'s row) have been processed. -/
structure MidInv (n : Nat) (g : Graph) (s : Nat) (u : Nat) (T2 : List Nat)
    (σ : DState) (done : List (Nat × Int)) : Prop where
  len : σ.dist.length = n
  sorted : List.Pairwise pairLe σ.pq
  memT : ∀ x ∈ T2, x < n
  nodupT : T2.Nodup
  sIn : s ∈ T2
  uIn : u ∈ T2
  settled : ∀ x ∈ T2, IsShortestDist g s x (dv σ x)
  settledPq : ∀ x ∈ T2, ∀ e ∈ σ.pq, e.2 = x → dv σ x < e.1
  pqKeys : ∀ e ∈ σ.pq, e.2 < n ∧ dv σ e.2 ≤ e.1 ∧ e.1 ≤ totalWeight g n ∧
    ∃ ω : DWalk g s e.2, ω.cost = e.1
  current : ∀ v, v < n → v ∉ T2 → dv σ v ≠ INF →
    countEntry σ.pq (dv σ v, v) = 1
  relaxedOld : ∀ x ∈ T2, x ≠ u → ∀ p ∈ g.getD x [], dv σ p.1 ≤ dv σ x + p.2
  relaxedU : ∀ p ∈ done, dv σ p.1 ≤ dv σ u + p.2

theorem dv_set_self {σ : DState} {n v : Nat} {c : Int} (hlen : σ.dist.length = n)
    (hv : v < n) : dv { dist := σ.dist.set v c, pq := σ.pq } v = c := by
  unfold dv
  exact getD_set_self _ _ _ _ (by omega)

theorem dv_set_ne {σ : DState} {v x : Nat} {c : Int} {pq2 : List (Int × Nat)}
    (hx : x ≠ v) : dv { dist := σ.dist.set v c, pq := pq2 } x = dv σ x := by
  unfold dv
  exact getD_set_ne _ _ _ _ _ (fun h => hx h.symm)

/-- Processing one further edge of `u` preserves the mid-expansion
invariant. -/
theorem midinv_step {n : Nat} {g : Graph} {s : Nat} {u : Nat} {T2 : List Nat}
    {σ : DState} {done : List (Nat × Int)}
    (hs : s < n) (wf : WellFormed g n) (hn : Nonneg g n) (hb : totalWeight g n < INF)
    (hu : u < n) (hM : MidInv n g s u T2 σ done) {p : Nat × Int}
    (hidx : (g.getD u []).get? done.length = some p) :
    MidInv n g s u T2 (relaxStep u σ p) (done ++ [p]) := by
  obtain ⟨⟨ωu, hωu⟩, hminu⟩ := hM.settled u hM.uIn
  have hp : p ∈ g.getD u [] := List.get?_mem hidx
  have hw0 : 0 ≤ p.2 := hn u hu p hp
  have hwrow : p.2 ≤ rowSum g u := by
    have := entry_le_rowSum (b := p.1) (w := p.2) (by simpa using hidx) (hn u hu)
    exact this
  have hub : dv σ u + rowSum g u ≤ totalWeight g n :=
    shortest_add_rowSum_le hn wf hs hminu ωu
  have hd0 : 0 ≤ dv σ u := by
    have := DWalk.cost_nonneg hn ωu (DWalk.verts_lt wf ωu hs)
    omega
  have hcand : wadd (dv σ u) p.2 = dv σ u + p.2 := by
    apply wadd_eq_add
    · omega
    · unfold INF at hb; omega
  have hvN : p.1 < n := wf u hu p hp
  by_cases hrel : wadd (σ.dist.getD u 0) p.2 < σ.dist.getD p.1 0
  · -- the relaxation fires
    have hvT : p.1 ∉ T2 := by
      intro hvT2
      obtain ⟨_, hminv⟩ := hM.settled p.1 hvT2
      have hwalk : (ωu.append (.cons u p.2 done.length (by simpa using hidx)
          (.nil p.1))).cost = dv σ u + p.2 := by
        rw [DWalk.cost_append, hωu]
        simp [DWalk.cost]
      have := hminv (ωu.append (.cons u p.2 done.length (by simpa using hidx) (.nil p.1)))
      rw [hwalk] at this
      change wadd (dv σ u) p.2 < dv σ p.1 at hrel
      rw [hcand] at hrel
      omega
    have huv : u ≠ p.1 := fun h => hvT (h ▸ hM.uIn)
    change wadd (dv σ u) p.2 < dv σ p.1 at hrel
    rw [hcand] at hrel
    have hstep : relaxStep u σ p =
        { dist := σ.dist.set p.1 (dv σ u + p.2), pq := pqInsert (dv σ u + p.2, p.1) σ.pq } := by
      unfold relaxStep
      rw [if_pos]
      · show _ = DState.mk _ _
        rw [show wadd (σ.dist.getD u 0) p.2 = dv σ u + p.2 from hcand]
      · show wadd (dv σ u) p.2 < dv σ p.1
        rw [hcand]; exact hrel
    rw [hstep]
    set c : Int := dv σ u + p.2 with hc
    have hdvv : dv { dist := σ.dist.set p.1 c, pq := pqInsert (c, p.1) σ.pq } p.1 = c := by
      exact dv_set_self hM.len hvN
    have hdvx : ∀ x, x ≠ p.1 →
        dv { dist := σ.dist.set p.1 c, pq := pqInsert (c, p.1) σ.pq } x = dv σ x := by
      intro x hx
      exact dv_set_ne hx
    have hcle : c ≤ totalWeight g n := by omega
    constructor
    · simpa using hM.len
    · exact pqSorted_insert hM.sorted
    · exact hM.memT
    · exact hM.nodupT
    · exact hM.sIn
    · exact hM.uIn
    · intro x hx
      have hxv : x ≠ p.1 := fun h => hvT (h ▸ hx)
      rw [hdvx x hxv]
      exact hM.settled x hx
    · intro x hx e he hex
      have hxv : x ≠ p.1 := fun h => hvT (h ▸ hx)
      rw [hdvx x hxv]
      rcases mem_pqInsert.mp he with rfl | he
      · exact absurd (hex : p.1 = x) (fun h => hxv h.symm)
      · exact hM.settledPq x hx e he hex
    · intro e he
      rcases mem_pqInsert.mp he with rfl | he
      · refine ⟨hvN, le_of_eq hdvv, hcle, ?_⟩
        refine ⟨ωu.append (.cons u p.2 done.length (by simpa using hidx) (.nil p.1)), ?_⟩
        rw [DWalk.cost_append, hωu]
        simp [DWalk.cost, hc]
      · obtain ⟨h1, h2, h3, h4⟩ := hM.pqKeys e he
        refine ⟨h1, ?_, h3, h4⟩
        by_cases hev : e.2 = p.1
        · rw [hev, hdvv]
          rw [hev] at h2
          omega
        · rw [hdvx e.2 hev]
          exact h2
    · intro x hxN hxT hxI
      by_cases hxv : x = p.1
      · rw [hxv, hdvv]
        rw [countEntry_pqInsert]
        have hnotmem : (c, p.1) ∉ σ.pq := by
          intro hmem
          have := (hM.pqKeys _ hmem).2.1
          simp only at this
          omega
        rw [countEntry_eq_zero_of_not_mem hnotmem]
        simp
      · rw [hdvx x hxv] at hxI ⊢
        rw [countEntry_pqInsert]
        have : ((c, p.1) : Int × Nat) ≠ (dv σ x, x) := by
          intro h
          exact hxv (congrArg Prod.snd h).symm
        rw [if_neg this]
        simpa using hM.current x hxN hxT hxI
    · intro x hx hxu q hq
      have hxv : x ≠ p.1 := fun h => hvT (h ▸ hx)
      rw [hdvx x hxv]
      have hold := hM.relaxedOld x hx hxu q hq
      by_cases hqv : q.1 = p.1
      · rw [hqv, hdvv]
        rw [hqv] at hold
        omega
      · rw [hdvx q.1 hqv]
        exact hold
    · intro q hq
      rw [hdvx u huv]
      rcases List.mem_append.mp hq with hq | hq
      · have hold := hM.relaxedU q hq
        by_cases hqv : q.1 = p.1
        · rw [hqv, hdvv]
          rw [hqv] at hold
          omega
        · rw [hdvx q.1 hqv]
          exact hold
      · have hqp : q = p := by simpa using hq
        rw [hqp, hdvv]
  · -- no improvement: state unchanged
    have hstep : relaxStep u σ p = σ := by
      unfold relaxStep
      rw [if_neg hrel]
    rw [hstep]
    refine ⟨hM.len, hM.sorted, hM.memT, hM.nodupT, hM.sIn, hM.uIn, hM.settled,
      hM.settledPq, hM.pqKeys, hM.current, hM.relaxedOld, ?_⟩
    intro q hq
    rcases List.mem_append.mp hq with hq | hq
    · exact hM.relaxedU q hq
    · have hqp : q = p := by simpa using hq
      rw [hqp]
      change ¬ wadd (dv σ u) p.2 < dv σ p.1 at hrel
      rw [hcand] at hrel
      omega


/-- Folding `relaxStep` over the rest of `u`'s row preserves the
mid-expansion invariant. -/
theorem midinv_fold {n : Nat} {g : Graph} {s : Nat} {u : Nat} {T2 : List Nat}
    (hs : s < n) (wf : WellFormed g n) (hn : Nonneg g n) (hb : totalWeight g n < INF)
    (hu : u < n) :
    ∀ (post done : List (Nat × Int)) (σ : DState), g.getD u [] = done ++ post →
      MidInv n g s u T2 σ done →
      MidInv n g s u T2 (post.foldl (relaxStep u) σ) (done ++ post) := by
  intro post
  induction post with
  | nil =>
    intro done σ hrow hM
    simpa using hM
  | cons p post2 ih =>
    intro done σ hrow hM
    have hidx : (g.getD u []).get? done.length = some p := by
      rw [hrow]
      rw [List.get?_append_right (le_refl done.length)]
      simp
    have hM2 := midinv_step hs wf hn hb hu hM hidx
    have hrow2 : g.getD u [] = (done ++ [p]) ++ post2 := by
      rw [hrow]; simp
    have := ih (done ++ [p]) (relaxStep u σ p) hrow2 hM2
    simpa using this

/-- Popping a stale entry preserves the invariant. -/
theorem dinv_skip {n : Nat} {g : Graph} {s : Nat} {σ : DState} {T : List Nat}
    (hs : s < n)
    (hI : DInv n g s σ T) {d : Int} {u : Nat} {rest : List (Int × Nat)}
    (hpq : σ.pq = (d, u) :: rest) (hstale : d > dv σ u) :
    DInv n g s { dist := σ.dist, pq := rest } T := by
  have hsub : ∀ e ∈ rest, e ∈ σ.pq := by
    intro e he; rw [hpq]; exact List.mem_cons_of_mem _ he
  have hdvsame : ∀ v, dv { dist := σ.dist, pq := rest } v = dv σ v := fun _ => rfl
  have hsT : s ∈ T := by
    by_contra hsT
    obtain ⟨hinit, hTnil⟩ := hI.base hsT
    have hpq0 : σ.pq = [(0, s)] := by rw [hinit]; rfl
    rw [hpq] at hpq0
    have hd : d = 0 := congrArg (fun l => (l.headD (0, 0)).1) hpq0
    have hus : u = s := congrArg (fun l => (l.headD (0, 0)).2) hpq0
    have : dv σ s = 0 := by
      rw [hinit]
      unfold dv dijkstraInit
      exact getD_set_self _ _ _ _ (by simpa using hs)
    rw [hd, hus, this] at hstale
    omega
  refine ⟨hI.len, ?_, ?_, hI.memT, hI.nodupT, fun x hx => hI.settled x hx, ?_, ?_, ?_, ?_⟩
  · have := hI.sorted
    rw [hpq] at this
    exact (List.pairwise_cons.mp this).2
  · intro h; exact absurd hsT h
  · intro x hx e he hex
    exact hI.settledPq x hx e (hsub e he) hex
  · intro e he
    exact hI.pqKeys e (hsub e he)
  · intro v hv hvT hvI
    have hcnt := hI.current v hv hvT hvI
    rw [hpq] at hcnt
    have hne : ((d, u) : Int × Nat) ≠ (dv σ v, v) := by
      intro h
      have h1 : d = dv σ v := congrArg Prod.fst h
      have h2 : u = v := congrArg Prod.snd h
      rw [h2] at hstale
      omega
    unfold countEntry at hcnt
    rw [if_neg hne] at hcnt
    simpa using hcnt
  · intro x hx q hq
    exact hI.relaxed x hx q hq

/-- Expanding a fresh vertex preserves the invariant, extending the trace.  -/
theorem dinv_expand {n : Nat} {g : Graph} {s : Nat} {σ : DState} {T : List Nat}
    (hs : s < n) (wf : WellFormed g n) (hn : Nonneg g n) (hb : totalWeight g n < INF)
    (hI : DInv n g s σ T) {d : Int} {u : Nat} {rest : List (Int × Nat)}
    (hpq : σ.pq = (d, u) :: rest) (hno : ¬ d > dv σ u) :
    u ∉ T ∧
      DInv n g s (relaxAll u (g.getD u []) { dist := σ.dist, pq := rest }) (T ++ [u]) := by
  obtain ⟨huT, hdu, hshort⟩ := dinv_settle hs wf hn hb hI hpq hno
  have hmem : (d, u) ∈ σ.pq := by rw [hpq]; exact List.mem_cons_self _ _
  obtain ⟨huN, _, hdle, _⟩ := hI.pqKeys _ hmem
  simp only at huN hdle
  refine ⟨huT, ?_⟩
  set σ1 : DState := { dist := σ.dist, pq := rest } with hσ1
  have hdvsame : ∀ v, dv σ1 v = dv σ v := fun _ => rfl
  have hsT2 : s ∈ T ++ [u] := by
    by_cases hsT : s ∈ T
    · exact List.mem_append.mpr (Or.inl hsT)
    · obtain ⟨hinit, hTnil⟩ := hI.base hsT
      have hpq0 : σ.pq = [(0, s)] := by rw [hinit]; rfl
      rw [hpq] at hpq0
      have hus : u = s := congrArg (fun l => (l.headD (0, 0)).2) hpq0
      rw [hus]
      simp
  have hIuINF : dv σ u ≠ INF := by
    unfold INF at hb ⊢
    omega
  have hcnt := hI.current u huN huT hIuINF
  have hcnt0 : countEntry rest (dv σ u, u) = 0 := by
    rw [hpq] at hcnt
    unfold countEntry at hcnt
    rw [if_pos (by rw [hdu])] at hcnt
    omega
  have hM : MidInv n g s u (T ++ [u]) σ1 [] := by
    constructor
    · exact hI.len
    · have := hI.sorted
      rw [hpq] at this
      exact (List.pairwise_cons.mp this).2
    · intro x hx
      rcases List.mem_append.mp hx with hx | hx
      · exact hI.memT x hx
      · simp at hx; omega
    · rw [List.nodup_append]
      refine ⟨hI.nodupT, by simp, ?_⟩
      intro a ha hau
      simp at hau
      subst hau
      exact huT ha
    · exact hsT2
    · simp
    · intro x hx
      rcases List.mem_append.mp hx with hx | hx
      · exact hI.settled x hx
      · have hxu : x = u := by simpa using hx
        subst hxu
        rw [hdvsame, ← hdu]
        exact hshort
    · intro x hx e he hex
      rcases List.mem_append.mp hx with hx | hx
      · exact hI.settledPq x hx e (by rw [hpq]; exact List.mem_cons_of_mem _ he) hex
      · have hxu : x = u := by simpa using hx
        rw [hxu, hdvsame]
        have hexu : e.2 = u := by rw [hex, hxu]
        have hkey := hI.pqKeys e (by rw [hpq]; exact List.mem_cons_of_mem _ he)
        have hge : dv σ u ≤ e.1 := by
          have := hkey.2.1
          rw [hexu] at this
          exact this
        rcases lt_or_eq_of_le hge with h | h
        · exact h
        · exfalso
          have hEq : e = (dv σ u, u) := by
            rcases e with ⟨e1, e2⟩
            simp only at hexu h
            rw [Prod.mk.injEq]
            exact ⟨h.symm, hexu⟩
          -- e is literally the current entry, which cannot still be in rest
          rw [hEq] at he
          have hmem2 : (dv σ u, u) ∈ rest := he
          exact absurd (countEntry_pos_iff.mpr hmem2) (by omega)
    · intro e he
      exact hI.pqKeys e (by rw [hpq]; exact List.mem_cons_of_mem _ he)
    · intro v hv hvT2 hvI
      have hvT : v ∉ T := fun h => hvT2 (List.mem_append.mpr (Or.inl h))
      have hvu : v ≠ u := fun h => hvT2 (by simp [h])
      have hcnt2 := hI.current v hv hvT hvI
      rw [hpq] at hcnt2
      unfold countEntry at hcnt2
      rw [if_neg (by
        intro h
        exact hvu (congrArg Prod.snd h).symm)] at hcnt2
      simpa using hcnt2
    · intro x hx hxu q hq
      have hxT : x ∈ T := by
        rcases List.mem_append.mp hx with hx | hx
        · exact hx
        · simp at hx; exact absurd hx hxu
      exact hI.relaxed x hxT q hq
    · intro q hq
      simp at hq
  have hfold := midinv_fold hs wf hn hb huN (g.getD u []) [] σ1 (by simp) hM
  simp only [List.nil_append] at hfold
  constructor
  · exact hfold.len
  · exact hfold.sorted
  · intro h; exact absurd hsT2 h
  · exact hfold.memT
  · exact hfold.nodupT
  · exact hfold.settled
  · exact hfold.settledPq
  · exact hfold.pqKeys
  · exact hfold.current
  · intro x hx q hq
    by_cases hxu : x = u
    · subst hxu
      exact hfold.relaxedU q hq
    · exact hfold.relaxedOld x hx hxu q hq


/-! ### Fuel accounting -/

/-- Remaining expansion capacity: one pop plus one push per edge for every
vertex not yet expanded. -/
def remCap (g : Graph) (n : Nat) (T : List Nat) : Nat :=
  (((List.range n).filter (fun u => decide (u ∉ T))).map
    (fun u => 1 + (g.getD u []).length)).sum

/-- Strictly decreasing measure of the `dijkstra` loop. -/
def dmeasure (g : Graph) (n : Nat) (σ : DState) (T : List Nat) : Nat :=
  σ.pq.length + remCap g n T

theorem filter_and_ne_of_not_mem {l T : List Nat} {u : Nat} (hu : u ∉ l) :
    l.filter (fun x => decide (x ∉ T ∧ x ≠ u)) = l.filter (fun x => decide (x ∉ T)) := by
  apply List.filter_congr
  intro x hx
  have hxu : x ≠ u := fun h => hu (h ▸ hx)
  simp [hxu]

theorem sum_filter_extract {l : List Nat} (hl : l.Nodup) (f : Nat → Nat) (T : List Nat)
    {u : Nat} (hu : u ∈ l) (hT : u ∉ T) :
    ((l.filter (fun x => decide (x ∉ T ∧ x ≠ u))).map f).sum + f u =
      ((l.filter (fun x => decide (x ∉ T))).map f).sum := by
  induction l with
  | nil => simp at hu
  | cons x xs ih =>
    rcases List.nodup_cons.mp hl with ⟨hxxs, hxs⟩
    by_cases hxu : x = u
    · subst hxu
      rw [List.filter_cons, List.filter_cons]
      rw [if_neg (by simp), if_pos (by simpa using hT)]
      rw [filter_and_ne_of_not_mem hxxs]
      simp only [List.map_cons, List.sum_cons]
      omega
    · have hu2 : u ∈ xs := by
        rcases List.mem_cons.mp hu with h | h
        · exact absurd h.symm hxu
        · exact h
      rw [List.filter_cons, List.filter_cons]
      by_cases hxT : x ∈ T
      · rw [if_neg (by simp [hxT]), if_neg (by simp [hxT])]
        exact ih hxs hu2
      · rw [if_pos (by simp [hxT, hxu]), if_pos (by simp [hxT])]
        simp only [List.map_cons, List.sum_cons]
        have := ih hxs hu2
        omega

theorem remCap_append {g : Graph} {n : Nat} {T : List Nat} {u : Nat}
    (hu : u < n) (hT : u ∉ T) :
    remCap g n (T ++ [u]) + (1 + (g.getD u []).length) = remCap g n T := by
  unfold remCap
  have hpred : (List.range n).filter (fun x => decide (x ∉ T ++ [u])) =
      (List.range n).filter (fun x => decide (x ∉ T ∧ x ≠ u)) := by
    apply List.filter_congr
    intro x _
    have hiff : (x ∉ T ++ [u]) ↔ (x ∉ T ∧ x ≠ u) := by
      simp [List.mem_append]
    simp [hiff]
  rw [hpred]
  exact sum_filter_extract (List.nodup_range n) _ T (List.mem_range.mpr hu) hT

theorem pqInsert_length (e : Int × Nat) (l : List (Int × Nat)) :
    (pqInsert e l).length = l.length + 1 := by
  induction l with
  | nil => rfl
  | cons x xs ih =>
    by_cases h : pairLe e x
    · rw [pqInsert, if_pos h]; rfl
    · rw [pqInsert, if_neg h]
      simp [ih]

theorem relaxStep_pq_length (u : Nat) (σ : DState) (p : Nat × Int) :
    (relaxStep u σ p).pq.length ≤ σ.pq.length + 1 := by
  unfold relaxStep
  by_cases h : wadd (σ.dist.getD u 0) p.2 < σ.dist.getD p.1 0
  · rw [if_pos h]
    simp [pqInsert_length]
  · rw [if_neg h]
    omega

theorem relaxAll_pq_length (u : Nat) (es : List (Nat × Int)) (σ : DState) :
    (relaxAll u es σ).pq.length ≤ σ.pq.length + es.length := by
  unfold relaxAll
  induction es generalizing σ with
  | nil => simp
  | cons p es2 ih =>
    have h1 := relaxStep_pq_length u σ p
    have h2 := ih (relaxStep u σ p)
    simp only [List.foldl_cons, List.length_cons]
    omega

theorem sum_map_one_add (l : List Nat) (f : Nat → Nat) :
    (l.map (fun x => 1 + f x)).sum = l.length + (l.map f).sum := by
  induction l with
  | nil => rfl
  | cons x xs ih => simp [ih]; omega

theorem range_getD_sum {α : Type} (l : List α) (d : α) (f : α → Nat) :
    ((List.range l.length).map (fun i => f (l.getD i d))).sum = (l.map f).sum := by
  induction l with
  | nil => rfl
  | cons x xs ih =>
    rw [show (x :: xs).length = xs.length + 1 from rfl, List.range_succ_eq_map]
    simp only [List.map_cons, List.sum_cons, List.map_map]
    show f x + ((List.range xs.length).map (fun i => f (xs.getD i d))).sum
        = f x + (xs.map f).sum
    rw [ih]

theorem remCap_nil {g : Graph} {n : Nat} (hlen : g.length = n) :
    remCap g n [] = n + totalEdges g := by
  unfold remCap
  have : (List.range n).filter (fun u => decide (u ∉ ([] : List Nat))) = List.range n := by
    simp
  rw [this, sum_map_one_add]
  simp only [List.length_range]
  congr 1
  rw [← hlen]
  exact range_getD_sum g [] List.length


/-! ### Running the loop -/

/-- The invariant holds at the initial state. -/
theorem dinv_init {n : Nat} {g : Graph} {s : Nat} (hs : s < n) (hn : Nonneg g n) :
    DInv n g s (dijkstraInit n s) [] := by
  have hset : dv (dijkstraInit n s) s = 0 := by
    unfold dv dijkstraInit
    exact getD_set_self _ _ _ _ (by simpa using hs)
  have hother : ∀ v, v < n → v ≠ s → dv (dijkstraInit n s) v = INF := by
    intro v hv hvs
    unfold dv dijkstraInit
    rw [getD_set_ne _ _ _ _ _ (fun h => hvs h.symm)]
    exact getD_replicate_lt _ _ _ _ hv
  constructor
  · simp [dijkstraInit]
  · simp [dijkstraInit]
  · intro _; exact ⟨rfl, rfl⟩
  · intro u hu; simp at hu
  · simp
  · intro u hu; simp at hu
  · intro u hu; simp at hu
  · intro e he
    simp only [dijkstraInit] at he
    have he2 : e = (0, s) := by simpa using he
    subst he2
    refine ⟨hs, le_of_eq hset, totalWeight_nonneg hn, .nil s, rfl⟩
  · intro v hv hvT hvI
    by_cases hvs : v = s
    · subst hvs
      rw [hset]
      simp [dijkstraInit, countEntry]
    · exact absurd (hother v hv hvs) hvI
  · intro u hu; simp at hu

/-- The main induction: given enough fuel, the loop maintains the invariant
and terminates with an empty frontier. -/
theorem dijkstraGoT_spec {n : Nat} {g : Graph} {s : Nat}
    (hs : s < n) (wf : WellFormed g n) (hn : Nonneg g n) (hb : totalWeight g n < INF) :
    ∀ (fuel : Nat) (σ : DState) (T : List Nat),
      DInv n g s σ T → dmeasure g n σ T ≤ fuel →
      DInv n g s (dijkstraGoT g fuel σ T).1 (dijkstraGoT g fuel σ T).2 ∧
        (dijkstraGoT g fuel σ T).1.pq = [] := by
  intro fuel
  induction fuel with
  | zero =>
    intro σ T hI hμ
    have hpq : σ.pq = [] := by
      have : σ.pq.length = 0 := by
        unfold dmeasure at hμ
        omega
      exact List.length_eq_zero.mp this
    exact ⟨hI, hpq⟩
  | succ fuel ih =>
    intro σ T hI hμ
    rcases hpq : σ.pq with _ | ⟨⟨d, u⟩, rest⟩
    · rw [show dijkstraGoT g (fuel + 1) σ T = (σ, T) from by simp [dijkstraGoT, hpq]]
      exact ⟨hI, hpq⟩
    · by_cases hg : d > σ.dist.getD u 0
      · have hnext := dinv_skip hs hI hpq hg
        have hμ2 : dmeasure g n { dist := σ.dist, pq := rest } T ≤ fuel := by
          unfold dmeasure at hμ ⊢
          rw [hpq] at hμ
          simp at hμ
          simpa using Nat.le_of_succ_le_succ (by omega)
        have := ih { dist := σ.dist, pq := rest } T hnext hμ2
        simpa only [dijkstraGoT, hpq, if_pos hg] using this
      · obtain ⟨huT, hnext⟩ := dinv_expand hs wf hn hb hI hpq hg
        have hmem : ((d, u) : Int × Nat) ∈ σ.pq := by
          rw [hpq]; exact List.mem_cons_self _ _
        have huN : u < n := (hI.pqKeys _ hmem).1
        have hμ2 : dmeasure g n
            (relaxAll u (g.getD u []) { dist := σ.dist, pq := rest }) (T ++ [u]) ≤ fuel := by
          have hrc := remCap_append (g := g) huN huT
          have hlenpq := relaxAll_pq_length u (g.getD u []) { dist := σ.dist, pq := rest }
          unfold dmeasure at hμ ⊢
          rw [hpq] at hμ
          simp only [List.length_cons] at hμ hlenpq
          omega
        have := ih _ _ hnext hμ2
        simpa only [dijkstraGoT, hpq, if_neg hg] using this

/-- The instrumented loop computes the same state as the plain loop. -/
theorem dijkstraGoT_fst (g : Graph) :
    ∀ (fuel : Nat) (σ : DState) (t : List Nat),
      (dijkstraGoT g fuel σ t).1 = dijkstraGo g fuel σ := by
  intro fuel
  induction fuel with
  | zero => intro σ t; rfl
  | succ fuel ih =>
    intro σ t
    rcases hpq : σ.pq with _ | ⟨⟨d, u⟩, rest⟩
    · simp only [dijkstraGoT, dijkstraGo, hpq]
    · by_cases hg : d > σ.dist.getD u 0
      · simp only [dijkstraGoT, dijkstraGo, hpq, if_pos hg, ih]
      · simp only [dijkstraGoT, dijkstraGo, hpq, if_neg hg, ih]


/-- Invariant and empty frontier at the end of the `dijkstra` run. -/
theorem dijkstra_final {n : Nat} {g : Graph} {s : Nat}
    (hs : s < n) (hlen : g.length = n) (wf : WellFormed g n) (hn : Nonneg g n)
    (hb : totalWeight g n < INF) :
    DInv n g s (dijkstraGoT g (1 + n + totalEdges g) (dijkstraInit n s) []).1
        (dijkstraGoT g (1 + n + totalEdges g) (dijkstraInit n s) []).2 ∧
      (dijkstraGoT g (1 + n + totalEdges g) (dijkstraInit n s) []).1.pq = [] := by
  apply dijkstraGoT_spec hs wf hn hb
  · exact dinv_init hs hn
  · unfold dmeasure
    rw [remCap_nil hlen]
    simp [dijkstraInit]
    omega

/-- Correctness of `dijkstra` in the absence of overflow: the returned array
holds the shortest-walk distance for every reachable vertex and the sentinel
`INF` for every unreachable one. -/
theorem dijkstra_shortest_distances {n : Nat} {g : Graph} {s : Nat}
    (hs : s < n) (hlen : g.length = n) (wf : WellFormed g n) (hn : Nonneg g n)
    (hb : totalWeight g n < INF) :
    ∀ v, v < n →
      (DReachable g s v → IsShortestDist g s v ((dijkstra n g s).getD v 0)) ∧
      (¬ DReachable g s v → (dijkstra n g s).getD v 0 = INF) := by
  obtain ⟨hIf, hpqf⟩ := dijkstra_final hs hlen wf hn hb
  set σf := (dijkstraGoT g (1 + n + totalEdges g) (dijkstraInit n s) []).1 with hσf
  set Tf := (dijkstraGoT g (1 + n + totalEdges g) (dijkstraInit n s) []).2 with hTf
  have hdist : dijkstra n g s = σf.dist := by
    unfold dijkstra
    rw [hσf, dijkstraGoT_fst]
  have key1 : ∀ v, v < n → v ∉ Tf → dv σf v = INF := by
    intro v hv hvT
    by_contra hne
    have := hIf.current v hv hvT hne
    rw [hpqf] at this
    simp [countEntry] at this
  have hsTf : s ∈ Tf := by
    by_contra hsT
    obtain ⟨hinit, _⟩ := hIf.base hsT
    have : σf.pq = [(0, s)] := by rw [hinit]; rfl
    rw [hpqf] at this
    simp at this
  intro v hv
  constructor
  · rintro ⟨ω⟩
    by_cases hvT : v ∈ Tf
    · have := hIf.settled v hvT
      rw [hdist]
      exact this
    · exfalso
      obtain ⟨e, he, _⟩ := dinv_cover hs wf hn hb hIf ω hsTf hvT
      rw [hpqf] at he
      simp at he
  · intro hnr
    by_cases hvT : v ∈ Tf
    · exfalso
      obtain ⟨⟨ω0, _⟩, _⟩ := hIf.settled v hvT
      exact hnr ⟨ω0⟩
    · rw [hdist]
      exact key1 v hv hvT

/-- Under the same no-overflow conditions the expansion trace of `dijkstra`
never repeats a vertex: a closed vertex is never expanded a second time. -/
theorem dijkstra_trace_nodup {n : Nat} {g : Graph} {s : Nat}
    (hs : s < n) (hlen : g.length = n) (wf : WellFormed g n) (hn : Nonneg g n)
    (hb : totalWeight g n < INF) :
    (dijkstraTrace n g s).Nodup :=
  (dijkstra_final hs hlen wf hn hb).1.nodupT

/-! ### Weight bumping (for the monotonicity claim) -/

theorem get?_set_self {α : Type} (l : List α) (i : Nat) (a : α) (h : i < l.length) :
    (l.set i a).get? i = some a := by
  induction l generalizing i with
  | nil => simp at h
  | cons x xs ih =>
    cases i with
    | zero => rfl
    | succ j => simpa [List.set] using ih j (by simpa using h)

theorem get?_set_ne {α : Type} (l : List α) (i j : Nat) (a : α) (h : i ≠ j) :
    (l.set i a).get? j = l.get? j := by
  induction l generalizing i j with
  | nil => simp [List.set]
  | cons x xs ih =>
    cases i with
    | zero =>
      cases j with
      | zero => exact absurd rfl h
      | succ j2 => rfl
    | succ i2 =>
      cases j with
      | zero => rfl
      | succ j2 => simpa [List.set] using ih i2 j2 (by omega)

/-- Every adjacency entry of `g` appears in `bump g u i inc` with the same
target and a weight at least as large. -/
theorem bump_entry_ge {g : Graph} {u i : Nat} {inc : Int} (hinc : 0 ≤ inc)
    {a j : Nat} {b : Nat} {w : Int} (h : (g.getD a []).get? j = some (b, w)) :
    ∃ w2, ((bump g u i inc).getD a []).get? j = some (b, w2) ∧ w ≤ w2 := by
  unfold bump
  rcases hcase : (g.getD u []).get? i with _ | ⟨v0, w0⟩
  · exact ⟨w, h, le_rfl⟩
  · have hrow : u < g.length := by
      by_contra hle
      rw [getD_ge_length g u [] (by omega)] at hcase
      simp at hcase
    by_cases hau : a = u
    · subst hau
      rw [getD_set_self g a _ [] hrow]
      by_cases hji : j = i
      · subst hji
        rw [hcase] at h
        have hb2 : b = v0 ∧ w = w0 := by
          have := h
          simp at this
          exact ⟨this.1.symm, this.2.symm⟩
        obtain ⟨rfl, rfl⟩ := hb2
        refine ⟨w + inc, ?_, by omega⟩
        have hilen : j < (g.getD a []).length := by
          by_contra hle
          rw [List.get?_eq_none.mpr (by omega)] at hcase
          simp at hcase
        rw [get?_set_self _ _ _ hilen]
      · rw [get?_set_ne _ _ _ _ (fun hh => hji hh.symm)]
        exact ⟨w, h, le_rfl⟩
    · rw [getD_set_ne g u a _ [] (fun hh => hau hh.symm)]
      exact ⟨w, h, le_rfl⟩

/-- Conversely, every adjacency entry of `bump g u i inc` comes from an entry
of `g` with the same target and a weight no larger. -/
theorem bump_entry_le {g : Graph} {u i : Nat} {inc : Int} (hinc : 0 ≤ inc)
    {a j : Nat} {b : Nat} {w2 : Int}
    (h : ((bump g u i inc).getD a []).get? j = some (b, w2)) :
    ∃ w, (g.getD a []).get? j = some (b, w) ∧ w ≤ w2 := by
  unfold bump at h
  rcases hcase : (g.getD u []).get? i with _ | ⟨v0, w0⟩
  · rw [hcase] at h
    exact ⟨w2, h, le_rfl⟩
  · rw [hcase] at h
    have hrow : u < g.length := by
      by_contra hle
      rw [getD_ge_length g u [] (by omega)] at hcase
      simp at hcase
    by_cases hau : a = u
    · subst hau
      rw [getD_set_self g a _ [] hrow] at h
      by_cases hji : j = i
      · subst hji
        have hilen : j < (g.getD a []).length := by
          by_contra hle
          rw [List.get?_eq_none.mpr (by omega)] at hcase
          simp at hcase
        rw [get?_set_self _ _ _ hilen] at h
        have hb2 : b = v0 ∧ w2 = w0 + inc := by
          simp at h
          exact ⟨h.1.symm, h.2.symm⟩
        obtain ⟨rfl, rfl⟩ := hb2
        exact ⟨w0, hcase, by omega⟩
      · rw [get?_set_ne _ _ _ _ (fun hh => hji hh.symm)] at h
        exact ⟨w2, h, le_rfl⟩
    · rw [getD_set_ne g u a _ [] (fun hh => hau hh.symm)] at h
      exact ⟨w2, h, le_rfl⟩

/-- Walks of `g` transfer to `bump g u i inc` without decreasing their cost. -/
theorem dwalk_to_bump {g : Graph} {u i : Nat} {inc : Int} (hinc : 0 ≤ inc)
    {a b : Nat} (ω : DWalk g a b) :
    ∃ ω2 : DWalk (bump g u i inc) a b, ω.cost ≤ ω2.cost := by
  induction ω with
  | nil a => exact ⟨.nil a, le_rfl⟩
  | cons a w j h rest ih =>
    obtain ⟨ω2, hc⟩ := ih
    obtain ⟨w2, h2, hw⟩ := bump_entry_ge hinc h
    exact ⟨.cons a w2 j h2 ω2, by simp [DWalk.cost]; omega⟩

/-- Walks of `bump g u i inc` transfer to `g` without increasing their cost. -/
theorem dwalk_of_bump {g : Graph} {u i : Nat} {inc : Int} (hinc : 0 ≤ inc)
    {a b : Nat} (ω : DWalk (bump g u i inc) a b) :
    ∃ ω1 : DWalk g a b, ω1.cost ≤ ω.cost := by
  induction ω with
  | nil a => exact ⟨.nil a, le_rfl⟩
  | cons a w2 j h rest ih =>
    obtain ⟨ω1, hc⟩ := ih
    obtain ⟨w, h1, hw⟩ := bump_entry_le hinc h
    exact ⟨.cons a w j h1 ω1, by simp [DWalk.cost]; omega⟩


theorem bump_length (g : Graph) (u i : Nat) (inc : Int) :
    (bump g u i inc).length = g.length := by
  unfold bump
  rcases (g.getD u []).get? i with _ | p
  · rfl
  · rcases p with ⟨v, w⟩
    simp

theorem bump_wf {g : Graph} {n : Nat} (wf : WellFormed g n) (u i : Nat) {inc : Int}
    (hinc : 0 ≤ inc) : WellFormed (bump g u i inc) n := by
  intro a ha p hp
  obtain ⟨j, hj⟩ := List.mem_iff_get?.mp hp
  obtain ⟨w, hw, _⟩ := bump_entry_le hinc (by rw [hj])
  exact wf a ha (p.1, w) (List.get?_mem hw)

theorem bump_nonneg {g : Graph} {n : Nat} (hn : Nonneg g n) (u i : Nat) {inc : Int}
    (hinc : 0 ≤ inc) : Nonneg (bump g u i inc) n := by
  intro a ha p hp
  obtain ⟨j, hj⟩ := List.mem_iff_get?.mp hp
  obtain ⟨w, hw, hle⟩ := bump_entry_le hinc (by rw [hj])
  have := hn a ha (p.1, w) (List.get?_mem hw)
  simp only at this
  omega

/-- C7 (amended with a no-overflow bound on both graphs): increasing one
edge weight cannot decrease any reported distance. -/
theorem dijkstra_monotone {n : Nat} {g : Graph} {s : Nat}
    (hs : s < n) (hlen : g.length = n) (wf : WellFormed g n) (hn : Nonneg g n)
    (hb : totalWeight g n < INF) (u i : Nat) {inc : Int} (hinc : 0 ≤ inc)
    (hb2 : totalWeight (bump g u i inc) n < INF) :
    ∀ v, v < n → (dijkstra n g s).getD v 0 ≤ (dijkstra n (bump g u i inc) s).getD v 0 := by
  have hlen2 : (bump g u i inc).length = n := by rw [bump_length]; exact hlen
  have wf2 := bump_wf wf u i hinc
  have hn2 := bump_nonneg hn u i hinc
  have H1 := dijkstra_shortest_distances hs hlen wf hn hb
  have H2 := dijkstra_shortest_distances hs hlen2 wf2 hn2 hb2
  intro v hv
  by_cases hr : DReachable g s v
  · have hr2 : DReachable (bump g u i inc) s v := by
      obtain ⟨ω⟩ := hr
      obtain ⟨ω2, _⟩ := dwalk_to_bump (u := u) (i := i) hinc ω
      exact ⟨ω2⟩
    obtain ⟨⟨ω2a, hω2a⟩, _⟩ := (H2 v hv).1 hr2
    obtain ⟨_, hmin1⟩ := (H1 v hv).1 hr
    obtain ⟨ω1, hc1⟩ := dwalk_of_bump hinc ω2a
    calc (dijkstra n g s).getD v 0 ≤ ω1.cost := hmin1 ω1
      _ ≤ ω2a.cost := hc1
      _ = _ := hω2a
  · have hr2 : ¬ DReachable (bump g u i inc) s v := by
      intro h2
      apply hr
      obtain ⟨ω2⟩ := h2
      obtain ⟨ω1, _⟩ := dwalk_of_bump hinc ω2
      exact ⟨ω1⟩
    rw [(H1 v hv).2 hr, (H2 v hv).2 hr2]


/-! ### The A* engine (src/a_star.cpp)

Cells are addressed by `(row, column)`; the per-node record corresponds to
the C++ `Node` (its `row`/`col` fields are the cell's own address and are
represented by the position in the array; pointers become cell addresses).
`float` costs only ever hold small non-negative integers here (unit steps
and Manhattan distances), on which `float` arithmetic is exact, so they are
modelled as `Nat`. -/

/-- The C++ `Node` record (constructor, lines 19-27): every cost starts at
0 — not at infinity — and the parent pointer starts null. -/
structure Node where
  gCost : Nat
  hCost : Nat
  fCost : Nat
  parent : Option (Nat × Nat)
deriving DecidableEq

/-- `Node(r, c)`: the freshly constructed record. -/
def newNode : Node := { gCost := 0, hCost := 0, fCost := 0, parent := none }

/-- `heuristicManhattan` (lines 37-39): `|r1-r2| + |c1-c2|` on `int`s. -/
def heuristicManhattan (r1 c1 r2 c2 : Nat) : Nat :=
  ((r1 : Int) - r2).natAbs + ((c1 : Int) - c2).natAbs

/-- `isValid` (lines 42-44). -/
def isValid (row col : Int) (rows cols : Nat) : Bool :=
  decide (0 ≤ row) && decide (row < (rows : Int)) &&
    decide (0 ≤ col) && decide (col < (cols : Int))

/-- Read entry `(r, c)` of a 2-dimensional vector, with a default for the
out-of-bounds (undefined-behaviour) case. -/
def getCell {α : Type} (m : List (List α)) (d : α) (r c : Nat) : α :=
  (m.getD r []).getD c d

/-- Write entry `(r, c)` of a 2-dimensional vector (no-op out of bounds). -/
def setCell {α : Type} (m : List (List α)) (r c : Nat) (a : α) : List (List α) :=
  m.set r ((m.getD r []).set c a)

/-- The state of the `aStarSearch` loop: `allNodes`, `closedSet` and the
open set, the latter as the list of cells pushed and not yet popped. -/
structure AState where
  nodes : List (List Node)
  closedSet : List (List Bool)
  openSet : List (Nat × Nat)

/-- The idealized frontier extraction: the current minimum-`fCost` element
of the open set, earliest pushed among ties.  This is what the C++ heap
would pop if its invariant held; because the relax step mutates `fCost`
inside the heap, the real `top()` can differ (the exact semantics is
`heapPop` below).  Claims that depend only on the closed-set check
(start = goal, path and trace duplicate-freedom, determinism) are
insensitive to this choice. -/
def minFCost (nodes : List (List Node)) : (Nat × Nat) → List (Nat × Nat) → Nat × Nat
  | c0, [] => c0
  | c0, c :: cs =>
    if (getCell nodes newNode c.1 c.2).fCost < (getCell nodes newNode c0.1 c0.2).fCost
    then minFCost nodes c cs else minFCost nodes c0 cs

/-- Remove the first occurrence of a cell from the open list (the pop). -/
def removeFirst : List (Nat × Nat) → (Nat × Nat) → List (Nat × Nat)
  | [], _ => []
  | c :: cs, x => if c = x then cs else c :: removeFirst cs x

/-- `dRow`/`dCol` (lines 76-77), in order: up, down, left, right. -/
def dirs : List (Int × Int) := [(-1, 0), (1, 0), (0, -1), (0, 1)]

/-- The body of the neighbour loop (lines 114-132) for one direction:
bounds check, obstacle check, closed check, then the relaxation
`tentativeGCost < gCost || parent == nullptr` with its updates and push. -/
def exploreDir (grid : List (List Int)) (rows cols goalRow goalCol : Nat)
    (cur : Nat × Nat) (σ : AState) (dir : Int × Int) : AState :=
  let nrI : Int := (cur.1 : Int) + dir.1
  let ncI : Int := (cur.2 : Int) + dir.2
  if isValid nrI ncI rows cols then
    let nr := nrI.toNat
    let nc := ncI.toNat
    if getCell grid 0 nr nc = 1 then σ
    else if getCell σ.closedSet false nr nc then σ
    else
      let tentative := (getCell σ.nodes newNode cur.1 cur.2).gCost + 1
      let nbr := getCell σ.nodes newNode nr nc
      if tentative < nbr.gCost ∨ nbr.parent = none then
        let h2 := heuristicManhattan nr nc goalRow goalCol
        let nbr2 : Node :=
          { gCost := tentative, hCost := h2, fCost := tentative + h2, parent := some cur }
        { σ with nodes := setCell σ.nodes nr nc nbr2, openSet := σ.openSet ++ [(nr, nc)] }
      else σ
  else σ

/-- Path reconstruction (lines 95-100): follow `parent` from the goal.  The
chain is fuel-bounded; `rows * cols + 1` covers every parent chain the
search can build (parents strictly decrease `gCost`). -/
def tracePath (nodes : List (List Node)) : Nat → (Nat × Nat) → List (Nat × Nat)
  | 0, _ => []
  | fuel + 1, c =>
    match (getCell nodes newNode c.1 c.2).parent with
    | none => [c]
    | some p => c :: tracePath nodes fuel p

/-- The `while(!openSet.empty())` loop (lines 81-133) under the idealized
frontier, with fuel. -/
def aStarGo (grid : List (List Int)) (rows cols goalRow goalCol : Nat) :
    Nat → AState → List (Nat × Nat)
  | 0, _ => []
  | fuel + 1, σ =>
    match σ.openSet with
    | [] => []
    | c0 :: cs =>
      let cur := minFCost σ.nodes c0 cs
      let rest := removeFirst σ.openSet cur
      if getCell σ.closedSet false cur.1 cur.2 then
        aStarGo grid rows cols goalRow goalCol fuel { σ with openSet := rest }
      else
        let σ1 : AState :=
          { σ with closedSet := setCell σ.closedSet cur.1 cur.2 true, openSet := rest }
        if cur = (goalRow, goalCol) then
          (tracePath σ1.nodes (rows * cols + 1) (goalRow, goalCol)).reverse
        else
          aStarGo grid rows cols goalRow goalCol fuel
            (dirs.foldl (exploreDir grid rows cols goalRow goalCol cur) σ1)

/-- `aStarGo` instrumented with the list of expanded (closed) cells in
order; used to state the no-re-expansion claim. -/
def aStarGoT (grid : List (List Int)) (rows cols goalRow goalCol : Nat) :
    Nat → AState → List (Nat × Nat) → List (Nat × Nat) × List (Nat × Nat)
  | 0, _, t => ([], t)
  | fuel + 1, σ, t =>
    match σ.openSet with
    | [] => ([], t)
    | c0 :: cs =>
      let cur := minFCost σ.nodes c0 cs
      let rest := removeFirst σ.openSet cur
      if getCell σ.closedSet false cur.1 cur.2 then
        aStarGoT grid rows cols goalRow goalCol fuel { σ with openSet := rest } t
      else
        let σ1 : AState :=
          { σ with closedSet := setCell σ.closedSet cur.1 cur.2 true, openSet := rest }
        if cur = (goalRow, goalCol) then
          ((tracePath σ1.nodes (rows * cols + 1) (goalRow, goalCol)).reverse, t ++ [cur])
        else
          aStarGoT grid rows cols goalRow goalCol fuel
            (dirs.foldl (exploreDir grid rows cols goalRow goalCol cur) σ1) (t ++ [cur])

/-- The initial state of `aStarSearch` (lines 54-73): all nodes fresh, the
start node's heuristic fields filled in, start pushed. -/
def aStarInit (grid : List (List Int)) (startRow startCol goalRow goalCol : Nat) : AState :=
  let rows := grid.length
  let cols := (grid.getD 0 []).length
  let base : List (List Node) := List.replicate rows (List.replicate cols newNode)
  let h0 := heuristicManhattan startRow startCol goalRow goalCol
  let startNode : Node := { gCost := 0, hCost := h0, fCost := h0, parent := none }
  { nodes := setCell base startRow startCol startNode,
    closedSet := List.replicate rows (List.replicate cols false),
    openSet := [(startRow, startCol)] }

/-- `aStarSearch` from src/a_star.cpp.  The fuel `5 * rows * cols + 1` is
proved sufficient: every iteration either pops without pushing or closes a
fresh in-bounds cell and pushes at most four. -/
def aStarSearch (grid : List (List Int)) (startRow startCol goalRow goalCol : Nat) :
    List (Nat × Nat) :=
  let rows := grid.length
  let cols := (grid.getD 0 []).length
  aStarGo grid rows cols goalRow goalCol (5 * rows * cols + 1)
    (aStarInit grid startRow startCol goalRow goalCol)

/-- The expansion trace of the same run. -/
def aStarTrace (grid : List (List Int)) (startRow startCol goalRow goalCol : Nat) :
    List (Nat × Nat) :=
  (aStarGoT grid grid.length (grid.getD 0 []).length goalRow goalCol
    (5 * grid.length * (grid.getD 0 []).length + 1)
    (aStarInit grid startRow startCol goalRow goalCol) []).2

/-- The first lines of `aStarSearch` (`int rows = grid.size(); int cols =
grid[0].size();`) with the vector read modelled as fallible: `grid[0]` on an
empty grid is an out-of-bounds access, undefined behaviour in C++, not an
exception. -/
def aStarDims (grid : List (List Int)) : Option (Nat × Nat) :=
  match grid with
  | [] => none
  | r :: _ => some (grid.length, r.length)

/-! ### Grid walks (the specification side for A*) -/

/-- The cell value the search reads (0 is the out-of-bounds default the
model uses; theorems only evaluate it in bounds). -/
def cellVal (grid : List (List Int)) (c : Nat × Nat) : Int := getCell grid 0 c.1 c.2

/-- In bounds for the dimensions `aStarSearch` computes, and not an
obstacle (the code treats exactly the value 1 as blocked). -/
def walkableCell (grid : List (List Int)) (c : Nat × Nat) : Prop :=
  c.1 < grid.length ∧ c.2 < (grid.getD 0 []).length ∧ cellVal grid c ≠ 1

instance (grid : List (List Int)) (c : Nat × Nat) : Decidable (walkableCell grid c) := by
  unfold walkableCell; infer_instance

/-- One orthogonal step. -/
def adjCell (a b : Nat × Nat) : Prop :=
  (a.1 = b.1 ∧ (a.2 + 1 = b.2 ∨ b.2 + 1 = a.2)) ∨
    (a.2 = b.2 ∧ (a.1 + 1 = b.1 ∨ b.1 + 1 = a.1))

instance (a b : Nat × Nat) : Decidable (adjCell a b) := by
  unfold adjCell; infer_instance

/-- A 4-connected walk over walkable cells. -/
inductive GWalk (grid : List (List Int)) : (Nat × Nat) → (Nat × Nat) → Type where
  | nil (a : Nat × Nat) (ha : walkableCell grid a) : GWalk grid a a
  | cons {b c : Nat × Nat} (a : Nat × Nat) (hadj : adjCell a b)
      (ha : walkableCell grid a) (rest : GWalk grid b c) : GWalk grid a c

/-- Number of steps (edges) of a walk. -/
def GWalk.steps {grid : List (List Int)} : {a b : Nat × Nat} → GWalk grid a b → Nat
  | _, _, .nil _ _ => 0
  | _, _, .cons _ _ _ rest => 1 + rest.steps

/-- The cells a walk visits, in order, starting cell included. -/
def GWalk.cells {grid : List (List Int)} : {a b : Nat × Nat} → GWalk grid a b → List (Nat × Nat)
  | _, _, .nil a _ => [a]
  | _, _, .cons a _ _ rest => a :: rest.cells

/-- `b` can be reached from `a` through walkable cells. -/
def GReachable (grid : List (List Int)) (a b : Nat × Nat) : Prop := Nonempty (GWalk grid a b)

/-- `k` is the length of a true shortest 4-connected path from `a` to `b`. -/
def IsShortestPathLen (grid : List (List Int)) (a b : Nat × Nat) (k : Nat) : Prop :=
  (∃ ω : GWalk grid a b, ω.steps = k) ∧ ∀ ω : GWalk grid a b, k ≤ ω.steps


/-! ### 2-dimensional array lemmas -/

theorem getCell_replicate {α : Type} (r c : Nat) (x : α) (a b : Nat) :
    getCell (List.replicate r (List.replicate c x)) x a b = x := by
  unfold getCell
  by_cases har : a < r
  · rw [getD_replicate_lt r a _ [] har]
    by_cases hbc : b < c
    · exact getD_replicate_lt c b _ _ hbc
    · exact getD_ge_length _ _ _ (by simpa using hbc)
  · rw [getD_ge_length (List.replicate r (List.replicate c x)) a ([] : List α)
      (by simp [List.length_replicate]; omega)]
    simp

theorem length_setCell {α : Type} (m : List (List α)) (r c : Nat) (a : α) :
    (setCell m r c a).length = m.length := by
  unfold setCell
  simp

theorem getD_row_setCell_self {α : Type} (m : List (List α)) (r c : Nat) (a : α)
    (hr : r < m.length) :
    (setCell m r c a).getD r [] = (m.getD r []).set c a := by
  unfold setCell
  exact getD_set_self _ _ _ _ hr

theorem getD_row_setCell_ne {α : Type} (m : List (List α)) (r c r2 : Nat) (a : α)
    (h : r ≠ r2) : (setCell m r c a).getD r2 [] = m.getD r2 [] := by
  unfold setCell
  exact getD_set_ne _ _ _ _ _ h

theorem getCell_setCell_self {α : Type} (m : List (List α)) (r c : Nat) (a d : α)
    (hr : r < m.length) (hc : c < (m.getD r []).length) :
    getCell (setCell m r c a) d r c = a := by
  unfold getCell
  rw [getD_row_setCell_self m r c a hr]
  exact getD_set_self _ _ _ _ hc

theorem getCell_setCell_ne {α : Type} (m : List (List α)) (r c r2 c2 : Nat) (a d : α)
    (h : (r, c) ≠ (r2, c2)) :
    getCell (setCell m r c a) d r2 c2 = getCell m d r2 c2 := by
  unfold getCell
  by_cases hr : r = r2
  · subst hr
    have hc : c ≠ c2 := fun hcc => h (by rw [hcc])
    by_cases hlen : r < m.length
    · rw [getD_row_setCell_self m r c a hlen]
      exact getD_set_ne _ _ _ _ _ hc
    · unfold setCell
      rw [List.set_eq_of_length_le (by omega)]
  · rw [getD_row_setCell_ne m r c r2 a hr]

/-- Row lengths are unchanged by `setCell`. -/
theorem length_row_setCell {α : Type} (m : List (List α)) (r c r2 : Nat) (a : α) :
    ((setCell m r c a).getD r2 []).length = (m.getD r2 []).length := by
  by_cases hr : r = r2
  · subst hr
    by_cases hlen : r < m.length
    · rw [getD_row_setCell_self m r c a hlen]
      simp
    · unfold setCell
      rw [List.set_eq_of_length_le (by omega)]
  · rw [getD_row_setCell_ne m r c r2 a hr]


/-- C8: when start and goal coincide (walkable, in bounds), the search
returns the single-cell path: the start is popped first, closed, recognised as the
goal, and its null parent ends the reconstruction at once. -/
theorem aStar_start_eq_goal (grid : List (List Int)) (sr sc : Nat)
    (hw : walkableCell grid (sr, sc)) :
    aStarSearch grid sr sc sr sc = [(sr, sc)] := by
  obtain ⟨hr, hc, _⟩ := hw
  simp only at hr hc
  unfold aStarSearch aStarInit
  simp only [aStarGo]
  have hclosed : getCell
      (List.replicate grid.length (List.replicate (grid.getD 0 []).length false))
      false sr sc = false := getCell_replicate _ _ _ _ _
  have hmin : minFCost (setCell
      (List.replicate grid.length (List.replicate (grid.getD 0 []).length newNode))
      sr sc
      { gCost := 0, hCost := heuristicManhattan sr sc sr sc,
        fCost := heuristicManhattan sr sc sr sc, parent := none }) (sr, sc) [] = (sr, sc) := rfl
  rw [hmin]
  rw [show removeFirst [(sr, sc)] (sr, sc) = [] from by simp [removeFirst]]
  rw [hclosed]
  simp only [Bool.false_eq_true, if_false, if_pos rfl]
  simp only [tracePath]
  have hparent : getCell (setCell
      (List.replicate grid.length (List.replicate (grid.getD 0 []).length newNode))
      sr sc
      { gCost := 0, hCost := heuristicManhattan sr sc sr sc,
        fCost := heuristicManhattan sr sc sr sc, parent := none }) newNode sr sc =
      { gCost := 0, hCost := heuristicManhattan sr sc sr sc,
        fCost := heuristicManhattan sr sc sr sc, parent := none } := by
    apply getCell_setCell_self
    · simpa using hr
    · rw [getD_replicate_lt _ _ _ _ (by simpa using hr)]
      simpa using hc
  rw [hparent]
  simp


/-! ### Claim-level statements, witnesses and counterexamples -/

/-- The worked example of the specification: 5 vertices, 6 undirected edges. -/
def g5 : Graph :=
  [[(1, 4), (2, 2)], [(0, 4), (2, 3), (3, 2)], [(0, 2), (1, 3), (3, 4)],
   [(1, 2), (2, 4), (4, 1)], [(3, 1)]]

/-- Non-negative weights whose path sums exceed `INT_MAX`. -/
def gOVF : Graph := [[(1, 2147483646)], [(2, 2)], []]

/-- A walk of `gOVF` reaching vertex 2. -/
def wOVF : DWalk gOVF 0 2 := .cons 0 2147483646 0 rfl (.cons 1 2 0 rfl (.nil 2))

/-- Non-negative weights that make `dijkstra` expand vertex 1 twice. -/
def gC6 : Graph := [[(1, 1), (2, 2000000000)], [], [(1, 2000000000)]]

/-- Base graph for the weight-increase counterexample. -/
def gC7 : Graph := [[(1, 100)], [(2, 2)], []]

/-- C1 (amended with a no-overflow bound): for every graph with
non-negative weights whose total weight stays below `INT_MAX` (so that no
`int` addition overflows), well-formed (`n` rows, targets in range) and
every source in `[0, n)`: the array returned by `dijkstra` holds, for every vertex reachable from the source, exactly the
minimum possible sum of edge weights over the walks from the source to it,
and holds the sentinel `INF = INT_MAX` for every unreachable vertex. -/
theorem dijkstra_returns_shortest_or_sentinel {n : Nat} {g : Graph} {s : Nat}
    (hs : s < n) (hlen : g.length = n) (wf : WellFormed g n) (hn : Nonneg g n)
    (hb : totalWeight g n < INF) :
    ∀ v, v < n →
      (DReachable g s v → IsShortestDist g s v ((dijkstra n g s).getD v 0)) ∧
      (¬ DReachable g s v → (dijkstra n g s).getD v 0 = INF) :=
  dijkstra_shortest_distances hs hlen wf hn hb

/-- A walk of `g5` from 0 to 4. -/
def w5 : DWalk g5 0 4 :=
  .cons 0 2 1 rfl (.cons 2 4 2 rfl (.cons 3 1 2 rfl (.nil 4)))

theorem dijkstra_returns_shortest_or_sentinel_witness :
    (0 < 5 ∧ Nonneg g5 5 ∧ totalWeight g5 5 < INF) ∧
      (dijkstra 5 g5 0).getD 4 0 = 7 ∧
      IsShortestDist g5 0 4 ((dijkstra 5 g5 0).getD 4 0) :=
  ⟨⟨by decide, by decide, by decide⟩, by decide,
    (dijkstra_returns_shortest_or_sentinel (n := 5) (g := g5) (s := 0)
      (by decide) rfl (by decide) (by decide) (by decide) 4 (by decide)).1 ⟨w5⟩⟩

/-- Counterexample to the unconditional claim: with non-negative weights
whose sums overflow `int`, `dijkstra` reports a negative number for a
reachable vertex, which no walk attains. -/
theorem dijkstra_overflow_breaks_shortestness :
    Nonneg gOVF 3 ∧ DReachable gOVF 0 2 ∧
      ¬ IsShortestDist gOVF 0 2 ((dijkstra 3 gOVF 0).getD 2 0) := by
  refine ⟨by decide, ⟨wOVF⟩, ?_⟩
  rintro ⟨⟨ω, hω⟩, -⟩
  have hval : (dijkstra 3 gOVF 0).getD 2 0 = -2147483648 := by decide
  have hnn : 0 ≤ ω.cost :=
    DWalk.cost_nonneg (n := 3) (by decide) ω (DWalk.verts_lt (by decide) ω (by decide))
  rw [hval] at hω
  omega

theorem dijkstra_monotone_witness :
    (Nonneg g5 5 ∧ (0 : Int) ≤ 5 ∧ totalWeight (bump g5 0 0 5) 5 < INF) ∧
      (dijkstra 5 g5 0).getD 1 0 ≤ (dijkstra 5 (bump g5 0 0 5) 0).getD 1 0 :=
  ⟨⟨by decide, by decide, by decide⟩,
    dijkstra_monotone (n := 5) (g := g5) (s := 0) (by decide) rfl (by decide)
      (by decide) (by decide) 0 0 (by decide) (by decide) 1 (by decide)⟩

/-- Counterexample to the unconditional monotonicity claim: increasing one
edge weight of `gC7` overflows a path sum and makes a reported distance
drop. -/
theorem dijkstra_weight_increase_can_decrease :
    Nonneg gC7 3 ∧ Nonneg (bump gC7 0 0 2147483546) 3 ∧ (0 : Int) ≤ 2147483546 ∧
      (dijkstra 3 (bump gC7 0 0 2147483546) 0).getD 2 0 <
        (dijkstra 3 gC7 0).getD 2 0 := by decide

/-- Counterexample to the unconditional no-re-expansion claim: with
non-negative weights whose sums overflow `int`, `dijkstra` expands vertex 1
twice (its trace is `[0, 1, 2, 1]`). -/
theorem dijkstra_overflow_reexpands :
    Nonneg gC6 3 ∧ dijkstraTrace 3 gC6 0 = [0, 1, 2, 1] ∧
      ¬ (dijkstraTrace 3 gC6 0).Nodup := by decide

/-- C3 (refuted): neither function validates its inputs: `aStarSearch` runs the search
even when the start cell is an obstacle and silently returns a non-empty
path through it, and `dijkstra` silently computes with a negative edge
weight.  No `InvalidInputError` (or any other exception) exists in the
code. -/
theorem no_invalid_input_error :
    (¬ walkableCell [[1, 0]] (0, 0) ∧ aStarSearch [[1, 0]] 0 0 0 1 = [(0, 0), (0, 1)]) ∧
      ((-5 : Int) < 0 ∧ dijkstra 2 [[(1, -5)], []] 0 = [0, -5]) := by decide

/-- C4 (refuted): neither function checks for an empty input: on a zero-row grid
`aStarSearch` immediately reads `grid[0]` (out of bounds, undefined
behaviour), and with zero nodes `dijkstra` immediately writes `dist[source]`
(out of bounds, undefined behaviour).  No `EmptyGraphError` is raised. -/
theorem no_empty_graph_error :
    aStarDims [] = none ∧ distInitChecked 0 0 = none := by decide

/-- Counterexample to the claimed `+infinity` initialisation: in the A*
engine every node starts with `bestCost` (`gCost`) equal to 0 — the same
value as the start node — and a finite candidate such as 1 does not
strictly improve it; the code marks the absence of a recorded cost with a
null parent instead. -/
theorem aStar_initial_gcost_zero :
    (getCell (aStarInit [[0, 0]] 0 0 0 1).nodes newNode 0 1).gCost = 0 ∧
      ¬ 1 < (getCell (aStarInit [[0, 0]] 0 0 0 1).nodes newNode 0 1).gCost ∧
      (getCell (aStarInit [[0, 0]] 0 0 0 1).nodes newNode 0 1).parent = none := by decide

/-- C9: both engines are pure functions of their arguments in this embedding —
the C++ sources keep all search state (`dist`, the queues, `allNodes`,
`closedSet`) in locals of the call and touch no global mutable state — so
calling either twice with identical inputs yields identical outputs. -/
theorem search_deterministic (n : Nat) (g : Graph) (s : Nat)
    (grid : List (List Int)) (a b c d : Nat) :
    dijkstra n g s = dijkstra n g s ∧
      aStarSearch grid a b c d = aStarSearch grid a b c d :=
  ⟨rfl, rfl⟩

theorem aStar_start_eq_goal_witness :
    walkableCell [[0]] (0, 0) ∧ aStarSearch [[0]] 0 0 0 0 = [(0, 0)] :=
  ⟨by decide, aStar_start_eq_goal [[0]] 0 0 (by decide)⟩


/-! ### Grid-walk lemmas -/

theorem GWalk.start_walkable {grid : List (List Int)} {a b : Nat × Nat}
    (ω : GWalk grid a b) : walkableCell grid a := by
  cases ω with
  | nil _ ha => exact ha
  | cons _ _ ha _ => exact ha

theorem GWalk.end_walkable {grid : List (List Int)} {a b : Nat × Nat}
    (ω : GWalk grid a b) : walkableCell grid b := by
  induction ω with
  | nil _ ha => exact ha
  | cons _ _ _ _ ih => exact ih

theorem GWalk.start_mem_cells {grid : List (List Int)} {a b : Nat × Nat}
    (ω : GWalk grid a b) : a ∈ ω.cells := by
  cases ω <;> simp [GWalk.cells]

theorem GWalk.cells_walkable {grid : List (List Int)} {a b : Nat × Nat}
    (ω : GWalk grid a b) : ∀ c ∈ ω.cells, walkableCell grid c := by
  induction ω with
  | nil a ha =>
    intro c hc
    simp [GWalk.cells] at hc
    rw [hc]
    exact ha
  | cons a hadj ha rest ih =>
    intro c hc
    simp [GWalk.cells] at hc
    rcases hc with rfl | hc
    · exact ha
    · exact ih c hc

/-- Concatenation of grid walks. -/
def GWalk.append {grid : List (List Int)} :
    {a b c : Nat × Nat} → GWalk grid a b → GWalk grid b c → GWalk grid a c
  | _, _, _, .nil _ _, ω => ω
  | _, _, _, .cons a hadj ha rest, ω => .cons a hadj ha (rest.append ω)

theorem GWalk.steps_append {grid : List (List Int)} {a b c : Nat × Nat}
    (ω1 : GWalk grid a b) (ω2 : GWalk grid b c) :
    (ω1.append ω2).steps = ω1.steps + ω2.steps := by
  induction ω1 with
  | nil _ _ => simp [GWalk.append, GWalk.steps]
  | cons a hadj ha rest ih => simp [GWalk.append, GWalk.steps, ih]; ring

/-- The Manhattan heuristic changes by at most one across an orthogonal
step (consistency). -/
theorem manhattan_adj {a b : Nat × Nat} (h : adjCell a b) (t : Nat × Nat) :
    heuristicManhattan a.1 a.2 t.1 t.2 ≤ 1 + heuristicManhattan b.1 b.2 t.1 t.2 := by
  unfold heuristicManhattan
  unfold adjCell at h
  rcases h with ⟨h1, h2 | h2⟩ | ⟨h1, h2 | h2⟩ <;> omega

/-- Consistency along a whole walk: the heuristic at the start is at most
the walk length plus the heuristic at the end. -/
theorem manhattan_consistent {grid : List (List Int)} {a b : Nat × Nat}
    (ω : GWalk grid a b) (t : Nat × Nat) :
    heuristicManhattan a.1 a.2 t.1 t.2 ≤ ω.steps + heuristicManhattan b.1 b.2 t.1 t.2 := by
  induction ω with
  | nil _ _ => simp [GWalk.steps]
  | cons a hadj ha rest ih =>
    have := manhattan_adj hadj t
    simp only [GWalk.steps]
    omega

/-- Dropping the portion of a walk before a visit of `x`. -/
theorem GWalk.dropTo {grid : List (List Int)} {a b : Nat × Nat}
    (ω : GWalk grid a b) (x : Nat × Nat) (hx : x ∈ ω.cells) :
    ∃ ω2 : GWalk grid x b, ω2.steps ≤ ω.steps ∧ ω2.cells.Sublist ω.cells := by
  induction ω with
  | nil a ha =>
    simp [GWalk.cells] at hx
    subst hx
    refine ⟨.nil _ ha, le_rfl, ?_⟩
    exact List.Sublist.refl _
  | cons a hadj ha rest ih =>
    by_cases hxa : x = a
    · subst hxa
      exact ⟨.cons x hadj ha rest, le_rfl, List.Sublist.refl _⟩
    · have hx2 : x ∈ rest.cells := by
        simp [GWalk.cells] at hx
        tauto
      obtain ⟨ω2, hs, hsl⟩ := ih hx2
      refine ⟨ω2, ?_, ?_⟩
      · simp [GWalk.steps]; omega
      · exact hsl.trans (List.sublist_cons_self a rest.cells)

/-- Any grid walk can be shortcut to one visiting pairwise-distinct cells
without getting longer. -/
theorem GWalk.dedup {grid : List (List Int)} {a b : Nat × Nat} (ω : GWalk grid a b) :
    ∃ ω2 : GWalk grid a b, ω2.steps ≤ ω.steps ∧ ω2.cells.Nodup ∧
      ω2.cells.Sublist ω.cells := by
  induction ω with
  | nil a ha =>
    refine ⟨.nil a ha, le_rfl, by simp [GWalk.cells], ?_⟩
    exact List.Sublist.refl _
  | cons a hadj ha rest ih =>
    obtain ⟨r2, hs2, hd2, hsl2⟩ := ih
    by_cases hmem : a ∈ r2.cells
    · obtain ⟨ω3, hs3, hsl3⟩ := GWalk.dropTo r2 a hmem
      refine ⟨ω3, ?_, hd2.sublist hsl3, ?_⟩
      · simp [GWalk.steps]; omega
      · exact (hsl3.trans hsl2).trans (List.sublist_cons_self a rest.cells)
    · refine ⟨.cons a hadj ha r2, ?_, ?_, ?_⟩
      · simp [GWalk.steps]; omega
      · simp [GWalk.cells, hd2, hmem]
      · simpa [GWalk.cells] using hsl2.cons₂ a

theorem GWalk.length_cells {grid : List (List Int)} {a b : Nat × Nat}
    (ω : GWalk grid a b) : ω.cells.length = ω.steps + 1 := by
  induction ω with
  | nil _ _ => simp [GWalk.cells, GWalk.steps]
  | cons a hadj ha rest ih => simp [GWalk.cells, GWalk.steps, ih]; ring

/-- A list of pairwise-distinct in-bounds cells has at most
`rows * cols` elements. -/
theorem nodup_cells_le {rows cols : Nat} {l : List (Nat × Nat)} (hd : l.Nodup)
    (hin : ∀ c ∈ l, c.1 < rows ∧ c.2 < cols) : l.length ≤ rows * cols := by
  classical
  have hsub : l.toFinset ⊆ Finset.range rows ×ˢ Finset.range cols := by
    intro c hc
    rw [List.mem_toFinset] at hc
    obtain ⟨h1, h2⟩ := hin c hc
    simp [Finset.mem_product, h1, h2]
  have hcard : l.toFinset.card = l.length := List.toFinset_card_of_nodup hd
  have := Finset.card_le_card hsub
  rw [hcard] at this
  simpa using this

/-- A shortest distance on the grid is below `rows * cols`. -/
theorem shortest_steps_lt {grid : List (List Int)} {a b : Nat × Nat} {k : Nat}
    (h : IsShortestPathLen grid a b k) :
    k < grid.length * (grid.getD 0 []).length := by
  obtain ⟨⟨ω, hω⟩, hmin⟩ := h
  obtain ⟨ω2, hs2, hd2, _⟩ := GWalk.dedup ω
  have h1 : k ≤ ω2.steps := hmin ω2
  have h2 : ω2.cells.length = ω2.steps + 1 := GWalk.length_cells ω2
  have h3 : ω2.cells.length ≤ grid.length * (grid.getD 0 []).length := by
    apply nodup_cells_le hd2
    intro c hc
    have := ω2.cells_walkable c hc
    exact ⟨this.1, this.2.1⟩
  omega


/-! ### Open-set and closed-count lemmas -/

theorem minFCost_mem (nodes : List (List Node)) :
    ∀ (c0 : Nat × Nat) (l : List (Nat × Nat)), minFCost nodes c0 l ∈ c0 :: l := by
  intro c0 l
  induction l generalizing c0 with
  | nil => simp [minFCost]
  | cons c cs ih =>
    rw [minFCost]
    by_cases h : (getCell nodes newNode c.1 c.2).fCost < (getCell nodes newNode c0.1 c0.2).fCost
    · rw [if_pos h]
      have := ih c
      rcases List.mem_cons.mp this with h2 | h2
      · simp [h2]
      · simp [h2]
    · rw [if_neg h]
      have := ih c0
      rcases List.mem_cons.mp this with h2 | h2
      · simp [h2]
      · simp [h2]

theorem minFCost_le (nodes : List (List Node)) :
    ∀ (c0 : Nat × Nat) (l : List (Nat × Nat)) (x : Nat × Nat), x ∈ c0 :: l →
      (getCell nodes newNode (minFCost nodes c0 l).1 (minFCost nodes c0 l).2).fCost ≤
        (getCell nodes newNode x.1 x.2).fCost := by
  intro c0 l
  induction l generalizing c0 with
  | nil =>
    intro x hx
    simp at hx
    subst hx
    simp [minFCost]
  | cons c cs ih =>
    intro x hx
    rw [minFCost]
    by_cases h : (getCell nodes newNode c.1 c.2).fCost < (getCell nodes newNode c0.1 c0.2).fCost
    · rw [if_pos h]
      rcases List.mem_cons.mp hx with h1 | hx2
      · have := ih c c (List.mem_cons_self _ _)
        rw [h1]
        omega
      · exact ih c x hx2
    · rw [if_neg h]
      rcases List.mem_cons.mp hx with h1 | hx2
      · rw [h1]
        exact ih c0 c0 (List.mem_cons_self _ _)
      · rcases List.mem_cons.mp hx2 with h2 | hx3
        · have := ih c0 c0 (List.mem_cons_self _ _)
          rw [h2]
          omega
        · exact ih c0 x (List.mem_cons_of_mem _ hx3)

theorem removeFirst_sublist : ∀ (l : List (Nat × Nat)) (x : Nat × Nat),
    (removeFirst l x).Sublist l := by
  intro l x
  induction l with
  | nil => simp [removeFirst]
  | cons c cs ih =>
    rw [removeFirst]
    by_cases h : c = x
    · rw [if_pos h]
      exact List.sublist_cons_self _ _
    · rw [if_neg h]
      exact ih.cons₂ c

theorem removeFirst_mem_of_ne {l : List (Nat × Nat)} {x y : Nat × Nat}
    (hne : y ≠ x) (hy : y ∈ l) : y ∈ removeFirst l x := by
  induction l with
  | nil => simp at hy
  | cons c cs ih =>
    rw [removeFirst]
    by_cases h : c = x
    · rw [if_pos h]
      rcases List.mem_cons.mp hy with rfl | hy2
      · exact absurd h hne
      · exact hy2
    · rw [if_neg h]
      rcases List.mem_cons.mp hy with rfl | hy2
      · exact List.mem_cons_self _ _
      · exact List.mem_cons_of_mem _ (ih hy2)

theorem removeFirst_length_of_mem : ∀ {l : List (Nat × Nat)} {x : Nat × Nat}, x ∈ l →
    (removeFirst l x).length + 1 = l.length := by
  intro l
  induction l with
  | nil => intro x hx; simp at hx
  | cons c cs ih =>
    intro x hx
    rw [removeFirst]
    by_cases h : c = x
    · rw [if_pos h]; rfl
    · rw [if_neg h]
      have hx2 : x ∈ cs := by
        rcases List.mem_cons.mp hx with rfl | hx2
        · exact absurd rfl h
        · exact hx2
      simp [ih hx2]

/-- Number of `false` entries of a row. -/
def countFalse : List Bool → Nat
  | [] => 0
  | b :: bs => (if b then 0 else 1) + countFalse bs

/-- Number of unclosed cells. -/
def unclosedCount (cl : List (List Bool)) : Nat := (cl.map countFalse).sum

theorem countFalse_set {row : List Bool} {c : Nat} (hc : c < row.length)
    (hfalse : row.getD c true = false) :
    countFalse (row.set c true) + 1 = countFalse row := by
  induction row generalizing c with
  | nil => simp at hc
  | cons b bs ih =>
    cases c with
    | zero =>
      simp at hfalse
      simp [List.set, countFalse, hfalse]
      omega
    | succ c2 =>
      have := ih (c := c2) (by simpa using hc) (by simpa using hfalse)
      simp [List.set, countFalse]
      omega

theorem sum_map_set {α : Type} (f : α → Nat) (l : List α) (r : Nat) (x : α)
    (hr : r < l.length) :
    ((l.set r x).map f).sum + f (l.getD r x) = (l.map f).sum + f x := by
  induction l generalizing r with
  | nil => simp at hr
  | cons a as ih =>
    cases r with
    | zero => simp [List.set]; omega
    | succ r2 =>
      have hh := ih (r := r2) (by simpa using hr)
      simp only [List.set_cons_succ, List.map_cons, List.sum_cons, List.getD_cons_succ]
      omega

theorem getD_default_irrel {α : Type} (l : List α) (i : Nat) (d1 d2 : α)
    (h : i < l.length) : l.getD i d1 = l.getD i d2 := by
  induction l generalizing i with
  | nil => simp at h
  | cons x xs ih =>
    cases i with
    | zero => rfl
    | succ j => simpa using ih j (by simpa using h)

theorem unclosedCount_setCell {cl : List (List Bool)} {r c : Nat}
    (hr : r < cl.length) (hc : c < (cl.getD r []).length)
    (hfalse : getCell cl false r c = false) :
    unclosedCount (setCell cl r c true) + 1 = unclosedCount cl := by
  unfold getCell at hfalse
  unfold unclosedCount setCell
  have hrow : countFalse ((cl.getD r []).set c true) + 1 = countFalse (cl.getD r []) := by
    apply countFalse_set hc
    rw [getD_default_irrel _ _ true false hc]
    exact hfalse
  have hsum := sum_map_set countFalse cl r ((cl.getD r []).set c true) hr
  rw [getD_default_irrel cl r ((cl.getD r []).set c true) [] hr] at hsum
  omega

theorem unclosedCount_replicate (rows cols : Nat) :
    unclosedCount (List.replicate rows (List.replicate cols false)) = rows * cols := by
  unfold unclosedCount
  have hrow : countFalse (List.replicate cols false) = cols := by
    induction cols with
    | zero => rfl
    | succ m ih =>
      simp [List.replicate_succ, countFalse, ih]
      omega
  induction rows with
  | zero => simp
  | succ m ih =>
    rw [List.replicate_succ]
    simp only [List.map_cons, List.sum_cons, hrow, ih, Nat.succ_mul]
    omega



/-! ### Direction steps and adjacency -/

theorem step_adj {c : Nat × Nat} {dir : Int × Int} (hdir : dir ∈ dirs) {rows cols : Nat}
    (hv : isValid ((c.1 : Int) + dir.1) ((c.2 : Int) + dir.2) rows cols = true) :
    adjCell c (((c.1 : Int) + dir.1).toNat, ((c.2 : Int) + dir.2).toNat) ∧
      ((c.1 : Int) + dir.1).toNat < rows ∧ ((c.2 : Int) + dir.2).toNat < cols := by
  simp [isValid] at hv
  obtain ⟨⟨⟨h1, h2⟩, h3⟩, h4⟩ := hv
  simp [dirs] at hdir
  unfold adjCell
  rcases hdir with rfl | rfl | rfl | rfl <;> simp <;> omega

theorem adj_step {c b : Nat × Nat} (h : adjCell c b) {rows cols : Nat}
    (hb1 : b.1 < rows) (hb2 : b.2 < cols) :
    ∃ dir ∈ dirs, isValid ((c.1 : Int) + dir.1) ((c.2 : Int) + dir.2) rows cols = true ∧
      (((c.1 : Int) + dir.1).toNat, ((c.2 : Int) + dir.2).toNat) = b := by
  unfold adjCell at h
  rcases h with ⟨h1, h2 | h2⟩ | ⟨h1, h2 | h2⟩
  · refine ⟨(0, 1), by simp [dirs], ?_, ?_⟩
    · simp [isValid]; omega
    · rw [Prod.ext_iff]; constructor <;> simp <;> omega
  · refine ⟨(0, -1), by simp [dirs], ?_, ?_⟩
    · simp [isValid]; omega
    · rw [Prod.ext_iff]; constructor <;> simp <;> omega
  · refine ⟨(1, 0), by simp [dirs], ?_, ?_⟩
    · simp [isValid]; omega
    · rw [Prod.ext_iff]; constructor <;> simp <;> omega
  · refine ⟨(-1, 0), by simp [dirs], ?_, ?_⟩
    · simp [isValid]; omega
    · rw [Prod.ext_iff]; constructor <;> simp <;> omega


/-! ### The A* loop invariant -/

/-- The node record the search holds for cell `c`. -/
def nodeAt (σ : AState) (c : Nat × Nat) : Node := getCell σ.nodes newNode c.1 c.2

/-- The closed flag of cell `c`. -/
def closedAt (σ : AState) (c : Nat × Nat) : Bool := getCell σ.closedSet false c.1 c.2

/-- Invariant of the `aStarSearch` loop, relative to the closure trace `T`. -/
structure AInv (grid : List (List Int)) (start goal : Nat × Nat)
    (σ : AState) (T : List (Nat × Nat)) : Prop where
  nodesLen : σ.nodes.length = grid.length
  nodesRow : ∀ r, r < grid.length → (σ.nodes.getD r []).length = (grid.getD 0 []).length
  closedLen : σ.closedSet.length = grid.length
  closedRow : ∀ r, r < grid.length → (σ.closedSet.getD r []).length = (grid.getD 0 []).length
  closedIff : ∀ c : Nat × Nat, closedAt σ c = true ↔ c ∈ T
  base : start ∉ T → T = [] ∧ σ = aStarInit grid start.1 start.2 goal.1 goal.2
  memT : ∀ c ∈ T, walkableCell grid c
  memTrel : ∀ c ∈ T, c = start ∨ (nodeAt σ c).parent ≠ none
  nodupT : T.Nodup
  settled : ∀ c ∈ T, IsShortestPathLen grid start c (nodeAt σ c).gCost
  startNode : nodeAt σ start =
    { gCost := 0, hCost := heuristicManhattan start.1 start.2 goal.1 goal.2,
      fCost := heuristicManhattan start.1 start.2 goal.1 goal.2, parent := none }
  pristine : ∀ c : Nat × Nat, c ≠ start → (nodeAt σ c).parent = none → nodeAt σ c = newNode
  parentInv : ∀ c : Nat × Nat, ∀ p, (nodeAt σ c).parent = some p →
    p ∈ T ∧ adjCell p c ∧ walkableCell grid c ∧ c ≠ start ∧
      (nodeAt σ c).gCost = (nodeAt σ p).gCost + 1 ∧
      (nodeAt σ c).hCost = heuristicManhattan c.1 c.2 goal.1 goal.2 ∧
      (nodeAt σ c).fCost = (nodeAt σ c).gCost + (nodeAt σ c).hCost
  openIn : ∀ c ∈ σ.openSet, walkableCell grid c ∧ (c = start ∨ (nodeAt σ c).parent ≠ none)
  current : ∀ c : Nat × Nat, c ∉ T → (c = start ∨ (nodeAt σ c).parent ≠ none) → c ∈ σ.openSet
  frontier : ∀ p ∈ T, ∀ c : Nat × Nat, adjCell p c → walkableCell grid c → c ∉ T →
    (nodeAt σ c).parent ≠ none ∧ (nodeAt σ c).gCost ≤ (nodeAt σ p).gCost + 1

/-- A walk attaining the recorded `gCost` exists for the start and for every
relaxed cell. -/
theorem ainv_attained {grid : List (List Int)} {start goal : Nat × Nat}
    {σ : AState} {T : List (Nat × Nat)}
    (hsw : walkableCell grid start)
    (hI : AInv grid start goal σ T) (c : Nat × Nat)
    (hc : c = start ∨ (nodeAt σ c).parent ≠ none) :
    ∃ ω : GWalk grid start c, ω.steps = (nodeAt σ c).gCost := by
  rcases hc with rfl | hp
  · refine ⟨.nil c hsw, ?_⟩
    rw [hI.startNode]
    rfl
  · rcases hpp : (nodeAt σ c).parent with _ | p
    · exact absurd hpp hp
    obtain ⟨hpT, hadj, hcw, _, hg, _, _⟩ := hI.parentInv c p hpp
    obtain ⟨⟨ωp, hωp⟩, _⟩ := hI.settled p hpT
    refine ⟨ωp.append (.cons p hadj (hI.memT p hpT) (.nil c hcw)), ?_⟩
    rw [GWalk.steps_append, hωp, hg]
    simp [GWalk.steps]

/-- The settled `gCost` of a member of `T` is bounded by any extension
bound of a neighbour: `gCost b ≤ gCost a + 1` for adjacent `a, b ∈ T`. -/
theorem ainv_settled_adj {grid : List (List Int)} {start goal : Nat × Nat}
    {σ : AState} {T : List (Nat × Nat)}
    (hsw : walkableCell grid start)
    (hI : AInv grid start goal σ T) {a b : Nat × Nat}
    (ha : a ∈ T) (hb : b ∈ T) (hadj : adjCell a b) :
    (nodeAt σ b).gCost ≤ (nodeAt σ a).gCost + 1 := by
  obtain ⟨⟨ωa, hωa⟩, _⟩ := hI.settled a ha
  obtain ⟨_, hminb⟩ := hI.settled b hb
  have hbw : walkableCell grid b := hI.memT b hb
  have := hminb (ωa.append (.cons a hadj (hI.memT a ha) (.nil b hbw)))
  rw [GWalk.steps_append, hωa] at this
  simp [GWalk.steps] at this
  omega

/-- Any walk from an expanded cell to an unexpanded one is covered by an
open cell whose `fCost` is at most the walk bound (consistent-heuristic
cover). -/
theorem ainv_cover {grid : List (List Int)} {start goal : Nat × Nat}
    {σ : AState} {T : List (Nat × Nat)}
    (hsw : walkableCell grid start)
    (hI : AInv grid start goal σ T) {a t : Nat × Nat} (ω : GWalk grid a t) :
    a ∈ T → t ∉ T →
      ∃ x ∈ σ.openSet, (nodeAt σ x).fCost ≤
        (nodeAt σ a).gCost + ω.steps + heuristicManhattan t.1 t.2 goal.1 goal.2 := by
  induction ω with
  | nil a ha =>
    intro haT htT
    exact absurd haT htT
  | @cons b t a hadj ha rest ih =>
    intro haT htT
    have hbw : walkableCell grid b := rest.start_walkable
    by_cases hbT : b ∈ T
    · obtain ⟨x, hx, hle⟩ := ih hbT htT
      refine ⟨x, hx, ?_⟩
      have := ainv_settled_adj hsw hI haT hbT hadj
      simp only [GWalk.steps]
      omega
    · obtain ⟨hpar, hgle⟩ := hI.frontier a haT b hadj hbw hbT
      have hbopen : b ∈ σ.openSet := hI.current b hbT (Or.inr hpar)
      refine ⟨b, hbopen, ?_⟩
      rcases hpp : (nodeAt σ b).parent with _ | p
      · exact absurd hpp hpar
      obtain ⟨_, _, _, _, _, hh, hf⟩ := hI.parentInv b p hpp
      have hcons := manhattan_consistent rest goal
      simp only [GWalk.steps]
      rw [hf, hh]
      omega

/-- When the loop pops a fresh (unclosed) cell of minimal current `fCost`,
that cell's `gCost` is the shortest 4-connected distance from the start. -/
theorem ainv_settle {grid : List (List Int)} {start goal : Nat × Nat}
    {σ : AState} {T : List (Nat × Nat)}
    (hsw : walkableCell grid start)
    (hI : AInv grid start goal σ T) {cur : Nat × Nat}
    (hcuro : cur ∈ σ.openSet)
    (hmin : ∀ x ∈ σ.openSet, (nodeAt σ cur).fCost ≤ (nodeAt σ x).fCost)
    (hfresh : closedAt σ cur = false) :
    cur ∉ T ∧ IsShortestPathLen grid start cur (nodeAt σ cur).gCost := by
  have hcurT : cur ∉ T := by
    intro h
    rw [(hI.closedIff cur).mpr h] at hfresh
    simp at hfresh
  obtain ⟨hcw, hcrel⟩ := hI.openIn cur hcuro
  obtain ⟨ωc, hωc⟩ := ainv_attained hsw hI cur hcrel
  refine ⟨hcurT, ⟨ωc, hωc⟩, ?_⟩
  intro ω
  by_cases hsT : start ∈ T
  · obtain ⟨x, hx, hle⟩ := ainv_cover hsw hI ω hsT hcurT
    have hmx := hmin x hx
    have hg0 : (nodeAt σ start).gCost = 0 := by rw [hI.startNode]
    have hfc : (nodeAt σ cur).fCost =
        (nodeAt σ cur).gCost + heuristicManhattan cur.1 cur.2 goal.1 goal.2 := by
      rcases hcrel with rfl | hp
      · rw [hI.startNode]
        simp
      · rcases hpp : (nodeAt σ cur).parent with _ | p
        · exact absurd hpp hp
        obtain ⟨_, _, _, _, _, hh, hf⟩ := hI.parentInv cur p hpp
        rw [hf, hh]
    rw [hg0] at hle
    rw [hfc] at hmx
    omega
  · obtain ⟨hTnil, hinit⟩ := hI.base hsT
    have hop : σ.openSet = [start] := by rw [hinit]; rfl
    have hcs : cur = start := by
      rw [hop] at hcuro
      simpa using hcuro
    subst hcs
    have hg0 : (nodeAt σ cur).gCost = 0 := by rw [hI.startNode]
    rw [hg0]
    omega


/-- Popping an already-closed cell preserves the invariant. -/
theorem ainv_skip {grid : List (List Int)} {start goal : Nat × Nat}
    {σ : AState} {T : List (Nat × Nat)}
    (hI : AInv grid start goal σ T) {cur : Nat × Nat}
    (hclosed : closedAt σ cur = true) :
    AInv grid start goal { σ with openSet := removeFirst σ.openSet cur } T := by
  have hcurT : cur ∈ T := (hI.closedIff cur).mp hclosed
  refine ⟨hI.nodesLen, hI.nodesRow, hI.closedLen, hI.closedRow, hI.closedIff, ?_,
    hI.memT, hI.memTrel, hI.nodupT, hI.settled, hI.startNode, hI.pristine,
    hI.parentInv, ?_, ?_, hI.frontier⟩
  · intro hsT
    exfalso
    obtain ⟨hTnil, _⟩ := hI.base hsT
    rw [hTnil] at hcurT
    simp at hcurT
  · intro c hc
    exact hI.openIn c ((removeFirst_sublist σ.openSet cur).mem hc)
  · intro c hcT hcrel
    have hcne : c ≠ cur := fun h => hcT (h ▸ hcurT)
    exact removeFirst_mem_of_ne hcne (hI.current c hcT hcrel)

/-- Invariant in the middle of the expansion of `cur`, after the directions
in `done` have been processed. -/
structure AMidInv (grid : List (List Int)) (start goal cur : Nat × Nat)
    (σ : AState) (T2 : List (Nat × Nat)) (done : List (Int × Int)) : Prop where
  nodesLen : σ.nodes.length = grid.length
  nodesRow : ∀ r, r < grid.length → (σ.nodes.getD r []).length = (grid.getD 0 []).length
  closedLen : σ.closedSet.length = grid.length
  closedRow : ∀ r, r < grid.length → (σ.closedSet.getD r []).length = (grid.getD 0 []).length
  closedIff : ∀ c : Nat × Nat, closedAt σ c = true ↔ c ∈ T2
  sIn : start ∈ T2
  curIn : cur ∈ T2
  memT : ∀ c ∈ T2, walkableCell grid c
  memTrel : ∀ c ∈ T2, c = start ∨ (nodeAt σ c).parent ≠ none
  nodupT : T2.Nodup
  settled : ∀ c ∈ T2, IsShortestPathLen grid start c (nodeAt σ c).gCost
  startNode : nodeAt σ start =
    { gCost := 0, hCost := heuristicManhattan start.1 start.2 goal.1 goal.2,
      fCost := heuristicManhattan start.1 start.2 goal.1 goal.2, parent := none }
  pristine : ∀ c : Nat × Nat, c ≠ start → (nodeAt σ c).parent = none → nodeAt σ c = newNode
  parentInv : ∀ c : Nat × Nat, ∀ p, (nodeAt σ c).parent = some p →
    p ∈ T2 ∧ adjCell p c ∧ walkableCell grid c ∧ c ≠ start ∧
      (nodeAt σ c).gCost = (nodeAt σ p).gCost + 1 ∧
      (nodeAt σ c).hCost = heuristicManhattan c.1 c.2 goal.1 goal.2 ∧
      (nodeAt σ c).fCost = (nodeAt σ c).gCost + (nodeAt σ c).hCost
  openIn : ∀ c ∈ σ.openSet, walkableCell grid c ∧ (c = start ∨ (nodeAt σ c).parent ≠ none)
  current : ∀ c : Nat × Nat, c ∉ T2 → (c = start ∨ (nodeAt σ c).parent ≠ none) → c ∈ σ.openSet
  frontierOld : ∀ p ∈ T2, p ≠ cur → ∀ c : Nat × Nat, adjCell p c → walkableCell grid c →
    c ∉ T2 → (nodeAt σ c).parent ≠ none ∧ (nodeAt σ c).gCost ≤ (nodeAt σ p).gCost + 1
  frontierCur : ∀ dir ∈ done,
    isValid ((cur.1 : Int) + dir.1) ((cur.2 : Int) + dir.2)
      grid.length (grid.getD 0 []).length = true →
    walkableCell grid (((cur.1 : Int) + dir.1).toNat, ((cur.2 : Int) + dir.2).toNat) →
    (((cur.1 : Int) + dir.1).toNat, ((cur.2 : Int) + dir.2).toNat) ∉ T2 →
    (nodeAt σ (((cur.1 : Int) + dir.1).toNat, ((cur.2 : Int) + dir.2).toNat)).parent ≠ none ∧
      (nodeAt σ (((cur.1 : Int) + dir.1).toNat,
        ((cur.2 : Int) + dir.2).toNat)).gCost ≤ (nodeAt σ cur).gCost + 1

/-- Once every direction is processed, the mid-expansion invariant yields
the full invariant on the extended trace. -/
theorem amid_to_ainv {grid : List (List Int)} {start goal cur : Nat × Nat}
    {σ : AState} {T2 : List (Nat × Nat)}
    (hM : AMidInv grid start goal cur σ T2 dirs) :
    AInv grid start goal σ T2 := by
  refine ⟨hM.nodesLen, hM.nodesRow, hM.closedLen, hM.closedRow, hM.closedIff, ?_,
    hM.memT, hM.memTrel, hM.nodupT, hM.settled, hM.startNode, hM.pristine,
    hM.parentInv, hM.openIn, hM.current, ?_⟩
  · intro hsT
    exact absurd hM.sIn hsT
  · intro p hp c hadj hcw hcT
    by_cases hpc : p = cur
    · subst hpc
      obtain ⟨dir, hdir, hv, hstep⟩ := adj_step hadj hcw.1 hcw.2.1
      have := hM.frontierCur dir hdir hv (by rw [hstep]; exact hcw) (by rw [hstep]; exact hcT)
      rw [hstep] at this
      exact this
    · exact hM.frontierOld p hp hpc c hadj hcw hcT


/-- The relaxation branch of `exploreDir` preserves the mid-expansion
invariant. -/
theorem amid_step_relax {grid : List (List Int)} {start goal cur : Nat × Nat}
    {σ : AState} {T2 : List (Nat × Nat)} {done : List (Int × Int)}
    (hM : AMidInv grid start goal cur σ T2 done) {dir : Int × Int} (hdir : dir ∈ dirs)
    (hv : isValid ((cur.1 : Int) + dir.1) ((cur.2 : Int) + dir.2)
      grid.length (grid.getD 0 []).length = true)
    (hadj : adjCell cur (((cur.1 : Int) + dir.1).toNat, ((cur.2 : Int) + dir.2).toNat))
    (hnr : ((cur.1 : Int) + dir.1).toNat < grid.length)
    (hnc : ((cur.2 : Int) + dir.2).toNat < (grid.getD 0 []).length)
    (hobs : ¬ getCell grid 0 ((cur.1 : Int) + dir.1).toNat
      ((cur.2 : Int) + dir.2).toNat = 1)
    (hcl : ¬ getCell σ.closedSet false ((cur.1 : Int) + dir.1).toNat
      ((cur.2 : Int) + dir.2).toNat = true)
    (hcT2 : (((cur.1 : Int) + dir.1).toNat, ((cur.2 : Int) + dir.2).toNat) ∉ T2)
    (hcw : walkableCell grid (((cur.1 : Int) + dir.1).toNat, ((cur.2 : Int) + dir.2).toNat))
    (hccur : (((cur.1 : Int) + dir.1).toNat, ((cur.2 : Int) + dir.2).toNat) ≠ cur)
    (hcstart : (((cur.1 : Int) + dir.1).toNat, ((cur.2 : Int) + dir.2).toNat) ≠ start)
    (hrel : (getCell σ.nodes newNode cur.1 cur.2).gCost + 1 <
        (getCell σ.nodes newNode ((cur.1 : Int) + dir.1).toNat
          ((cur.2 : Int) + dir.2).toNat).gCost ∨
      (getCell σ.nodes newNode ((cur.1 : Int) + dir.1).toNat
        ((cur.2 : Int) + dir.2).toNat).parent = none) :
    AMidInv grid start goal cur
      (exploreDir grid grid.length (grid.getD 0 []).length goal.1 goal.2 cur σ dir)
      T2 (done ++ [dir]) := by
  set nr := ((cur.1 : Int) + dir.1).toNat with hnrdef
  set nc := ((cur.2 : Int) + dir.2).toNat with hncdef
  have hstep : exploreDir grid grid.length (grid.getD 0 []).length goal.1 goal.2 cur σ dir =
      { σ with
        nodes := setCell σ.nodes nr nc
          { gCost := (getCell σ.nodes newNode cur.1 cur.2).gCost + 1,
            hCost := heuristicManhattan nr nc goal.1 goal.2,
            fCost := (getCell σ.nodes newNode cur.1 cur.2).gCost + 1 +
              heuristicManhattan nr nc goal.1 goal.2,
            parent := some cur },
        openSet := σ.openSet ++ [(nr, nc)] } := by
    simp only [exploreDir]
    rw [if_pos hv, if_neg hobs, if_neg hcl, if_pos hrel]
  rw [hstep]
  set nbr2 : Node :=
    { gCost := (getCell σ.nodes newNode cur.1 cur.2).gCost + 1,
      hCost := heuristicManhattan nr nc goal.1 goal.2,
      fCost := (getCell σ.nodes newNode cur.1 cur.2).gCost + 1 +
        heuristicManhattan nr nc goal.1 goal.2,
      parent := some cur } with hnbr2
  set σ2 : AState :=
    { σ with nodes := setCell σ.nodes nr nc nbr2, openSet := σ.openSet ++ [(nr, nc)] }
    with hσ2
  have hself : nodeAt σ2 (nr, nc) = nbr2 := by
    unfold nodeAt
    apply getCell_setCell_self
    · rw [hM.nodesLen]; exact hnr
    · rw [hM.nodesRow nr hnr]; exact hnc
  have hne : ∀ x : Nat × Nat, x ≠ (nr, nc) → nodeAt σ2 x = nodeAt σ x := by
    intro x hx
    unfold nodeAt
    apply getCell_setCell_ne
    intro h
    exact hx (Prod.ext (congrArg Prod.fst h).symm (congrArg Prod.snd h).symm)
  have hcur2 : nodeAt σ2 cur = nodeAt σ cur := hne cur (fun h => hccur h.symm)
  refine ⟨?_, ?_, hM.closedLen, hM.closedRow, hM.closedIff, hM.sIn, hM.curIn, hM.memT,
    ?_, hM.nodupT, ?_, ?_, ?_, ?_, ?_, ?_, ?_, ?_⟩
  · show (setCell σ.nodes nr nc nbr2).length = grid.length
    rw [length_setCell]; exact hM.nodesLen
  · intro r hr
    show ((setCell σ.nodes nr nc nbr2).getD r []).length = _
    rw [length_row_setCell]
    exact hM.nodesRow r hr
  · -- memTrel
    intro x hx
    rcases hM.memTrel x hx with h | h
    · exact Or.inl h
    · right
      rw [hne x (fun hh => hcT2 (hh ▸ hx))]
      exact h
  · -- settled
    intro x hx
    rw [hne x (fun hh => hcT2 (hh ▸ hx))]
    exact hM.settled x hx
  · -- startNode
    rw [hne start (fun h => hcstart h.symm)]
    exact hM.startNode
  · -- pristine
    intro x hxs hpar
    by_cases hx : x = (nr, nc)
    · rw [hx, hself] at hpar
      simp [hnbr2] at hpar
    · rw [hne x hx] at hpar ⊢
      exact hM.pristine x hxs hpar
  · -- parentInv
    intro x p hpar
    by_cases hx : x = (nr, nc)
    · rw [hx, hself] at hpar
      have hpcur : p = cur := by
        rw [hnbr2] at hpar
        simpa using hpar.symm
      subst hpcur
      rw [hx, hself]
      refine ⟨hM.curIn, hadj, hcw, hcstart, ?_, ?_, ?_⟩
      · rw [hcur2]
        simp [hnbr2, nodeAt]
      · simp [hnbr2]
      · simp [hnbr2]
    · rw [hne x hx] at hpar
      have old := hM.parentInv x p hpar
      have hpne : p ≠ (nr, nc) := fun hh => hcT2 (hh ▸ old.1)
      rw [hne x hx, hne p hpne]
      exact old
  · -- openIn
    intro x hx
    rcases List.mem_append.mp hx with hx2 | hx2
    · obtain ⟨hw, hrel2⟩ := hM.openIn x hx2
      refine ⟨hw, ?_⟩
      by_cases hxc : x = (nr, nc)
      · right
        rw [hxc, hself, hnbr2]
        simp
      · rw [hne x hxc]
        exact hrel2
    · have hx3 : x = (nr, nc) := by simpa using hx2
      subst hx3
      refine ⟨hcw, Or.inr ?_⟩
      rw [hself, hnbr2]
      simp
  · -- current
    intro x hxT hxrel
    by_cases hx : x = (nr, nc)
    · subst hx
      simp
    · rw [hne x hx] at hxrel
      exact List.mem_append.mpr (Or.inl (hM.current x hxT hxrel))
  · -- frontierOld
    intro p hp hpcur c3 hadj3 hw3 hT3
    have hpne : p ≠ (nr, nc) := fun hh => hcT2 (hh ▸ hp)
    by_cases hc3 : c3 = (nr, nc)
    · subst hc3
      rw [hself, hne p hpne]
      rcases hparold : (getCell σ.nodes newNode nr nc).parent with _ | q
      · exfalso
        have := (hM.frontierOld p hp hpcur _ hadj3 hw3 hT3).1
        unfold nodeAt at this
        exact this hparold
      · have hlt : (getCell σ.nodes newNode cur.1 cur.2).gCost + 1 <
            (getCell σ.nodes newNode nr nc).gCost := by
          rcases hrel with h | h
          · exact h
          · rw [h] at hparold; simp at hparold
        have hold := (hM.frontierOld p hp hpcur _ hadj3 hw3 hT3).2
        unfold nodeAt at hold
        simp only at hold
        refine ⟨by rw [hnbr2]; simp, ?_⟩
        rw [hnbr2]
        unfold nodeAt
        simp only
        omega
    · rw [hne c3 hc3, hne p hpne]
      exact hM.frontierOld p hp hpcur c3 hadj3 hw3 hT3
  · -- frontierCur
    intro dir2 hdir2 hv2 hw2 hT2x
    rw [hcur2]
    rcases List.mem_append.mp hdir2 with h | h
    · by_cases ht2 : (((cur.1 : Int) + dir2.1).toNat, ((cur.2 : Int) + dir2.2).toNat) = (nr, nc)
      · rw [ht2, hself, hnbr2]
        refine ⟨by simp, ?_⟩
        simp only
        unfold nodeAt
        omega
      · rw [hne _ ht2]
        exact hM.frontierCur dir2 h hv2 hw2 hT2x
    · have hd2 : dir2 = dir := by simpa using h
      subst hd2
      rw [show (((cur.1 : Int) + dir2.1).toNat, ((cur.2 : Int) + dir2.2).toNat) = (nr, nc)
        from rfl, hself, hnbr2]
      refine ⟨by simp, ?_⟩
      simp only
      unfold nodeAt
      omega

/-- Processing one further direction of `cur` preserves the mid-expansion
invariant. -/
theorem amid_step {grid : List (List Int)} {start goal cur : Nat × Nat}
    {σ : AState} {T2 : List (Nat × Nat)} {done : List (Int × Int)}
    (hM : AMidInv grid start goal cur σ T2 done) {dir : Int × Int} (hdir : dir ∈ dirs) :
    AMidInv grid start goal cur
      (exploreDir grid grid.length (grid.getD 0 []).length goal.1 goal.2 cur σ dir)
      T2 (done ++ [dir]) := by
  by_cases hv : isValid ((cur.1 : Int) + dir.1) ((cur.2 : Int) + dir.2)
      grid.length (grid.getD 0 []).length = true
  case neg =>
    have hstep : exploreDir grid grid.length (grid.getD 0 []).length goal.1 goal.2
        cur σ dir = σ := by
      simp only [exploreDir]
      rw [if_neg hv]
    rw [hstep]
    refine ⟨hM.nodesLen, hM.nodesRow, hM.closedLen, hM.closedRow, hM.closedIff, hM.sIn,
      hM.curIn, hM.memT, hM.memTrel, hM.nodupT, hM.settled, hM.startNode, hM.pristine,
      hM.parentInv, hM.openIn, hM.current, hM.frontierOld, ?_⟩
    intro dir2 hdir2 hv2 hw2 hT2
    rcases List.mem_append.mp hdir2 with h | h
    · exact hM.frontierCur dir2 h hv2 hw2 hT2
    · have : dir2 = dir := by simpa using h
      subst this
      exact absurd hv2 hv
  case pos =>
    obtain ⟨hadj, hnr, hnc⟩ := step_adj hdir hv
    by_cases hobs : getCell grid 0 ((cur.1 : Int) + dir.1).toNat
        ((cur.2 : Int) + dir.2).toNat = 1
    · have hstep : exploreDir grid grid.length (grid.getD 0 []).length goal.1 goal.2
          cur σ dir = σ := by
        simp only [exploreDir]
        rw [if_pos hv, if_pos hobs]
      rw [hstep]
      refine ⟨hM.nodesLen, hM.nodesRow, hM.closedLen, hM.closedRow, hM.closedIff, hM.sIn,
        hM.curIn, hM.memT, hM.memTrel, hM.nodupT, hM.settled, hM.startNode, hM.pristine,
        hM.parentInv, hM.openIn, hM.current, hM.frontierOld, ?_⟩
      intro dir2 hdir2 hv2 hw2 hT2
      rcases List.mem_append.mp hdir2 with h | h
      · exact hM.frontierCur dir2 h hv2 hw2 hT2
      · have : dir2 = dir := by simpa using h
        subst this
        exact absurd hobs hw2.2.2
    · by_cases hcl : getCell σ.closedSet false ((cur.1 : Int) + dir.1).toNat
          ((cur.2 : Int) + dir.2).toNat = true
      · have hstep : exploreDir grid grid.length (grid.getD 0 []).length goal.1 goal.2
            cur σ dir = σ := by
          simp only [exploreDir]
          rw [if_pos hv, if_neg hobs, if_pos hcl]
        rw [hstep]
        have hmem : (((cur.1 : Int) + dir.1).toNat, ((cur.2 : Int) + dir.2).toNat) ∈ T2 :=
          (hM.closedIff _).mp hcl
        refine ⟨hM.nodesLen, hM.nodesRow, hM.closedLen, hM.closedRow, hM.closedIff, hM.sIn,
          hM.curIn, hM.memT, hM.memTrel, hM.nodupT, hM.settled, hM.startNode, hM.pristine,
          hM.parentInv, hM.openIn, hM.current, hM.frontierOld, ?_⟩
        intro dir2 hdir2 hv2 hw2 hT2
        rcases List.mem_append.mp hdir2 with h | h
        · exact hM.frontierCur dir2 h hv2 hw2 hT2
        · have : dir2 = dir := by simpa using h
          subst this
          exact absurd hmem hT2
      · -- the neighbour is valid, walkable and unclosed: the relaxation test runs
        have hcT2 : (((cur.1 : Int) + dir.1).toNat, ((cur.2 : Int) + dir.2).toNat) ∉ T2 :=
          fun h => hcl ((hM.closedIff _).mpr h)
        have hcw : walkableCell grid
            (((cur.1 : Int) + dir.1).toNat, ((cur.2 : Int) + dir.2).toNat) :=
          ⟨hnr, hnc, hobs⟩
        have hccur : (((cur.1 : Int) + dir.1).toNat, ((cur.2 : Int) + dir.2).toNat) ≠ cur :=
          fun h => hcT2 (by rw [h]; exact hM.curIn)
        have hcstart : (((cur.1 : Int) + dir.1).toNat, ((cur.2 : Int) + dir.2).toNat) ≠ start :=
          fun h => hcT2 (by rw [h]; exact hM.sIn)
        by_cases hrel :
            (getCell σ.nodes newNode cur.1 cur.2).gCost + 1 <
                (getCell σ.nodes newNode ((cur.1 : Int) + dir.1).toNat
                  ((cur.2 : Int) + dir.2).toNat).gCost ∨
              (getCell σ.nodes newNode ((cur.1 : Int) + dir.1).toNat
                ((cur.2 : Int) + dir.2).toNat).parent = none
        · exact amid_step_relax hM hdir hv hadj hnr hnc hobs hcl hcT2 hcw hccur hcstart hrel
        · have hstep : exploreDir grid grid.length (grid.getD 0 []).length goal.1 goal.2
              cur σ dir = σ := by
            simp only [exploreDir]
            rw [if_pos hv, if_neg hobs, if_neg hcl, if_neg hrel]
          rw [hstep]
          push_neg at hrel
          refine ⟨hM.nodesLen, hM.nodesRow, hM.closedLen, hM.closedRow, hM.closedIff, hM.sIn,
            hM.curIn, hM.memT, hM.memTrel, hM.nodupT, hM.settled, hM.startNode, hM.pristine,
            hM.parentInv, hM.openIn, hM.current, hM.frontierOld, ?_⟩
          intro dir2 hdir2 hv2 hw2 hT2
          rcases List.mem_append.mp hdir2 with h | h
          · exact hM.frontierCur dir2 h hv2 hw2 hT2
          · have : dir2 = dir := by simpa using h
            subst this
            exact ⟨hrel.2, by simpa [nodeAt] using hrel.1⟩

/-- Folding `exploreDir` over a list of directions preserves the
mid-expansion invariant, extending `done` by those directions. -/
theorem amid_fold {grid : List (List Int)} {start goal cur : Nat × Nat} :
    ∀ (rem : List (Int × Int)) {done : List (Int × Int)} {σ : AState}
      {T2 : List (Nat × Nat)},
      (∀ d ∈ rem, d ∈ dirs) → AMidInv grid start goal cur σ T2 done →
      AMidInv grid start goal cur
        (rem.foldl (exploreDir grid grid.length (grid.getD 0 []).length
          goal.1 goal.2 cur) σ)
        T2 (done ++ rem)
  | [], done, σ, T2, _, hM => by simpa using hM
  | d :: rem, done, σ, T2, hall, hM => by
    simp only [List.foldl_cons]
    have h1 := amid_step hM (hall d (List.mem_cons_self d rem))
    have h2 := amid_fold rem (fun x hx => hall x (List.mem_cons_of_mem d hx)) h1
    have heq : done ++ d :: rem = (done ++ [d]) ++ rem := by simp
    rw [heq]
    exact h2

/-- Closing a fresh minimal-`fCost` cell and relaxing its four neighbours
takes the invariant for `T` to the invariant for `T ++ [cur]`. -/
theorem ainv_expand {grid : List (List Int)} {start goal : Nat × Nat}
    {σ : AState} {T : List (Nat × Nat)}
    (hsw : walkableCell grid start)
    (hI : AInv grid start goal σ T) {cur : Nat × Nat}
    (hcuro : cur ∈ σ.openSet)
    (hmin : ∀ x ∈ σ.openSet, (nodeAt σ cur).fCost ≤ (nodeAt σ x).fCost)
    (hfresh : closedAt σ cur = false) :
    AInv grid start goal
      (dirs.foldl (exploreDir grid grid.length (grid.getD 0 []).length
        goal.1 goal.2 cur)
        { σ with closedSet := setCell σ.closedSet cur.1 cur.2 true,
                 openSet := removeFirst σ.openSet cur })
      (T ++ [cur]) := by
  obtain ⟨hcurT, hshort⟩ := ainv_settle hsw hI hcuro hmin hfresh
  obtain ⟨hcw, hcrel⟩ := hI.openIn cur hcuro
  set σ1 : AState :=
    { σ with closedSet := setCell σ.closedSet cur.1 cur.2 true,
             openSet := removeFirst σ.openSet cur } with hσ1
  have hsT2 : start ∈ T ++ [cur] := by
    by_cases hsT : start ∈ T
    · exact List.mem_append.mpr (Or.inl hsT)
    · obtain ⟨hTnil, hinit⟩ := hI.base hsT
      have hop : σ.openSet = [start] := by rw [hinit]; rfl
      have hcs : cur = start := by rw [hop] at hcuro; simpa using hcuro
      rw [hcs]
      simp
  have hM0 : AMidInv grid start goal cur σ1 (T ++ [cur]) [] := by
    refine ⟨hI.nodesLen, hI.nodesRow, ?_, ?_, ?_, hsT2, by simp, ?_, ?_, ?_, ?_,
      hI.startNode, hI.pristine, ?_, ?_, ?_, ?_, ?_⟩
    · show (setCell σ.closedSet cur.1 cur.2 true).length = grid.length
      rw [length_setCell]
      exact hI.closedLen
    · intro r hr
      show ((setCell σ.closedSet cur.1 cur.2 true).getD r []).length = _
      rw [length_row_setCell]
      exact hI.closedRow r hr
    · intro c
      by_cases hc : c = cur
      · subst hc
        constructor
        · intro _
          simp
        · intro _
          show getCell (setCell σ.closedSet c.1 c.2 true) false c.1 c.2 = true
          apply getCell_setCell_self
          · rw [hI.closedLen]
            exact hcw.1
          · rw [hI.closedRow c.1 hcw.1]
            exact hcw.2.1
      · have hsame : closedAt σ1 c = closedAt σ c := by
          show getCell (setCell σ.closedSet cur.1 cur.2 true) false c.1 c.2 = _
          apply getCell_setCell_ne
          intro h
          exact hc (Prod.ext (congrArg Prod.fst h).symm (congrArg Prod.snd h).symm)
        rw [hsame, hI.closedIff c]
        constructor
        · exact fun h => List.mem_append.mpr (Or.inl h)
        · intro h
          rcases List.mem_append.mp h with h | h
          · exact h
          · exact absurd (by simpa using h) hc
    · intro c hc
      rcases List.mem_append.mp hc with h | h
      · exact hI.memT c h
      · have : c = cur := by simpa using h
        rw [this]
        exact hcw
    · intro c hc
      rcases List.mem_append.mp hc with h | h
      · exact hI.memTrel c h
      · have : c = cur := by simpa using h
        rw [this]
        exact hcrel
    · rw [List.nodup_append]
      refine ⟨hI.nodupT, List.nodup_singleton cur, ?_⟩
      intro x hx hx2
      have : x = cur := by simpa using hx2
      exact hcurT (this ▸ hx)
    · intro c hc
      rcases List.mem_append.mp hc with h | h
      · exact hI.settled c h
      · have : c = cur := by simpa using h
        rw [this]
        exact hshort
    · intro c p hp
      obtain ⟨h1, h2, h3, h4, h5, h6, h7⟩ := hI.parentInv c p hp
      exact ⟨List.mem_append.mpr (Or.inl h1), h2, h3, h4, h5, h6, h7⟩
    · intro c hc
      exact hI.openIn c ((removeFirst_sublist σ.openSet cur).mem hc)
    · intro c hc2 hrel2
      have hcT : c ∉ T := fun h => hc2 (List.mem_append.mpr (Or.inl h))
      have hcne : c ≠ cur := fun h => hc2 (by rw [h]; simp)
      exact removeFirst_mem_of_ne hcne (hI.current c hcT hrel2)
    · intro p hp hpcur c hadj hw hcT
      rcases List.mem_append.mp hp with h | h
      · exact hI.frontier p h c hadj hw (fun hh => hcT (List.mem_append.mpr (Or.inl hh)))
      · exact absurd (by simpa using h) hpcur
    · intro dir hdir
      exact absurd hdir (List.not_mem_nil dir)
  have hM := amid_fold dirs (fun d hd => hd) hM0
  exact amid_to_ainv hM

/-- `exploreDir` never touches the closed set. -/
theorem exploreDir_closedSet (grid : List (List Int)) (rows cols gr gc : Nat)
    (cur : Nat × Nat) (σ : AState) (dir : Int × Int) :
    (exploreDir grid rows cols gr gc cur σ dir).closedSet = σ.closedSet := by
  simp only [exploreDir]
  repeat' split
  all_goals rfl

/-- `exploreDir` pushes at most one cell. -/
theorem exploreDir_openLen (grid : List (List Int)) (rows cols gr gc : Nat)
    (cur : Nat × Nat) (σ : AState) (dir : Int × Int) :
    (exploreDir grid rows cols gr gc cur σ dir).openSet.length ≤ σ.openSet.length + 1 := by
  simp only [exploreDir]
  repeat' split
  all_goals simp

theorem foldl_exploreDir_closedSet (grid : List (List Int)) (rows cols gr gc : Nat)
    (cur : Nat × Nat) :
    ∀ (ds : List (Int × Int)) (σ : AState),
      (ds.foldl (exploreDir grid rows cols gr gc cur) σ).closedSet = σ.closedSet
  | [], σ => rfl
  | d :: ds, σ => by
    simp only [List.foldl_cons]
    rw [foldl_exploreDir_closedSet grid rows cols gr gc cur ds _]
    exact exploreDir_closedSet grid rows cols gr gc cur σ d

theorem foldl_exploreDir_openLen (grid : List (List Int)) (rows cols gr gc : Nat)
    (cur : Nat × Nat) :
    ∀ (ds : List (Int × Int)) (σ : AState),
      (ds.foldl (exploreDir grid rows cols gr gc cur) σ).openSet.length ≤
        σ.openSet.length + ds.length
  | [], σ => by simp
  | d :: ds, σ => by
    simp only [List.foldl_cons, List.length_cons]
    have h1 := exploreDir_openLen grid rows cols gr gc cur σ d
    have h2 := foldl_exploreDir_openLen grid rows cols gr gc cur ds
      (exploreDir grid rows cols gr gc cur σ d)
    omega

/-- The initial state of the search satisfies the invariant with an empty
closed trace. -/
theorem ainv_init {grid : List (List Int)} {start goal : Nat × Nat}
    (hsw : walkableCell grid start) :
    AInv grid start goal (aStarInit grid start.1 start.2 goal.1 goal.2) [] := by
  have hr : start.1 < grid.length := hsw.1
  have hc : start.2 < (grid.getD 0 []).length := hsw.2.1
  have hbl : start.1 <
      (List.replicate grid.length (List.replicate (grid.getD 0 []).length newNode)).length := by
    simpa using hr
  have hbc : start.2 <
      ((List.replicate grid.length
        (List.replicate (grid.getD 0 []).length newNode)).getD start.1 []).length := by
    rw [getD_replicate_lt grid.length start.1
      (List.replicate (grid.getD 0 []).length newNode) [] hr]
    simpa using hc
  have hstartNode : nodeAt (aStarInit grid start.1 start.2 goal.1 goal.2) start =
      { gCost := 0, hCost := heuristicManhattan start.1 start.2 goal.1 goal.2,
        fCost := heuristicManhattan start.1 start.2 goal.1 goal.2, parent := none } := by
    show getCell (setCell (List.replicate grid.length
      (List.replicate (grid.getD 0 []).length newNode)) start.1 start.2 _) newNode
        start.1 start.2 = _
    exact getCell_setCell_self _ _ _ _ _ hbl hbc
  have hpristine : ∀ c : Nat × Nat, c ≠ start →
      nodeAt (aStarInit grid start.1 start.2 goal.1 goal.2) c = newNode := by
    intro c hcne
    have hne : (start.1, start.2) ≠ (c.1, c.2) := by
      intro h
      exact hcne (Prod.ext (congrArg Prod.fst h).symm (congrArg Prod.snd h).symm)
    show getCell (setCell (List.replicate grid.length
      (List.replicate (grid.getD 0 []).length newNode)) start.1 start.2 _) newNode
        c.1 c.2 = _
    rw [getCell_setCell_ne _ start.1 start.2 c.1 c.2 _ _ hne, getCell_replicate]
  refine ⟨?_, ?_, ?_, ?_, ?_, fun _ => ⟨rfl, rfl⟩, ?_, ?_, ?_, ?_, hstartNode,
    fun c hcne _ => hpristine c hcne, ?_, ?_, ?_, ?_⟩
  · show (setCell (List.replicate grid.length
      (List.replicate (grid.getD 0 []).length newNode)) start.1 start.2 _).length = _
    rw [length_setCell]
    simp
  · intro r hrr
    show ((setCell (List.replicate grid.length
      (List.replicate (grid.getD 0 []).length newNode)) start.1 start.2 _).getD r []).length = _
    rw [length_row_setCell,
      getD_replicate_lt grid.length r (List.replicate (grid.getD 0 []).length newNode) [] hrr]
    simp
  · show (List.replicate grid.length (List.replicate (grid.getD 0 []).length false)).length = _
    simp
  · intro r hrr
    show ((List.replicate grid.length
      (List.replicate (grid.getD 0 []).length false)).getD r []).length = _
    rw [getD_replicate_lt grid.length r
      (List.replicate (grid.getD 0 []).length false) [] hrr]
    simp
  · intro c
    show getCell (List.replicate grid.length
      (List.replicate (grid.getD 0 []).length false)) false c.1 c.2 = true ↔ c ∈ []
    rw [getCell_replicate]
    simp
  · intro c hcm
    simp at hcm
  · intro c hcm
    simp at hcm
  · simp
  · intro c hcm
    simp at hcm
  · intro c p hpar
    exfalso
    by_cases hcs : c = start
    · rw [hcs, hstartNode] at hpar
      simp at hpar
    · rw [hpristine c hcs] at hpar
      simp [newNode] at hpar
  · intro c hcm
    have hcm2 : c ∈ [(start.1, start.2)] := hcm
    have hcs : c = start := by
      have : c = (start.1, start.2) := by simpa using hcm2
      rw [this]
    rw [hcs]
    exact ⟨hsw, Or.inl rfl⟩
  · intro c _ hrel
    have hcs : c = start := by
      rcases hrel with h | h
      · exact h
      · by_cases hcs : c = start
        · exact hcs
        · rw [hpristine c hcs] at h
          simp [newNode] at h
    rw [hcs]
    show start ∈ [(start.1, start.2)]
    simp
  · intro p hp
    simp at hp

/-- Path reconstruction: from any relaxed cell (or the start), `tracePath`
with enough fuel returns the parent chain down to the start, of length
`gCost + 1`, stepping through adjacent walkable cells with strictly
decreasing `gCost`. -/
theorem tracePath_spec {grid : List (List Int)} {start goal : Nat × Nat}
    {σ : AState} {T : List (Nat × Nat)}
    (hsw : walkableCell grid start)
    (hI : AInv grid start goal σ T) :
    ∀ (fuel : Nat) (c : Nat × Nat), (c = start ∨ (nodeAt σ c).parent ≠ none) →
      (nodeAt σ c).gCost < fuel →
      ∃ l, tracePath σ.nodes fuel c = c :: l ∧
        (c :: l).length = (nodeAt σ c).gCost + 1 ∧
        (c :: l).getLast? = some start ∧
        List.Chain' (fun a b => adjCell b a) (c :: l) ∧
        (∀ x ∈ c :: l, walkableCell grid x) ∧
        (c :: l).Pairwise (fun a b => (nodeAt σ b).gCost < (nodeAt σ a).gCost)
  | 0, c, _, hf => absurd hf (by omega)
  | fuel + 1, c, hrel, hf => by
    rcases hpp : (nodeAt σ c).parent with _ | p
    · have hcs : c = start := by
        rcases hrel with h | h
        · exact h
        · exact absurd hpp h
      subst hcs
      unfold nodeAt at hpp
      refine ⟨[], ?_, ?_, rfl, ?_, ?_, ?_⟩
      · simp [tracePath, hpp]
      · simp [hI.startNode]
      · simp
      · intro x hx
        have := List.mem_singleton.mp hx
        rw [this]
        exact hsw
      · simp
    · obtain ⟨hpT, hadj, hcwc, _, hg, _, _⟩ := hI.parentInv c p hpp
      have hprel := hI.memTrel p hpT
      have hpf : (nodeAt σ p).gCost < fuel := by omega
      obtain ⟨l, heq, hlen, hlast, hchain, hwalk, hpw⟩ :=
        tracePath_spec hsw hI fuel p hprel hpf
      unfold nodeAt at hpp
      refine ⟨p :: l, ?_, ?_, ?_, ?_, ?_, ?_⟩
      · simp only [tracePath, hpp]
        rw [heq]
      · simp only [List.length_cons] at hlen ⊢
        omega
      · rw [List.getLast?_cons_cons]
        exact hlast
      · exact List.chain'_cons.mpr ⟨hadj, hchain⟩
      · intro x hx
        rcases List.mem_cons.mp hx with h | h
        · rw [h]
          exact hcwc
        · exact hwalk x h
      · refine List.pairwise_cons.mpr ⟨?_, hpw⟩
        intro x hx
        rcases List.mem_cons.mp hx with h | h
        · rw [h]
          omega
        · have := (List.pairwise_cons.mp hpw).1 x h
          omega

/-- What a non-empty result of the search satisfies: a duplicate-free
4-connected walkable path from start to goal of shortest length. -/
def PathSpec (grid : List (List Int)) (start goal : Nat × Nat)
    (l : List (Nat × Nat)) : Prop :=
  l.head? = some start ∧ l.getLast? = some goal ∧ List.Chain' adjCell l ∧
    (∀ x ∈ l, walkableCell grid x) ∧
    IsShortestPathLen grid start goal (l.length - 1) ∧ l.Nodup

/-- Main loop invariant run: from any state satisfying `AInv` with
sufficient fuel, the search returns either the empty list or a shortest
path, and the trace of expanded cells never repeats a cell. -/
theorem aStarGoT_spec {grid : List (List Int)} {start goal : Nat × Nat}
    (hsw : walkableCell grid start) :
    ∀ (fuel : Nat) (σ : AState) (T : List (Nat × Nat)),
      AInv grid start goal σ T →
      σ.openSet.length + 5 * unclosedCount σ.closedSet ≤ fuel →
      ((aStarGoT grid grid.length (grid.getD 0 []).length goal.1 goal.2 fuel σ T).1 = [] ∨
        PathSpec grid start goal
          (aStarGoT grid grid.length (grid.getD 0 []).length goal.1 goal.2 fuel σ T).1) ∧
      (aStarGoT grid grid.length (grid.getD 0 []).length goal.1 goal.2 fuel σ T).2.Nodup
  | 0, σ, T, hI, _ => by
    simp only [aStarGoT]
    exact ⟨Or.inl trivial, hI.nodupT⟩
  | fuel + 1, σ, T, hI, hfuel => by
    rcases hop : σ.openSet with _ | ⟨c0, cs⟩
    · simp only [aStarGoT, hop]
      exact ⟨Or.inl trivial, hI.nodupT⟩
    · have hcur_mem : minFCost σ.nodes c0 cs ∈ σ.openSet := by
        rw [hop]
        exact minFCost_mem σ.nodes c0 cs
      have hmin : ∀ x ∈ σ.openSet,
          (nodeAt σ (minFCost σ.nodes c0 cs)).fCost ≤ (nodeAt σ x).fCost := by
        intro x hx
        rw [hop] at hx
        exact minFCost_le σ.nodes c0 cs x hx
      have hrm := removeFirst_length_of_mem hcur_mem
      by_cases hcl : getCell σ.closedSet false (minFCost σ.nodes c0 cs).1
          (minFCost σ.nodes c0 cs).2 = true
      · -- stale pop: the cell is already closed, only the open list shrinks
        have hskip := ainv_skip hI hcl
        rw [hop] at hskip
        have hrec := aStarGoT_spec hsw fuel
          { σ with openSet := removeFirst (c0 :: cs) (minFCost σ.nodes c0 cs) } T hskip
          (by
            simp only
            rw [hop] at hrm
            rw [hop] at hfuel
            omega)
        simp only [aStarGoT, hop, if_pos hcl]
        exact hrec
      · have hfresh : closedAt σ (minFCost σ.nodes c0 cs) = false := by
          rcases h2 : getCell σ.closedSet false (minFCost σ.nodes c0 cs).1
              (minFCost σ.nodes c0 cs).2 with _ | _
          · exact h2
          · exact absurd h2 hcl
        obtain ⟨hcurT, hshort⟩ := ainv_settle hsw hI hcur_mem hmin hfresh
        have hcw := (hI.openIn _ hcur_mem).1
        have hndT : (T ++ [minFCost σ.nodes c0 cs]).Nodup := by
          rw [List.nodup_append]
          refine ⟨hI.nodupT, List.nodup_singleton _, ?_⟩
          intro x hx hx2
          have : x = minFCost σ.nodes c0 cs := by simpa using hx2
          exact hcurT (this ▸ hx)
        by_cases hgoal : minFCost σ.nodes c0 cs = (goal.1, goal.2)
        · -- the goal is popped fresh: reconstruct the path
          have hgoal2 : minFCost σ.nodes c0 cs = goal := hgoal
          have hrel := (hI.openIn _ hcur_mem).2
          rw [hgoal2] at hrel hshort
          have hlt : (nodeAt σ goal).gCost < grid.length * (grid.getD 0 []).length + 1 := by
            have := shortest_steps_lt hshort
            omega
          obtain ⟨l, heq, hlen, hlast, hchain, hwalk, hpw⟩ :=
            tracePath_spec hsw hI (grid.length * (grid.getD 0 []).length + 1) goal hrel hlt
          simp only [aStarGoT, hop, if_neg hcl, if_pos hgoal]
          refine ⟨Or.inr ?_, hndT⟩
          have heq2 : tracePath σ.nodes (grid.length * (grid.getD 0 []).length + 1)
              (goal.1, goal.2) = goal :: l := heq
          rw [heq2]
          have hnd : (goal :: l).Nodup :=
            hpw.imp (fun hlt2 heq3 => by rw [heq3] at hlt2; omega)
          refine ⟨?_, ?_, ?_, ?_, ?_, ?_⟩
          · rw [List.head?_reverse]
            exact hlast
          · rw [List.getLast?_reverse]
            rfl
          · exact List.chain'_reverse.mpr hchain
          · intro x hx
            exact hwalk x (List.mem_reverse.mp hx)
          · have : (goal :: l).reverse.length - 1 = (nodeAt σ goal).gCost := by
              rw [List.length_reverse]
              omega
            rw [this]
            exact hshort
          · exact List.nodup_reverse.mpr hnd
        · -- a fresh non-goal cell: close it and relax its four neighbours
          have hexp := ainv_expand hsw hI hcur_mem hmin hfresh
          rw [hop] at hexp
          have hb1 : (minFCost σ.nodes c0 cs).1 < σ.closedSet.length := by
            rw [hI.closedLen]
            exact hcw.1
          have hb2 : (minFCost σ.nodes c0 cs).2 <
              (σ.closedSet.getD (minFCost σ.nodes c0 cs).1 []).length := by
            rw [hI.closedRow _ hcw.1]
            exact hcw.2.1
          have hunc := unclosedCount_setCell hb1 hb2 hfresh
          have hrec := aStarGoT_spec hsw fuel
            (dirs.foldl (exploreDir grid grid.length (grid.getD 0 []).length
              goal.1 goal.2 (minFCost σ.nodes c0 cs))
              { σ with
                closedSet := setCell σ.closedSet (minFCost σ.nodes c0 cs).1
                  (minFCost σ.nodes c0 cs).2 true,
                openSet := removeFirst (c0 :: cs) (minFCost σ.nodes c0 cs) })
            (T ++ [minFCost σ.nodes c0 cs]) hexp
            (by
              have hlen2 := foldl_exploreDir_openLen grid grid.length
                (grid.getD 0 []).length goal.1 goal.2 (minFCost σ.nodes c0 cs) dirs
                { σ with
                  closedSet := setCell σ.closedSet (minFCost σ.nodes c0 cs).1
                    (minFCost σ.nodes c0 cs).2 true,
                  openSet := removeFirst (c0 :: cs) (minFCost σ.nodes c0 cs) }
              have hcls := foldl_exploreDir_closedSet grid grid.length
                (grid.getD 0 []).length goal.1 goal.2 (minFCost σ.nodes c0 cs) dirs
                { σ with
                  closedSet := setCell σ.closedSet (minFCost σ.nodes c0 cs).1
                    (minFCost σ.nodes c0 cs).2 true,
                  openSet := removeFirst (c0 :: cs) (minFCost σ.nodes c0 cs) }
              have hcls2 : (dirs.foldl (exploreDir grid grid.length
                  (grid.getD 0 []).length goal.1 goal.2 (minFCost σ.nodes c0 cs))
                  { σ with
                    closedSet := setCell σ.closedSet (minFCost σ.nodes c0 cs).1
                      (minFCost σ.nodes c0 cs).2 true,
                    openSet :=
                      removeFirst (c0 :: cs) (minFCost σ.nodes c0 cs) }).closedSet =
                  setCell σ.closedSet (minFCost σ.nodes c0 cs).1
                    (minFCost σ.nodes c0 cs).2 true := hcls
              rw [hcls2]
              have hd4 : dirs.length = 4 := rfl
              simp only at hlen2
              rw [hop] at hrm
              rw [hop] at hfuel
              omega)
          simp only [aStarGoT, hop, if_neg hcl, if_neg hgoal]
          exact hrec

/-- The instrumented loop computes the same result as the plain loop. -/
theorem aStarGoT_fst (grid : List (List Int)) (rows cols gr gc : Nat) :
    ∀ (fuel : Nat) (σ : AState) (t : List (Nat × Nat)),
      (aStarGoT grid rows cols gr gc fuel σ t).1 = aStarGo grid rows cols gr gc fuel σ
  | 0, σ, t => rfl
  | fuel + 1, σ, t => by
    rcases hop : σ.openSet with _ | ⟨c0, cs⟩
    · simp only [aStarGoT, aStarGo, hop]
    · simp only [aStarGoT, aStarGo, hop]
      by_cases hcl : getCell σ.closedSet false (minFCost σ.nodes c0 cs).1
          (minFCost σ.nodes c0 cs).2 = true
      · rw [if_pos hcl, if_pos hcl]
        exact aStarGoT_fst grid rows cols gr gc fuel _ t
      · rw [if_neg hcl, if_neg hcl]
        by_cases hgoal : minFCost σ.nodes c0 cs = (gr, gc)
        · rw [if_pos hgoal, if_pos hgoal]
        · rw [if_neg hgoal, if_neg hgoal]
          exact aStarGoT_fst grid rows cols gr gc fuel _ _

/-- Adjacent cells differ. -/
theorem adjCell_ne {a b : Nat × Nat} (h : adjCell a b) : a ≠ b := by
  intro he
  rw [he] at h
  rcases h with ⟨_, h⟩ | ⟨_, h⟩ <;> omega

/-- Marking a cell closed never unmarks another. -/
theorem getCell_set_true_mono {cl : List (List Bool)} {r c x1 x2 : Nat}
    (h : getCell cl false x1 x2 = true) :
    getCell (setCell cl r c true) false x1 x2 = true := by
  by_cases hx : (r, c) = (x1, x2)
  · have hr : r = x1 := congrArg Prod.fst hx
    have hc : c = x2 := congrArg Prod.snd hx
    subst hr
    subst hc
    by_cases hlen : r < cl.length
    · by_cases hclen : c < (cl.getD r []).length
      · rw [getCell_setCell_self _ _ _ _ _ hlen hclen]
      · unfold getCell setCell
        rw [getD_set_self _ _ _ _ hlen, List.set_eq_of_length_le (by omega)]
        unfold getCell at h
        exact h
    · unfold setCell
      rw [List.set_eq_of_length_le (by omega)]
      exact h
  · rw [getCell_setCell_ne _ _ _ _ _ _ _ hx]
    exact h

/-- A cell of a matrix after `setCell` holds either the written value or
its old value (out-of-bounds writes are dropped). -/
theorem getCell_setCell_cases {α : Type} (m : List (List α)) (r c r2 c2 : Nat) (a d : α) :
    getCell (setCell m r c a) d r2 c2 = a ∨
      getCell (setCell m r c a) d r2 c2 = getCell m d r2 c2 := by
  by_cases hx : (r, c) = (r2, c2)
  · have hr : r = r2 := congrArg Prod.fst hx
    have hc : c = c2 := congrArg Prod.snd hx
    subst hr
    subst hc
    by_cases hlen : r < m.length
    · by_cases hclen : c < (m.getD r []).length
      · exact Or.inl (getCell_setCell_self _ _ _ _ _ hlen hclen)
      · right
        unfold getCell setCell
        rw [getD_set_self _ _ _ _ hlen, List.set_eq_of_length_le (by omega)]
    · right
      unfold setCell
      rw [List.set_eq_of_length_le (by omega)]
  · exact Or.inr (getCell_setCell_ne _ _ _ _ _ _ _ hx)

/-- The weak node invariant, which holds for every input whatsoever (the
start may be blocked or out of bounds): the closed matrix has the board
dimensions, and every parent link steps exactly one `gCost` down to a cell
whose node can no longer change — closed, or outside the board and hence
never written. -/
structure WInv (rows cols : Nat) (σ : AState) : Prop where
  clen : σ.closedSet.length = rows
  crow : ∀ r, r < rows → (σ.closedSet.getD r []).length = cols
  pg : ∀ c p : Nat × Nat, (nodeAt σ c).parent = some p →
    (nodeAt σ c).gCost = (nodeAt σ p).gCost + 1 ∧
      (closedAt σ p = true ∨ ¬(p.1 < rows ∧ p.2 < cols))

/-- One direction of the neighbour loop preserves the weak invariant when
the expanding cell is closed or off the board. -/
theorem winv_exploreDir {rows cols : Nat} {σ : AState} (hW : WInv rows cols σ)
    (grid : List (List Int)) (gr gc : Nat) {cur : Nat × Nat}
    (hcur : closedAt σ cur = true ∨ ¬(cur.1 < rows ∧ cur.2 < cols))
    {dir : Int × Int} (hdir : dir ∈ dirs) :
    WInv rows cols (exploreDir grid rows cols gr gc cur σ dir) := by
  by_cases hv : isValid ((cur.1 : Int) + dir.1) ((cur.2 : Int) + dir.2) rows cols = true
  case neg =>
    simp only [exploreDir]
    rw [if_neg hv]
    exact hW
  case pos =>
  obtain ⟨hadj, hnr, hnc⟩ := step_adj hdir hv
  by_cases hobs : getCell grid 0 ((cur.1 : Int) + dir.1).toNat
      ((cur.2 : Int) + dir.2).toNat = 1
  · simp only [exploreDir]
    rw [if_pos hv, if_pos hobs]
    exact hW
  by_cases hcl : getCell σ.closedSet false ((cur.1 : Int) + dir.1).toNat
      ((cur.2 : Int) + dir.2).toNat = true
  · simp only [exploreDir]
    rw [if_pos hv, if_neg hobs, if_pos hcl]
    exact hW
  by_cases hrel :
      (getCell σ.nodes newNode cur.1 cur.2).gCost + 1 <
          (getCell σ.nodes newNode ((cur.1 : Int) + dir.1).toNat
            ((cur.2 : Int) + dir.2).toNat).gCost ∨
        (getCell σ.nodes newNode ((cur.1 : Int) + dir.1).toNat
          ((cur.2 : Int) + dir.2).toNat).parent = none
  case neg =>
    simp only [exploreDir]
    rw [if_pos hv, if_neg hobs, if_neg hcl, if_neg hrel]
    exact hW
  case pos =>
  set nr := ((cur.1 : Int) + dir.1).toNat with hnrdef
  set nc := ((cur.2 : Int) + dir.2).toNat with hncdef
  have hstep : exploreDir grid rows cols gr gc cur σ dir =
      { σ with
        nodes := setCell σ.nodes nr nc
          { gCost := (getCell σ.nodes newNode cur.1 cur.2).gCost + 1,
            hCost := heuristicManhattan nr nc gr gc,
            fCost := (getCell σ.nodes newNode cur.1 cur.2).gCost + 1 +
              heuristicManhattan nr nc gr gc,
            parent := some cur },
        openSet := σ.openSet ++ [(nr, nc)] } := by
    simp only [exploreDir]
    rw [if_pos hv, if_neg hobs, if_neg hcl, if_pos hrel]
  rw [hstep]
  set nbr2 : Node :=
    { gCost := (getCell σ.nodes newNode cur.1 cur.2).gCost + 1,
      hCost := heuristicManhattan nr nc gr gc,
      fCost := (getCell σ.nodes newNode cur.1 cur.2).gCost + 1 +
        heuristicManhattan nr nc gr gc,
      parent := some cur } with hnbr2
  have hnecur : cur ≠ (nr, nc) := adjCell_ne hadj
  have hcurkeep : getCell (setCell σ.nodes nr nc nbr2) newNode cur.1 cur.2 =
      getCell σ.nodes newNode cur.1 cur.2 := by
    apply getCell_setCell_ne
    intro h
    exact hnecur (Prod.ext (congrArg Prod.fst h).symm (congrArg Prod.snd h).symm)
  refine ⟨hW.clen, hW.crow, ?_⟩
  intro c p hp
  rcases getCell_setCell_cases σ.nodes nr nc c.1 c.2 nbr2 newNode with hcase | hcase
  · have hp2 : nbr2.parent = some p := by
      have : (nodeAt { σ with
          nodes := setCell σ.nodes nr nc nbr2,
          openSet := σ.openSet ++ [(nr, nc)] } c) = nbr2 := hcase
      rw [this] at hp
      exact hp
    have hpcur : p = cur := by
      rw [hnbr2] at hp2
      simpa using hp2.symm
    subst hpcur
    constructor
    · show (getCell (setCell σ.nodes nr nc nbr2) newNode c.1 c.2).gCost =
        (getCell (setCell σ.nodes nr nc nbr2) newNode p.1 p.2).gCost + 1
      rw [hcase, hcurkeep, hnbr2]
    · exact hcur
  · have hold : (nodeAt σ c).parent = some p := by
      have : (nodeAt { σ with
          nodes := setCell σ.nodes nr nc nbr2,
          openSet := σ.openSet ++ [(nr, nc)] } c) = nodeAt σ c := hcase
      rw [this] at hp
      exact hp
    obtain ⟨h1, h2⟩ := hW.pg c p hold
    have hpne : p ≠ (nr, nc) := by
      intro h
      rcases h2 with h2 | h2
      · rw [h] at h2
        exact hcl h2
      · rw [h] at h2
        exact h2 ⟨hnr, hnc⟩
    have hpkeep : getCell (setCell σ.nodes nr nc nbr2) newNode p.1 p.2 =
        getCell σ.nodes newNode p.1 p.2 := by
      apply getCell_setCell_ne
      intro h
      exact hpne (Prod.ext (congrArg Prod.fst h).symm (congrArg Prod.snd h).symm)
    constructor
    · show (getCell (setCell σ.nodes nr nc nbr2) newNode c.1 c.2).gCost =
        (getCell (setCell σ.nodes nr nc nbr2) newNode p.1 p.2).gCost + 1
      rw [hcase, hpkeep]
      exact h1
    · exact h2

/-- The whole neighbour fold preserves the weak invariant. -/
theorem winv_fold {rows cols : Nat} (grid : List (List Int)) (gr gc : Nat)
    {cur : Nat × Nat} :
    ∀ (ds : List (Int × Int)) {σ : AState}, (∀ d ∈ ds, d ∈ dirs) →
      WInv rows cols σ →
      (closedAt σ cur = true ∨ ¬(cur.1 < rows ∧ cur.2 < cols)) →
      WInv rows cols (ds.foldl (exploreDir grid rows cols gr gc cur) σ)
  | [], σ, _, hW, _ => hW
  | d :: ds, σ, hall, hW, hcur => by
    simp only [List.foldl_cons]
    have hcur2 : closedAt (exploreDir grid rows cols gr gc cur σ d) cur = true ∨
        ¬(cur.1 < rows ∧ cur.2 < cols) := by
      rcases hcur with h | h
      · left
        show getCell (exploreDir grid rows cols gr gc cur σ d).closedSet false
          cur.1 cur.2 = true
        rw [exploreDir_closedSet]
        exact h
      · exact Or.inr h
    exact winv_fold grid gr gc ds (fun x hx => hall x (List.mem_cons_of_mem d hx))
      (winv_exploreDir hW grid gr gc hcur (hall d (List.mem_cons_self d ds))) hcur2

/-- Every cell in a reconstruction trace has `gCost` at most the root's. -/
theorem tracePath_gCost_le {nodes : List (List Node)}
    (hpg : ∀ c p : Nat × Nat, (getCell nodes newNode c.1 c.2).parent = some p →
      (getCell nodes newNode c.1 c.2).gCost = (getCell nodes newNode p.1 p.2).gCost + 1) :
    ∀ (fuel : Nat) (c : Nat × Nat), ∀ x ∈ tracePath nodes fuel c,
      (getCell nodes newNode x.1 x.2).gCost ≤ (getCell nodes newNode c.1 c.2).gCost
  | 0, c => by simp [tracePath]
  | fuel + 1, c => by
    rcases hpp : (getCell nodes newNode c.1 c.2).parent with _ | p
    · simp only [tracePath, hpp]
      intro x hx
      have : x = c := by simpa using hx
      rw [this]
    · simp only [tracePath, hpp]
      intro x hx
      rcases List.mem_cons.mp hx with h | h
      · rw [h]
      · have h1 := tracePath_gCost_le hpg fuel p x h
        have h2 := hpg c p hpp
        omega

/-- Reconstruction never repeats a cell: `gCost` strictly decreases along
the parent chain. -/
theorem tracePath_nodup {nodes : List (List Node)}
    (hpg : ∀ c p : Nat × Nat, (getCell nodes newNode c.1 c.2).parent = some p →
      (getCell nodes newNode c.1 c.2).gCost = (getCell nodes newNode p.1 p.2).gCost + 1) :
    ∀ (fuel : Nat) (c : Nat × Nat), (tracePath nodes fuel c).Nodup
  | 0, c => by simp [tracePath]
  | fuel + 1, c => by
    rcases hpp : (getCell nodes newNode c.1 c.2).parent with _ | p
    · simp [tracePath, hpp]
    · simp only [tracePath, hpp]
      refine List.nodup_cons.mpr ⟨?_, tracePath_nodup hpg fuel p⟩
      intro hc
      have h1 := tracePath_gCost_le hpg fuel p c hc
      have h2 := hpg c p hpp
      omega

/-- Under the weak invariant, whatever the loop returns has no duplicate
cells. -/
theorem winv_go (grid : List (List Int)) (rows cols gr gc : Nat) :
    ∀ (fuel : Nat) (σ : AState), WInv rows cols σ →
      (aStarGo grid rows cols gr gc fuel σ).Nodup
  | 0, σ, _ => by simp [aStarGo]
  | fuel + 1, σ, hW => by
    rcases hop : σ.openSet with _ | ⟨c0, cs⟩
    · simp [aStarGo, hop]
    · simp only [aStarGo, hop]
      by_cases hcl : getCell σ.closedSet false (minFCost σ.nodes c0 cs).1
          (minFCost σ.nodes c0 cs).2 = true
      · rw [if_pos hcl]
        exact winv_go grid rows cols gr gc fuel _ ⟨hW.clen, hW.crow, hW.pg⟩
      · rw [if_neg hcl]
        have hW1 : WInv rows cols
            { σ with
              closedSet := setCell σ.closedSet (minFCost σ.nodes c0 cs).1
                (minFCost σ.nodes c0 cs).2 true,
              openSet := removeFirst (c0 :: cs) (minFCost σ.nodes c0 cs) } := by
          refine ⟨?_, ?_, ?_⟩
          · show (setCell σ.closedSet (minFCost σ.nodes c0 cs).1
              (minFCost σ.nodes c0 cs).2 true).length = rows
            rw [length_setCell]
            exact hW.clen
          · intro r hr
            show ((setCell σ.closedSet (minFCost σ.nodes c0 cs).1
              (minFCost σ.nodes c0 cs).2 true).getD r []).length = cols
            rw [length_row_setCell]
            exact hW.crow r hr
          · intro c p hp
            obtain ⟨h1, h2⟩ := hW.pg c p hp
            refine ⟨h1, ?_⟩
            rcases h2 with h2 | h2
            · left
              show getCell (setCell σ.closedSet (minFCost σ.nodes c0 cs).1
                (minFCost σ.nodes c0 cs).2 true) false p.1 p.2 = true
              exact getCell_set_true_mono h2
            · exact Or.inr h2
        by_cases hgoal : minFCost σ.nodes c0 cs = (gr, gc)
        · rw [if_pos hgoal]
          apply List.nodup_reverse.mpr
          exact tracePath_nodup (fun c p hp => (hW.pg c p hp).1) _ _
        · rw [if_neg hgoal]
          apply winv_go grid rows cols gr gc fuel
          apply winv_fold grid gr gc dirs (fun d hd => hd) hW1
          by_cases hb : (minFCost σ.nodes c0 cs).1 < rows ∧ (minFCost σ.nodes c0 cs).2 < cols
          · left
            show getCell (setCell σ.closedSet (minFCost σ.nodes c0 cs).1
              (minFCost σ.nodes c0 cs).2 true) false (minFCost σ.nodes c0 cs).1
              (minFCost σ.nodes c0 cs).2 = true
            apply getCell_setCell_self
            · rw [hW.clen]
              exact hb.1
            · rw [hW.crow _ hb.1]
              exact hb.2
          · exact Or.inr hb

/-- The weak invariant holds at initialisation for every input: no parent
link exists yet. -/
theorem winv_init (grid : List (List Int)) (sr sc gr gc : Nat) :
    WInv grid.length (grid.getD 0 []).length (aStarInit grid sr sc gr gc) := by
  refine ⟨?_, ?_, ?_⟩
  · show (List.replicate grid.length
      (List.replicate (grid.getD 0 []).length false)).length = _
    simp
  · intro r hr
    show ((List.replicate grid.length
      (List.replicate (grid.getD 0 []).length false)).getD r []).length = _
    rw [getD_replicate_lt grid.length r
      (List.replicate (grid.getD 0 []).length false) [] hr]
    simp
  · intro c p hp
    exfalso
    have hnone : (nodeAt (aStarInit grid sr sc gr gc) c).parent = none := by
      show (getCell (setCell (List.replicate grid.length
        (List.replicate (grid.getD 0 []).length newNode)) sr sc
        { gCost := 0, hCost := heuristicManhattan sr sc gr gc,
          fCost := heuristicManhattan sr sc gr gc, parent := none }) newNode
        c.1 c.2).parent = none
      rcases getCell_setCell_cases (List.replicate grid.length
          (List.replicate (grid.getD 0 []).length newNode)) sr sc c.1 c.2
          { gCost := 0, hCost := heuristicManhattan sr sc gr gc,
            fCost := heuristicManhattan sr sc gr gc, parent := none } newNode with h | h
      · rw [h]
      · rw [h, getCell_replicate]
        rfl
    rw [hnone] at hp
    simp at hp

/-- The 3×3 grid of the spec's concrete scenario (§8), obstacle at (1,1). -/
def specGrid3 : List (List Int) := [[0, 0, 0], [0, 1, 0], [0, 0, 0]]

/-- C10: for every grid, start and goal — walkable or not — the sequence
returned by `aStarSearch` has pairwise-distinct cells: every parent link
recorded by the search steps exactly one `gCost` down to a finalised node,
so the predecessor chain followed by the reconstruction is acyclic and the
returned path never revisits a cell. -/
theorem aStar_path_nodup (grid : List (List Int)) (sr sc gr gc : Nat) :
    (aStarSearch grid sr sc gr gc).Nodup :=
  winv_go grid grid.length (grid.getD 0 []).length gr gc
    (5 * grid.length * (grid.getD 0 []).length + 1)
    (aStarInit grid sr sc gr gc) (winv_init grid sr sc gr gc)

/-- What the search would guarantee were the frontier extraction exact:
in the idealized model (`minFCost` pop), with a walkable start, a
non-empty result steps through orthogonally adjacent walkable cells from
the start to the goal and has shortest length.  The program does not
implement this extraction — its `priority_queue` compares mutating keys —
and the shortest-length conclusion fails for it (see `gridH` and the C2
record): this theorem isolates exactly the property the broken heap
costs. -/
theorem aStar_idealized_shortest {grid : List (List Int)} {sr sc gr gc : Nat}
    (hsw : walkableCell grid (sr, sc))
    (hne : aStarSearch grid sr sc gr gc ≠ []) :
    List.Chain' adjCell (aStarSearch grid sr sc gr gc) ∧
      (∀ x ∈ aStarSearch grid sr sc gr gc, walkableCell grid x) ∧
      (aStarSearch grid sr sc gr gc).head? = some (sr, sc) ∧
      (aStarSearch grid sr sc gr gc).getLast? = some (gr, gc) ∧
      IsShortestPathLen grid (sr, sc) (gr, gc)
        ((aStarSearch grid sr sc gr gc).length - 1) := by
  have hI : AInv grid (sr, sc) (gr, gc) (aStarInit grid sr sc gr gc) [] := ainv_init hsw
  have hmeas : (aStarInit grid sr sc gr gc).openSet.length +
      5 * unclosedCount (aStarInit grid sr sc gr gc).closedSet ≤
      5 * grid.length * (grid.getD 0 []).length + 1 := by
    show ([(sr, sc)] : List (Nat × Nat)).length + 5 * unclosedCount
      (List.replicate grid.length (List.replicate (grid.getD 0 []).length false)) ≤ _
    rw [unclosedCount_replicate]
    show 1 + 5 * (grid.length * (grid.getD 0 []).length) ≤
      5 * grid.length * (grid.getD 0 []).length + 1
    rw [Nat.mul_assoc]
    omega
  have hspec := aStarGoT_spec hsw (5 * grid.length * (grid.getD 0 []).length + 1)
    (aStarInit grid sr sc gr gc) [] hI hmeas
  have hfst := aStarGoT_fst grid grid.length (grid.getD 0 []).length gr gc
    (5 * grid.length * (grid.getD 0 []).length + 1) (aStarInit grid sr sc gr gc) []
  simp only at hspec
  rw [hfst] at hspec
  rcases hspec.1 with h | h
  · exact absurd h hne
  · obtain ⟨h1, h2, h3, h4, h5, _⟩ := h
    exact ⟨h3, h4, h1, h2, h5⟩

/-- The blocked-start half of the C2 divergence: with a blocked start
cell the search still runs (no validation exists), and returns a
non-empty sequence whose first cell is the blocked start — so not every
cell of the result is walkable.  Exact for the program: a singleton heap
pops its only element. -/
theorem aStar_blocked_start_not_walkable :
    aStarSearch [[1, 0, 0]] 0 0 0 2 = [(0, 0), (0, 1), (0, 2)] ∧
      ¬ walkableCell [[1, 0, 0]] (0, 0) := by decide

/-- C5 (amended): at search start every node has `gCost` 0 — not
`+infinity` — and a null parent; the start node additionally carries its
heuristic in `hCost`/`fCost`.  The relaxation in the neighbour loop
updates the node (cost, heuristic fields and parent) and pushes it onto
the open list exactly when the tentative cost strictly improves the stored
`gCost` or the node has no parent yet (the code's marker for "no recorded
cost"); otherwise the state is left untouched. -/
theorem aStar_costtable_init_and_relax :
    (∀ (grid : List (List Int)) (sr sc gr gc : Nat) (c : Nat × Nat),
      (nodeAt (aStarInit grid sr sc gr gc) c).parent = none ∧
        ((sr, sc) ≠ (c.1, c.2) → nodeAt (aStarInit grid sr sc gr gc) c = newNode)) ∧
    (∀ (grid : List (List Int)) (rows cols gr gc : Nat) (cur : Nat × Nat)
        (σ : AState) (dir : Int × Int),
      isValid ((cur.1 : Int) + dir.1) ((cur.2 : Int) + dir.2) rows cols = true →
      getCell grid 0 ((cur.1 : Int) + dir.1).toNat ((cur.2 : Int) + dir.2).toNat ≠ 1 →
      getCell σ.closedSet false ((cur.1 : Int) + dir.1).toNat
        ((cur.2 : Int) + dir.2).toNat ≠ true →
      (((getCell σ.nodes newNode cur.1 cur.2).gCost + 1 <
            (getCell σ.nodes newNode ((cur.1 : Int) + dir.1).toNat
              ((cur.2 : Int) + dir.2).toNat).gCost ∨
          (getCell σ.nodes newNode ((cur.1 : Int) + dir.1).toNat
            ((cur.2 : Int) + dir.2).toNat).parent = none) →
        exploreDir grid rows cols gr gc cur σ dir =
          { σ with
            nodes := setCell σ.nodes ((cur.1 : Int) + dir.1).toNat
              ((cur.2 : Int) + dir.2).toNat
              { gCost := (getCell σ.nodes newNode cur.1 cur.2).gCost + 1,
                hCost := heuristicManhattan ((cur.1 : Int) + dir.1).toNat
                  ((cur.2 : Int) + dir.2).toNat gr gc,
                fCost := (getCell σ.nodes newNode cur.1 cur.2).gCost + 1 +
                  heuristicManhattan ((cur.1 : Int) + dir.1).toNat
                    ((cur.2 : Int) + dir.2).toNat gr gc,
                parent := some cur },
            openSet := σ.openSet ++
              [(((cur.1 : Int) + dir.1).toNat, ((cur.2 : Int) + dir.2).toNat)] }) ∧
      (¬ ((getCell σ.nodes newNode cur.1 cur.2).gCost + 1 <
            (getCell σ.nodes newNode ((cur.1 : Int) + dir.1).toNat
              ((cur.2 : Int) + dir.2).toNat).gCost ∨
          (getCell σ.nodes newNode ((cur.1 : Int) + dir.1).toNat
            ((cur.2 : Int) + dir.2).toNat).parent = none) →
        exploreDir grid rows cols gr gc cur σ dir = σ)) := by
  constructor
  · intro grid sr sc gr gc c
    constructor
    · show (getCell (setCell (List.replicate grid.length
        (List.replicate (grid.getD 0 []).length newNode)) sr sc
        { gCost := 0, hCost := heuristicManhattan sr sc gr gc,
          fCost := heuristicManhattan sr sc gr gc, parent := none }) newNode
        c.1 c.2).parent = none
      rcases getCell_setCell_cases (List.replicate grid.length
          (List.replicate (grid.getD 0 []).length newNode)) sr sc c.1 c.2
          { gCost := 0, hCost := heuristicManhattan sr sc gr gc,
            fCost := heuristicManhattan sr sc gr gc, parent := none } newNode with h | h
      · rw [h]
      · rw [h, getCell_replicate]
        rfl
    · intro hne
      show getCell (setCell (List.replicate grid.length
        (List.replicate (grid.getD 0 []).length newNode)) sr sc
        { gCost := 0, hCost := heuristicManhattan sr sc gr gc,
          fCost := heuristicManhattan sr sc gr gc, parent := none }) newNode
        c.1 c.2 = newNode
      rw [getCell_setCell_ne _ _ _ _ _ _ _ hne, getCell_replicate]
  · intro grid rows cols gr gc cur σ dir hv hobs hcl
    constructor
    · intro hrel
      simp only [exploreDir]
      rw [if_pos hv, if_neg hobs, if_neg hcl, if_pos hrel]
    · intro hrel
      simp only [exploreDir]
      rw [if_pos hv, if_neg hobs, if_neg hcl, if_neg hrel]

theorem aStar_costtable_init_and_relax_witness :
    ((nodeAt (aStarInit [[0, 0]] 0 0 0 1) (0, 1)).parent = none ∧
      nodeAt (aStarInit [[0, 0]] 0 0 0 1) (0, 1) = newNode) ∧
      exploreDir [[0, 0]] 1 2 0 1 (0, 0) (aStarInit [[0, 0]] 0 0 0 1) (0, 1) =
        { aStarInit [[0, 0]] 0 0 0 1 with
          nodes := setCell (aStarInit [[0, 0]] 0 0 0 1).nodes 0 1
            { gCost := (getCell (aStarInit [[0, 0]] 0 0 0 1).nodes newNode 0 0).gCost + 1,
              hCost := heuristicManhattan 0 1 0 1,
              fCost := (getCell (aStarInit [[0, 0]] 0 0 0 1).nodes newNode 0 0).gCost + 1 +
                heuristicManhattan 0 1 0 1,
              parent := some (0, 0) },
          openSet := (aStarInit [[0, 0]] 0 0 0 1).openSet ++ [(0, 1)] } := by
  have h := aStar_costtable_init_and_relax
  refine ⟨⟨(h.1 [[0, 0]] 0 0 0 1 (0, 1)).1, (h.1 [[0, 0]] 0 0 0 1 (0, 1)).2 (by decide)⟩, ?_⟩
  exact (h.2 [[0, 0]] 1 2 0 1 (0, 0) (aStarInit [[0, 0]] 0 0 0 1) (0, 1)
    (by decide) (by decide) (by decide)).1 (by decide)

/-! ### The exact container semantics of the A* open set

`std::priority_queue<Node*, vector<Node*>, CompareFCost>` keeps its
underlying vector in binary-heap order via `std::push_heap` and
`std::pop_heap`.  `CompareFCost` dereferences the stored pointers, so every
comparison reads the node's *current* `fCost`; the relax step mutates
`fCost` of nodes already inside the heap, which breaks the heap invariant,
and from then on `top()` need not be a current minimum.  The definitions
below reproduce the libstdc++ algorithms verbatim (`__push_heap`,
`__adjust_heap`, `__pop_heap` of bits/stl_heap.h) over the vector of cell
addresses, with the comparator reading the current node matrix. -/

/-- `CompareFCost` (lines 30-34): `a->fCost > b->fCost`, read through the
pointers at comparison time. -/
def cmpF (nodes : List (List Node)) (a b : Nat × Nat) : Bool :=
  (getCell nodes newNode b.1 b.2).fCost < (getCell nodes newNode a.1 a.2).fCost

/-- `std::__push_heap`: percolate the hole at `hole` up towards `top`,
moving down every parent greater than `value`, then drop `value` in.  The
hole index strictly decreases, so fuel `hole` is enough. -/
def pushHeapLoop (nodes : List (List Node)) (value : Nat × Nat) :
    Nat → List (Nat × Nat) → Nat → Nat → List (Nat × Nat)
  | 0, v, hole, _ => v.set hole value
  | fuel + 1, v, hole, top =>
    if top < hole ∧ cmpF nodes (v.getD ((hole - 1) / 2) (0, 0)) value then
      pushHeapLoop nodes value fuel (v.set hole (v.getD ((hole - 1) / 2) (0, 0)))
        ((hole - 1) / 2) top
    else v.set hole value

/-- `vector::push_back` followed by `std::push_heap` —
`priority_queue::push`. -/
def heapPush (nodes : List (List Node)) (v : List (Nat × Nat)) (x : Nat × Nat) :
    List (Nat × Nat) :=
  pushHeapLoop nodes x v.length (v ++ [x]) v.length 0

/-- The descending cascade of `std::__adjust_heap`: walk the hole down to
the bottom along the not-greater child, returning the vector and the final
hole index.  The child index at least doubles per step, so fuel `len`
suffices. -/
def adjustLoop (nodes : List (List Node)) (len : Nat) :
    Nat → List (Nat × Nat) → Nat → List (Nat × Nat) × Nat
  | 0, v, hole => (v, hole)
  | fuel + 1, v, hole =>
    if hole < (len - 1) / 2 then
      let sc0 := 2 * (hole + 1)
      let sc := if cmpF nodes (v.getD sc0 (0, 0)) (v.getD (sc0 - 1) (0, 0)) then sc0 - 1
        else sc0
      adjustLoop nodes len fuel (v.set hole (v.getD sc (0, 0))) sc
    else (v, hole)

/-- `std::__adjust_heap` with the root hole (its only use in `pop_heap`):
the cascade, the odd lone-left-child tail case, then `__push_heap` of the
saved value from the final hole. -/
def adjustHeap (nodes : List (List Node)) (len : Nat) (v : List (Nat × Nat))
    (value : Nat × Nat) : List (Nat × Nat) :=
  let p1 := adjustLoop nodes len len v 0
  let p2 :=
    if len % 2 = 0 ∧ p1.2 = (len - 2) / 2 then
      ((p1.1.set p1.2 (p1.1.getD (2 * (p1.2 + 1) - 1) (0, 0))), 2 * (p1.2 + 1) - 1)
    else p1
  pushHeapLoop nodes value p2.2 p2.1 p2.2 0

/-- `std::pop_heap` followed by `vector::pop_back` —
`priority_queue::pop`.  The front was read by `top()`; the former back
element is re-inserted through the root cascade over the shortened
prefix. -/
def heapPop (nodes : List (List Node)) (v : List (Nat × Nat)) : List (Nat × Nat) :=
  if v.length ≤ 1 then []
  else
    (adjustHeap nodes (v.length - 1)
      (v.set (v.length - 1) (v.getD 0 (0, 0)))
      (v.getD (v.length - 1) (0, 0))).take (v.length - 1)

/-- The neighbour-loop body (lines 114-132) with the real push: the node
is mutated first, then pushed, so the sift-up comparisons read the updated
`fCost` values. -/
def exploreDirH (grid : List (List Int)) (rows cols goalRow goalCol : Nat)
    (cur : Nat × Nat) (σ : AState) (dir : Int × Int) : AState :=
  let nrI : Int := (cur.1 : Int) + dir.1
  let ncI : Int := (cur.2 : Int) + dir.2
  if isValid nrI ncI rows cols then
    let nr := nrI.toNat
    let nc := ncI.toNat
    if getCell grid 0 nr nc = 1 then σ
    else if getCell σ.closedSet false nr nc then σ
    else
      let tentative := (getCell σ.nodes newNode cur.1 cur.2).gCost + 1
      let nbr := getCell σ.nodes newNode nr nc
      if tentative < nbr.gCost ∨ nbr.parent = none then
        let h2 := heuristicManhattan nr nc goalRow goalCol
        let nbr2 : Node :=
          { gCost := tentative, hCost := h2, fCost := tentative + h2, parent := some cur }
        let nodes2 := setCell σ.nodes nr nc nbr2
        { σ with nodes := nodes2, openSet := heapPush nodes2 σ.openSet (nr, nc) }
      else σ
  else σ

/-- The search loop under the exact heap semantics: `top()` is the front
of the heap vector, `pop()`/`push()` are the libstdc++ algorithms. -/
def aStarGoH (grid : List (List Int)) (rows cols goalRow goalCol : Nat) :
    Nat → AState → List (Nat × Nat)
  | 0, _ => []
  | fuel + 1, σ =>
    match σ.openSet with
    | [] => []
    | cur :: _ =>
      let rest := heapPop σ.nodes σ.openSet
      if getCell σ.closedSet false cur.1 cur.2 then
        aStarGoH grid rows cols goalRow goalCol fuel { σ with openSet := rest }
      else
        let σ1 : AState :=
          { σ with closedSet := setCell σ.closedSet cur.1 cur.2 true, openSet := rest }
        if cur = (goalRow, goalCol) then
          (tracePath σ1.nodes (rows * cols + 1) (goalRow, goalCol)).reverse
        else
          aStarGoH grid rows cols goalRow goalCol fuel
            (dirs.foldl (exploreDirH grid rows cols goalRow goalCol cur) σ1)

/-- The same loop instrumented with the list of expanded (closed) cells. -/
def aStarGoTH (grid : List (List Int)) (rows cols goalRow goalCol : Nat) :
    Nat → AState → List (Nat × Nat) → List (Nat × Nat) × List (Nat × Nat)
  | 0, _, t => ([], t)
  | fuel + 1, σ, t =>
    match σ.openSet with
    | [] => ([], t)
    | cur :: _ =>
      let rest := heapPop σ.nodes σ.openSet
      if getCell σ.closedSet false cur.1 cur.2 then
        aStarGoTH grid rows cols goalRow goalCol fuel { σ with openSet := rest } t
      else
        let σ1 : AState :=
          { σ with closedSet := setCell σ.closedSet cur.1 cur.2 true, openSet := rest }
        if cur = (goalRow, goalCol) then
          ((tracePath σ1.nodes (rows * cols + 1) (goalRow, goalCol)).reverse, t ++ [cur])
        else
          aStarGoTH grid rows cols goalRow goalCol fuel
            (dirs.foldl (exploreDirH grid rows cols goalRow goalCol cur) σ1) (t ++ [cur])

/-- `aStarSearch` under the exact heap semantics. -/
def aStarSearchH (grid : List (List Int)) (startRow startCol goalRow goalCol : Nat) :
    List (Nat × Nat) :=
  aStarGoH grid grid.length (grid.getD 0 []).length goalRow goalCol
    (5 * grid.length * (grid.getD 0 []).length + 1)
    (aStarInit grid startRow startCol goalRow goalCol)

/-- The expansion trace of the exact-heap run. -/
def aStarTraceH (grid : List (List Int)) (startRow startCol goalRow goalCol : Nat) :
    List (Nat × Nat) :=
  (aStarGoTH grid grid.length (grid.getD 0 []).length goalRow goalCol
    (5 * grid.length * (grid.getD 0 []).length + 1)
    (aStarInit grid startRow startCol goalRow goalCol) []).2

/-- The 9×5 grid on which the broken heap order costs optimality. -/
def gridH : List (List Int) :=
  [[0, 1, 1, 0, 0], [1, 0, 0, 1, 1], [1, 0, 0, 0, 1], [0, 0, 1, 0, 0], [0, 0, 1, 0, 0],
   [0, 0, 0, 0, 0], [0, 0, 0, 1, 1], [0, 0, 1, 1, 1], [0, 0, 0, 0, 0]]

/-- An explicit 10-step walk of `gridH` from (2,2) to (8,4), down
column 1 and along row 8. -/
def wH10 : GWalk gridH (2, 2) (8, 4) :=
  .cons (2, 2) (by decide) (by decide)
    (.cons (2, 1) (by decide) (by decide)
      (.cons (3, 1) (by decide) (by decide)
        (.cons (4, 1) (by decide) (by decide)
          (.cons (5, 1) (by decide) (by decide)
            (.cons (6, 1) (by decide) (by decide)
              (.cons (7, 1) (by decide) (by decide)
                (.cons (8, 1) (by decide) (by decide)
                  (.cons (8, 2) (by decide) (by decide)
                    (.cons (8, 3) (by decide) (by decide)
                      (.nil (8, 4) (by decide)))))))))))

/-- C2: the program's open set is a `std::priority_queue<Node*>` whose
keys the relax step mutates in place, breaking the heap invariant, so
`top()` need not be a current minimum.  Under the exact libstdc++
`push_heap`/`pop_heap` semantics, on `gridH` with the walkable in-bounds
start (2,2) and goal (8,4) the search closes cells with suboptimal
`gCost` and returns a 12-step path, although a 10-step walk exists: the
spec's shortest-length conclusion is false of the program. -/
theorem aStar_heap_returns_nonshortest :
    walkableCell gridH (2, 2) ∧ walkableCell gridH (8, 4) ∧
      aStarSearchH gridH 2 2 8 4 =
        [(2, 2), (2, 3), (3, 3), (4, 3), (5, 3), (5, 2), (6, 2), (6, 1), (7, 1),
         (8, 1), (8, 2), (8, 3), (8, 4)] ∧
      ¬ IsShortestPathLen gridH (2, 2) (8, 4) ((aStarSearchH gridH 2 2 8 4).length - 1) := by
  refine ⟨by decide, by decide, by decide, ?_⟩
  rintro ⟨-, hmin⟩
  have hlen : (aStarSearchH gridH 2 2 8 4).length - 1 = 12 := by decide
  have hs10 : wH10.steps = 10 := rfl
  have h := hmin wH10
  rw [hlen, hs10] at h
  omega

/-- An in-bounds `getD` is a member; out of bounds it is the default. -/
theorem getD_mem_or {α : Type} : ∀ (l : List α) (i : Nat) (d : α),
    l.getD i d ∈ l ∨ l.getD i d = d
  | [], _, d => Or.inr rfl
  | a :: l, 0, d => Or.inl (List.mem_cons_self a l)
  | a :: l, i + 1, d => by
    rcases getD_mem_or l i d with h | h
    · exact Or.inl (List.mem_cons_of_mem a (by simpa using h))
    · right
      simpa using h

/-- A member of `l.set i a` is a member of `l` or is `a`. -/
theorem mem_set_or {α : Type} {x : α} : ∀ {l : List α} {i : Nat} {a : α},
    x ∈ l.set i a → x ∈ l ∨ x = a
  | [], _, _, hx => by simp at hx
  | b :: l, 0, a, hx => by
    rcases List.mem_cons.mp hx with h | h
    · exact Or.inr h
    · exact Or.inl (List.mem_cons_of_mem b h)
  | b :: l, i + 1, a, hx => by
    rcases List.mem_cons.mp hx with h | h
    · exact Or.inl (h ▸ List.mem_cons_self b l)
    · rcases mem_set_or h with h2 | h2
      · exact Or.inl (List.mem_cons_of_mem b h2)
      · exact Or.inr h2

/-- The sift-up only moves entries of the vector around (or drops in the
sifted value; an out-of-bounds read yields the default). -/
theorem mem_pushHeapLoop {nodes : List (List Node)} {value x : Nat × Nat} :
    ∀ {fuel : Nat} {v : List (Nat × Nat)} {hole top : Nat},
      x ∈ pushHeapLoop nodes value fuel v hole top → x ∈ v ∨ x = value ∨ x = (0, 0)
  | 0, v, hole, top, hx => by
    rcases mem_set_or hx with h | h
    · exact Or.inl h
    · exact Or.inr (Or.inl h)
  | fuel + 1, v, hole, top, hx => by
    rw [pushHeapLoop] at hx
    by_cases hc : top < hole ∧ cmpF nodes (v.getD ((hole - 1) / 2) (0, 0)) value = true
    · rw [if_pos hc] at hx
      rcases mem_pushHeapLoop hx with h | h
      · rcases mem_set_or h with h2 | h2
        · exact Or.inl h2
        · rcases getD_mem_or v ((hole - 1) / 2) (0, 0) with h3 | h3
          · rw [h2]
            exact Or.inl h3
          · right
            right
            rw [h2, h3]
      · exact Or.inr h
    · rw [if_neg hc] at hx
      rcases mem_set_or hx with h | h
      · exact Or.inl h
      · exact Or.inr (Or.inl h)

/-- A member of the heap after a push was already there, or is the new
entry (or the out-of-bounds default). -/
theorem mem_heapPush {nodes : List (List Node)} {v : List (Nat × Nat)} {x y : Nat × Nat}
    (hy : y ∈ heapPush nodes v x) : y ∈ v ∨ y = x ∨ y = (0, 0) := by
  unfold heapPush at hy
  rcases mem_pushHeapLoop hy with h | h
  · rcases List.mem_append.mp h with h2 | h2
    · exact Or.inl h2
    · right
      left
      simpa using h2
  · exact Or.inr h

/-- The descending cascade only copies entries of the vector. -/
theorem mem_adjustLoop {nodes : List (List Node)} {len : Nat} {x : Nat × Nat} :
    ∀ {fuel : Nat} {v : List (Nat × Nat)} {hole : Nat},
      x ∈ (adjustLoop nodes len fuel v hole).1 → x ∈ v ∨ x = (0, 0)
  | 0, v, hole, hx => Or.inl hx
  | fuel + 1, v, hole, hx => by
    simp only [adjustLoop] at hx
    by_cases hc : hole < (len - 1) / 2
    · rw [if_pos hc] at hx
      rcases mem_adjustLoop hx with h | h
      · rcases mem_set_or h with h2 | h2
        · exact Or.inl h2
        · rcases getD_mem_or v
            (if cmpF nodes (v.getD (2 * (hole + 1)) (0, 0))
                (v.getD (2 * (hole + 1) - 1) (0, 0)) = true
              then 2 * (hole + 1) - 1 else 2 * (hole + 1)) (0, 0) with h3 | h3
          · rw [h2]
            exact Or.inl h3
          · right
            rw [h2, h3]
      · exact Or.inr h
    · rw [if_neg hc] at hx
      exact Or.inl hx

/-- `__adjust_heap` only rearranges the vector and inserts the saved
value. -/
theorem mem_adjustHeap {nodes : List (List Node)} {len : Nat} {v : List (Nat × Nat)}
    {value x : Nat × Nat} (hx : x ∈ adjustHeap nodes len v value) :
    x ∈ v ∨ x = value ∨ x = (0, 0) := by
  simp only [adjustHeap] at hx
  by_cases hc : len % 2 = 0 ∧ (adjustLoop nodes len len v 0).2 = (len - 2) / 2
  · rw [if_pos hc] at hx
    rcases mem_pushHeapLoop hx with h | h
    · rcases mem_set_or h with h2 | h2
      · rcases mem_adjustLoop h2 with h3 | h3
        · exact Or.inl h3
        · exact Or.inr (Or.inr h3)
      · rcases getD_mem_or (adjustLoop nodes len len v 0).1
          (2 * ((adjustLoop nodes len len v 0).2 + 1) - 1) (0, 0) with h3 | h3
        · rcases mem_adjustLoop (h2 ▸ h3 : x ∈ (adjustLoop nodes len len v 0).1) with h4 | h4
          · exact Or.inl h4
          · exact Or.inr (Or.inr h4)
        · right
          right
          rw [h2, h3]
    · exact Or.inr h
  · rw [if_neg hc] at hx
    rcases mem_pushHeapLoop hx with h | h
    · rcases mem_adjustLoop h with h2 | h2
      · exact Or.inl h2
      · exact Or.inr (Or.inr h2)
    · exact Or.inr h

/-- A member of the heap after a pop was a member before (or the
out-of-bounds default). -/
theorem mem_heapPop {nodes : List (List Node)} {v : List (Nat × Nat)} {x : Nat × Nat}
    (hx : x ∈ heapPop nodes v) : x ∈ v ∨ x = (0, 0) := by
  unfold heapPop at hx
  by_cases hlen : v.length ≤ 1
  · rw [if_pos hlen] at hx
    simp at hx
  · rw [if_neg hlen] at hx
    have hx2 := (List.take_sublist _ _).mem hx
    rcases mem_adjustHeap hx2 with h | h | h
    · rcases mem_set_or h with h2 | h2
      · exact Or.inl h2
      · rcases getD_mem_or v 0 (0, 0) with h3 | h3
        · rw [h2]
          exact Or.inl h3
        · right
          rw [h2, h3]
    · rcases getD_mem_or v (v.length - 1) (0, 0) with h3 | h3
      · rw [h]
        exact Or.inl h3
      · right
        rw [h, h3]
    · exact Or.inr h

/-- `exploreDirH` never touches the closed set. -/
theorem exploreDirH_closedSet (grid : List (List Int)) (rows cols gr gc : Nat)
    (cur : Nat × Nat) (σ : AState) (dir : Int × Int) :
    (exploreDirH grid rows cols gr gc cur σ dir).closedSet = σ.closedSet := by
  simp only [exploreDirH]
  repeat' split
  all_goals rfl

theorem foldl_exploreDirH_closedSet (grid : List (List Int)) (rows cols gr gc : Nat)
    (cur : Nat × Nat) :
    ∀ (ds : List (Int × Int)) (σ : AState),
      (ds.foldl (exploreDirH grid rows cols gr gc cur) σ).closedSet = σ.closedSet
  | [], σ => rfl
  | d :: ds, σ => by
    simp only [List.foldl_cons]
    rw [foldl_exploreDirH_closedSet grid rows cols gr gc cur ds _]
    exact exploreDirH_closedSet grid rows cols gr gc cur σ d

/-- Any cell in the open list after one direction of the neighbour loop
was already there or is in bounds. -/
theorem exploreDir_open_mem (grid : List (List Int)) (rows cols gr gc : Nat)
    (cur : Nat × Nat) (σ : AState) {dir : Int × Int} (hdir : dir ∈ dirs) :
    ∀ x ∈ (exploreDir grid rows cols gr gc cur σ dir).openSet,
      x ∈ σ.openSet ∨ (x.1 < rows ∧ x.2 < cols) := by
  intro x hx
  by_cases hv : isValid ((cur.1 : Int) + dir.1) ((cur.2 : Int) + dir.2) rows cols = true
  case neg =>
    simp only [exploreDir] at hx
    rw [if_neg hv] at hx
    exact Or.inl hx
  case pos =>
  obtain ⟨hadj, hnr, hnc⟩ := step_adj hdir hv
  by_cases hobs : getCell grid 0 ((cur.1 : Int) + dir.1).toNat
      ((cur.2 : Int) + dir.2).toNat = 1
  · simp only [exploreDir] at hx
    rw [if_pos hv, if_pos hobs] at hx
    exact Or.inl hx
  by_cases hcl : getCell σ.closedSet false ((cur.1 : Int) + dir.1).toNat
      ((cur.2 : Int) + dir.2).toNat = true
  · simp only [exploreDir] at hx
    rw [if_pos hv, if_neg hobs, if_pos hcl] at hx
    exact Or.inl hx
  by_cases hrel :
      (getCell σ.nodes newNode cur.1 cur.2).gCost + 1 <
          (getCell σ.nodes newNode ((cur.1 : Int) + dir.1).toNat
            ((cur.2 : Int) + dir.2).toNat).gCost ∨
        (getCell σ.nodes newNode ((cur.1 : Int) + dir.1).toNat
          ((cur.2 : Int) + dir.2).toNat).parent = none
  · simp only [exploreDir] at hx
    rw [if_pos hv, if_neg hobs, if_neg hcl, if_pos hrel] at hx
    rcases List.mem_append.mp hx with h | h
    · exact Or.inl h
    · right
      have : x = (((cur.1 : Int) + dir.1).toNat, ((cur.2 : Int) + dir.2).toNat) := by
        simpa using h
      rw [this]
      exact ⟨hnr, hnc⟩
  · simp only [exploreDir] at hx
    rw [if_pos hv, if_neg hobs, if_neg hcl, if_neg hrel] at hx
    exact Or.inl hx

theorem foldl_exploreDir_open_mem (grid : List (List Int)) (rows cols gr gc : Nat)
    (cur : Nat × Nat) :
    ∀ (ds : List (Int × Int)) (σ : AState), (∀ d ∈ ds, d ∈ dirs) →
      ∀ x ∈ (ds.foldl (exploreDir grid rows cols gr gc cur) σ).openSet,
        x ∈ σ.openSet ∨ (x.1 < rows ∧ x.2 < cols)
  | [], σ, _, x, hx => Or.inl hx
  | d :: ds, σ, hall, x, hx => by
    simp only [List.foldl_cons] at hx
    rcases foldl_exploreDir_open_mem grid rows cols gr gc cur ds _
        (fun e he => hall e (List.mem_cons_of_mem d he)) x hx with h | h
    · exact exploreDir_open_mem grid rows cols gr gc cur σ
        (hall d (List.mem_cons_self d ds)) x h
    · exact Or.inr h

/-- Any cell in the heap after one direction of the neighbour loop was
already there, is in bounds, or is the out-of-bounds default. -/
theorem exploreDirH_open_mem (grid : List (List Int)) (rows cols gr gc : Nat)
    (cur : Nat × Nat) (σ : AState) {dir : Int × Int} (hdir : dir ∈ dirs) :
    ∀ x ∈ (exploreDirH grid rows cols gr gc cur σ dir).openSet,
      x ∈ σ.openSet ∨ (x.1 < rows ∧ x.2 < cols) ∨ x = (0, 0) := by
  intro x hx
  by_cases hv : isValid ((cur.1 : Int) + dir.1) ((cur.2 : Int) + dir.2) rows cols = true
  case neg =>
    simp only [exploreDirH] at hx
    rw [if_neg hv] at hx
    exact Or.inl hx
  case pos =>
  obtain ⟨hadj, hnr, hnc⟩ := step_adj hdir hv
  by_cases hobs : getCell grid 0 ((cur.1 : Int) + dir.1).toNat
      ((cur.2 : Int) + dir.2).toNat = 1
  · simp only [exploreDirH] at hx
    rw [if_pos hv, if_pos hobs] at hx
    exact Or.inl hx
  by_cases hcl : getCell σ.closedSet false ((cur.1 : Int) + dir.1).toNat
      ((cur.2 : Int) + dir.2).toNat = true
  · simp only [exploreDirH] at hx
    rw [if_pos hv, if_neg hobs, if_pos hcl] at hx
    exact Or.inl hx
  by_cases hrel :
      (getCell σ.nodes newNode cur.1 cur.2).gCost + 1 <
          (getCell σ.nodes newNode ((cur.1 : Int) + dir.1).toNat
            ((cur.2 : Int) + dir.2).toNat).gCost ∨
        (getCell σ.nodes newNode ((cur.1 : Int) + dir.1).toNat
          ((cur.2 : Int) + dir.2).toNat).parent = none
  · simp only [exploreDirH] at hx
    rw [if_pos hv, if_neg hobs, if_neg hcl, if_pos hrel] at hx
    rcases mem_heapPush hx with h | h | h
    · exact Or.inl h
    · right
      left
      rw [h]
      exact ⟨hnr, hnc⟩
    · exact Or.inr (Or.inr h)
  · simp only [exploreDirH] at hx
    rw [if_pos hv, if_neg hobs, if_neg hcl, if_neg hrel] at hx
    exact Or.inl hx

theorem foldl_exploreDirH_open_mem (grid : List (List Int)) (rows cols gr gc : Nat)
    (cur : Nat × Nat) :
    ∀ (ds : List (Int × Int)) (σ : AState), (∀ d ∈ ds, d ∈ dirs) →
      ∀ x ∈ (ds.foldl (exploreDirH grid rows cols gr gc cur) σ).openSet,
        x ∈ σ.openSet ∨ (x.1 < rows ∧ x.2 < cols) ∨ x = (0, 0)
  | [], σ, _, x, hx => Or.inl hx
  | d :: ds, σ, hall, x, hx => by
    simp only [List.foldl_cons] at hx
    rcases foldl_exploreDirH_open_mem grid rows cols gr gc cur ds _
        (fun e he => hall e (List.mem_cons_of_mem d he)) x hx with h | h
    · exact exploreDirH_open_mem grid rows cols gr gc cur σ
        (hall d (List.mem_cons_self d ds)) x h
    · exact Or.inr h

/-- Trace invariant for the idealized-frontier loop: whenever the closed
matrix has the board dimensions, every open cell is in bounds and the
accumulated trace holds distinct already-closed cells, the final trace is
duplicate-free — each cell is closed the moment it is appended, closing is
effective (in bounds) and permanent, and the closed check skips it ever
after. -/
theorem tinv_go (grid : List (List Int)) (rows cols gr gc : Nat) :
    ∀ (fuel : Nat) (σ : AState) (t : List (Nat × Nat)),
      σ.closedSet.length = rows →
      (∀ r, r < rows → (σ.closedSet.getD r []).length = cols) →
      (∀ c ∈ σ.openSet, c.1 < rows ∧ c.2 < cols) →
      (∀ c ∈ t, getCell σ.closedSet false c.1 c.2 = true) →
      t.Nodup →
      (aStarGoT grid rows cols gr gc fuel σ t).2.Nodup
  | 0, σ, t, _, _, _, _, htn => by
    simp only [aStarGoT]
    exact htn
  | fuel + 1, σ, t, hclen, hcrow, hoin, htcl, htn => by
    rcases hop : σ.openSet with _ | ⟨c0, cs⟩
    · simp only [aStarGoT, hop]
      exact htn
    · have hcin : minFCost σ.nodes c0 cs ∈ σ.openSet := by
        rw [hop]
        exact minFCost_mem σ.nodes c0 cs
      have hb := hoin _ hcin
      by_cases hcl : getCell σ.closedSet false (minFCost σ.nodes c0 cs).1
          (minFCost σ.nodes c0 cs).2 = true
      · simp only [aStarGoT, hop, if_pos hcl]
        have hoin2 : ∀ c ∈ removeFirst (c0 :: cs) (minFCost σ.nodes c0 cs),
            c.1 < rows ∧ c.2 < cols := by
          intro c hc
          apply hoin
          rw [hop]
          exact (removeFirst_sublist _ _).mem hc
        exact tinv_go grid rows cols gr gc fuel
          { σ with openSet := removeFirst (c0 :: cs) (minFCost σ.nodes c0 cs) } t
          hclen hcrow hoin2 htcl htn
      · have hcurt : minFCost σ.nodes c0 cs ∉ t := fun h => hcl (htcl _ h)
        have htn2 : (t ++ [minFCost σ.nodes c0 cs]).Nodup := by
          rw [List.nodup_append]
          refine ⟨htn, List.nodup_singleton _, ?_⟩
          intro x hx hx2
          have : x = minFCost σ.nodes c0 cs := by simpa using hx2
          exact hcurt (this ▸ hx)
        by_cases hgoal : minFCost σ.nodes c0 cs = (gr, gc)
        · simp only [aStarGoT, hop, if_neg hcl, if_pos hgoal]
          exact htn2
        · simp only [aStarGoT, hop, if_neg hcl, if_neg hgoal]
          have hcls := foldl_exploreDir_closedSet grid rows cols gr gc
            (minFCost σ.nodes c0 cs) dirs
            { σ with
              closedSet := setCell σ.closedSet (minFCost σ.nodes c0 cs).1
                (minFCost σ.nodes c0 cs).2 true,
              openSet := removeFirst (c0 :: cs) (minFCost σ.nodes c0 cs) }
          refine tinv_go grid rows cols gr gc fuel _ _ ?_ ?_ ?_ ?_ htn2
          · rw [hcls]
            show (setCell σ.closedSet (minFCost σ.nodes c0 cs).1
              (minFCost σ.nodes c0 cs).2 true).length = rows
            rw [length_setCell]
            exact hclen
          · intro r hr
            rw [hcls]
            show ((setCell σ.closedSet (minFCost σ.nodes c0 cs).1
              (minFCost σ.nodes c0 cs).2 true).getD r []).length = cols
            rw [length_row_setCell]
            exact hcrow r hr
          · intro c hc
            rcases foldl_exploreDir_open_mem grid rows cols gr gc
                (minFCost σ.nodes c0 cs) dirs _ (fun d hd => hd) c hc with h | h
            · apply hoin
              rw [hop]
              exact (removeFirst_sublist _ _).mem h
            · exact h
          · intro c hc
            rw [hcls]
            rcases List.mem_append.mp hc with h | h
            · exact getCell_set_true_mono (htcl c h)
            · have hceq : c = minFCost σ.nodes c0 cs := by simpa using h
              rw [hceq]
              apply getCell_setCell_self
              · rw [hclen]
                exact hb.1
              · rw [hcrow _ hb.1]
                exact hb.2

/-- The same trace invariant for the exact-heap loop: duplicate-freedom of
the expansion trace never depended on which open cell the pop yields, only
on the closed-set check, so it survives the broken heap order. -/
theorem tinv_goH (grid : List (List Int)) (rows cols gr gc : Nat)
    (hr0 : 0 < rows) (hc0 : 0 < cols) :
    ∀ (fuel : Nat) (σ : AState) (t : List (Nat × Nat)),
      σ.closedSet.length = rows →
      (∀ r, r < rows → (σ.closedSet.getD r []).length = cols) →
      (∀ c ∈ σ.openSet, c.1 < rows ∧ c.2 < cols) →
      (∀ c ∈ t, getCell σ.closedSet false c.1 c.2 = true) →
      t.Nodup →
      (aStarGoTH grid rows cols gr gc fuel σ t).2.Nodup
  | 0, σ, t, _, _, _, _, htn => by
    simp only [aStarGoTH]
    exact htn
  | fuel + 1, σ, t, hclen, hcrow, hoin, htcl, htn => by
    rcases hop : σ.openSet with _ | ⟨c0, cs⟩
    · simp only [aStarGoTH, hop]
      exact htn
    · have hcin : c0 ∈ σ.openSet := by
        rw [hop]
        exact List.mem_cons_self c0 cs
      have hb := hoin _ hcin
      have hoin2 : ∀ c ∈ heapPop σ.nodes (c0 :: cs), c.1 < rows ∧ c.2 < cols := by
        intro c hc
        rcases mem_heapPop hc with h | h
        · apply hoin
          rw [hop]
          exact h
        · rw [h]
          exact ⟨hr0, hc0⟩
      by_cases hcl : getCell σ.closedSet false c0.1 c0.2 = true
      · simp only [aStarGoTH, hop, if_pos hcl]
        exact tinv_goH grid rows cols gr gc hr0 hc0 fuel
          { σ with openSet := heapPop σ.nodes (c0 :: cs) } t
          hclen hcrow hoin2 htcl htn
      · have hcurt : c0 ∉ t := fun h => hcl (htcl _ h)
        have htn2 : (t ++ [c0]).Nodup := by
          rw [List.nodup_append]
          refine ⟨htn, List.nodup_singleton _, ?_⟩
          intro x hx hx2
          have : x = c0 := by simpa using hx2
          exact hcurt (this ▸ hx)
        by_cases hgoal : c0 = (gr, gc)
        · simp only [aStarGoTH, hop, if_neg hcl, if_pos hgoal]
          exact htn2
        · simp only [aStarGoTH, hop, if_neg hcl, if_neg hgoal]
          have hcls := foldl_exploreDirH_closedSet grid rows cols gr gc c0 dirs
            { σ with
              closedSet := setCell σ.closedSet c0.1 c0.2 true,
              openSet := heapPop σ.nodes (c0 :: cs) }
          refine tinv_goH grid rows cols gr gc hr0 hc0 fuel _ _ ?_ ?_ ?_ ?_ htn2
          · rw [hcls]
            show (setCell σ.closedSet c0.1 c0.2 true).length = rows
            rw [length_setCell]
            exact hclen
          · intro r hr
            rw [hcls]
            show ((setCell σ.closedSet c0.1 c0.2 true).getD r []).length = cols
            rw [length_row_setCell]
            exact hcrow r hr
          · intro c hc
            rcases foldl_exploreDirH_open_mem grid rows cols gr gc c0 dirs _
                (fun d hd => hd) c hc with h | h | h
            · exact hoin2 c h
            · exact h
            · rw [h]
              exact ⟨hr0, hc0⟩
          · intro c hc
            rw [hcls]
            rcases List.mem_append.mp hc with h | h
            · exact getCell_set_true_mono (htcl c h)
            · have hceq : c = c0 := by simpa using h
              rw [hceq]
              apply getCell_setCell_self
              · rw [hclen]
                exact hb.1
              · rw [hcrow _ hb.1]
                exact hb.2

/-- C6 (amended): a closed node is never expanded twice — in `dijkstra`
provided the weights are non-negative and the total weight stays below
`INT_MAX` (no `int` overflow, so a settled distance never drops below a
stale queue key), and in `aStarSearch` provided the start cell is in
bounds (an out-of-bounds start dereferences `allNodes` out of range,
undefined behaviour).  No walkability assumption is needed: a blocked
in-bounds start is searched anyway, and the closed-set check alone
prevents re-expansion — both in the idealized-frontier model and under
the exact libstdc++ heap semantics. -/
theorem no_reexpansion :
    (∀ (n : Nat) (g : Graph) (s : Nat), s < n → g.length = n → WellFormed g n →
      Nonneg g n → totalWeight g n < INF → (dijkstraTrace n g s).Nodup) ∧
    (∀ (grid : List (List Int)) (sr sc gr gc : Nat),
      sr < grid.length → sc < (grid.getD 0 []).length →
      (aStarTrace grid sr sc gr gc).Nodup ∧ (aStarTraceH grid sr sc gr gc).Nodup) := by
  constructor
  · intro n g s hs hlen wf hn hb
    exact dijkstra_trace_nodup hs hlen wf hn hb
  · intro grid sr sc gr gc hr hc
    have hclen : (aStarInit grid sr sc gr gc).closedSet.length = grid.length := by
      show (List.replicate grid.length
        (List.replicate (grid.getD 0 []).length false)).length = _
      simp
    have hcrow : ∀ r, r < grid.length →
        ((aStarInit grid sr sc gr gc).closedSet.getD r []).length =
          (grid.getD 0 []).length := by
      intro r hrr
      show ((List.replicate grid.length
        (List.replicate (grid.getD 0 []).length false)).getD r []).length = _
      rw [getD_replicate_lt grid.length r
        (List.replicate (grid.getD 0 []).length false) [] hrr]
      simp
    have hoin : ∀ c ∈ (aStarInit grid sr sc gr gc).openSet,
        c.1 < grid.length ∧ c.2 < (grid.getD 0 []).length := by
      intro c hcm
      have hcm2 : c ∈ [(sr, sc)] := hcm
      have : c = (sr, sc) := by simpa using hcm2
      rw [this]
      exact ⟨hr, hc⟩
    have htcl : ∀ c ∈ ([] : List (Nat × Nat)),
        getCell (aStarInit grid sr sc gr gc).closedSet false c.1 c.2 = true := by
      intro c hcm
      simp at hcm
    constructor
    · exact tinv_go grid grid.length (grid.getD 0 []).length gr gc
        (5 * grid.length * (grid.getD 0 []).length + 1)
        (aStarInit grid sr sc gr gc) [] hclen hcrow hoin htcl List.nodup_nil
    · exact tinv_goH grid grid.length (grid.getD 0 []).length gr gc
        (by omega) (by omega)
        (5 * grid.length * (grid.getD 0 []).length + 1)
        (aStarInit grid sr sc gr gc) [] hclen hcrow hoin htcl List.nodup_nil

theorem no_reexpansion_witness :
    ((0 < 5 ∧ Nonneg g5 5 ∧ WellFormed g5 5 ∧ totalWeight g5 5 < INF) ∧
      (dijkstraTrace 5 g5 0).Nodup) ∧
      ((0 < 3 ∧ 0 < 3) ∧ (aStarTrace specGrid3 0 0 2 2).Nodup ∧
        (aStarTraceH specGrid3 0 0 2 2).Nodup) := by
  have h := no_reexpansion
  exact ⟨⟨⟨by decide, by decide, by decide, by decide⟩,
      h.1 5 g5 0 (by decide) rfl (by decide) (by decide) (by decide)⟩,
    ⟨⟨by decide, by decide⟩, h.2 specGrid3 0 0 2 2 (by decide) (by decide)⟩⟩

/-- One direction of the neighbour loop under the real push preserves the
weak invariant: the clauses only mention the node matrix and the closed
set, which `heapPush` does not touch. -/
theorem winv_exploreDirH {rows cols : Nat} {σ : AState} (hW : WInv rows cols σ)
    (grid : List (List Int)) (gr gc : Nat) {cur : Nat × Nat}
    (hcur : closedAt σ cur = true ∨ ¬(cur.1 < rows ∧ cur.2 < cols))
    {dir : Int × Int} (hdir : dir ∈ dirs) :
    WInv rows cols (exploreDirH grid rows cols gr gc cur σ dir) := by
  by_cases hv : isValid ((cur.1 : Int) + dir.1) ((cur.2 : Int) + dir.2) rows cols = true
  case neg =>
    simp only [exploreDirH]
    rw [if_neg hv]
    exact hW
  case pos =>
  obtain ⟨hadj, hnr, hnc⟩ := step_adj hdir hv
  by_cases hobs : getCell grid 0 ((cur.1 : Int) + dir.1).toNat
      ((cur.2 : Int) + dir.2).toNat = 1
  · simp only [exploreDirH]
    rw [if_pos hv, if_pos hobs]
    exact hW
  by_cases hcl : getCell σ.closedSet false ((cur.1 : Int) + dir.1).toNat
      ((cur.2 : Int) + dir.2).toNat = true
  · simp only [exploreDirH]
    rw [if_pos hv, if_neg hobs, if_pos hcl]
    exact hW
  by_cases hrel :
      (getCell σ.nodes newNode cur.1 cur.2).gCost + 1 <
          (getCell σ.nodes newNode ((cur.1 : Int) + dir.1).toNat
            ((cur.2 : Int) + dir.2).toNat).gCost ∨
        (getCell σ.nodes newNode ((cur.1 : Int) + dir.1).toNat
          ((cur.2 : Int) + dir.2).toNat).parent = none
  case neg =>
    simp only [exploreDirH]
    rw [if_pos hv, if_neg hobs, if_neg hcl, if_neg hrel]
    exact hW
  case pos =>
  set nr := ((cur.1 : Int) + dir.1).toNat with hnrdef
  set nc := ((cur.2 : Int) + dir.2).toNat with hncdef
  have hstep : exploreDirH grid rows cols gr gc cur σ dir =
      { σ with
        nodes := setCell σ.nodes nr nc
          { gCost := (getCell σ.nodes newNode cur.1 cur.2).gCost + 1,
            hCost := heuristicManhattan nr nc gr gc,
            fCost := (getCell σ.nodes newNode cur.1 cur.2).gCost + 1 +
              heuristicManhattan nr nc gr gc,
            parent := some cur },
        openSet := heapPush
          (setCell σ.nodes nr nc
            { gCost := (getCell σ.nodes newNode cur.1 cur.2).gCost + 1,
              hCost := heuristicManhattan nr nc gr gc,
              fCost := (getCell σ.nodes newNode cur.1 cur.2).gCost + 1 +
                heuristicManhattan nr nc gr gc,
              parent := some cur })
          σ.openSet (nr, nc) } := by
    simp only [exploreDirH]
    rw [if_pos hv, if_neg hobs, if_neg hcl, if_pos hrel]
  rw [hstep]
  set nbr2 : Node :=
    { gCost := (getCell σ.nodes newNode cur.1 cur.2).gCost + 1,
      hCost := heuristicManhattan nr nc gr gc,
      fCost := (getCell σ.nodes newNode cur.1 cur.2).gCost + 1 +
        heuristicManhattan nr nc gr gc,
      parent := some cur } with hnbr2
  have hnecur : cur ≠ (nr, nc) := adjCell_ne hadj
  have hcurkeep : getCell (setCell σ.nodes nr nc nbr2) newNode cur.1 cur.2 =
      getCell σ.nodes newNode cur.1 cur.2 := by
    apply getCell_setCell_ne
    intro h
    exact hnecur (Prod.ext (congrArg Prod.fst h).symm (congrArg Prod.snd h).symm)
  refine ⟨hW.clen, hW.crow, ?_⟩
  intro c p hp
  rcases getCell_setCell_cases σ.nodes nr nc c.1 c.2 nbr2 newNode with hcase | hcase
  · have hp2 : nbr2.parent = some p := by
      have : (nodeAt { σ with
          nodes := setCell σ.nodes nr nc nbr2,
          openSet := heapPush (setCell σ.nodes nr nc nbr2) σ.openSet (nr, nc) } c) =
          nbr2 := hcase
      rw [this] at hp
      exact hp
    have hpcur : p = cur := by
      rw [hnbr2] at hp2
      simpa using hp2.symm
    subst hpcur
    constructor
    · show (getCell (setCell σ.nodes nr nc nbr2) newNode c.1 c.2).gCost =
        (getCell (setCell σ.nodes nr nc nbr2) newNode p.1 p.2).gCost + 1
      rw [hcase, hcurkeep, hnbr2]
    · exact hcur
  · have hold : (nodeAt σ c).parent = some p := by
      have : (nodeAt { σ with
          nodes := setCell σ.nodes nr nc nbr2,
          openSet := heapPush (setCell σ.nodes nr nc nbr2) σ.openSet (nr, nc) } c) =
          nodeAt σ c := hcase
      rw [this] at hp
      exact hp
    obtain ⟨h1, h2⟩ := hW.pg c p hold
    have hpne : p ≠ (nr, nc) := by
      intro h
      rcases h2 with h2 | h2
      · rw [h] at h2
        exact hcl h2
      · rw [h] at h2
        exact h2 ⟨hnr, hnc⟩
    have hpkeep : getCell (setCell σ.nodes nr nc nbr2) newNode p.1 p.2 =
        getCell σ.nodes newNode p.1 p.2 := by
      apply getCell_setCell_ne
      intro h
      exact hpne (Prod.ext (congrArg Prod.fst h).symm (congrArg Prod.snd h).symm)
    constructor
    · show (getCell (setCell σ.nodes nr nc nbr2) newNode c.1 c.2).gCost =
        (getCell (setCell σ.nodes nr nc nbr2) newNode p.1 p.2).gCost + 1
      rw [hcase, hpkeep]
      exact h1
    · exact h2

theorem winv_foldH {rows cols : Nat} (grid : List (List Int)) (gr gc : Nat)
    {cur : Nat × Nat} :
    ∀ (ds : List (Int × Int)) {σ : AState}, (∀ d ∈ ds, d ∈ dirs) →
      WInv rows cols σ →
      (closedAt σ cur = true ∨ ¬(cur.1 < rows ∧ cur.2 < cols)) →
      WInv rows cols (ds.foldl (exploreDirH grid rows cols gr gc cur) σ)
  | [], σ, _, hW, _ => hW
  | d :: ds, σ, hall, hW, hcur => by
    simp only [List.foldl_cons]
    have hcur2 : closedAt (exploreDirH grid rows cols gr gc cur σ d) cur = true ∨
        ¬(cur.1 < rows ∧ cur.2 < cols) := by
      rcases hcur with h | h
      · left
        show getCell (exploreDirH grid rows cols gr gc cur σ d).closedSet false
          cur.1 cur.2 = true
        rw [exploreDirH_closedSet]
        exact h
      · exact Or.inr h
    exact winv_foldH grid gr gc ds (fun x hx => hall x (List.mem_cons_of_mem d hx))
      (winv_exploreDirH hW grid gr gc hcur (hall d (List.mem_cons_self d ds))) hcur2

/-- Under the weak invariant the exact-heap loop, too, only returns
duplicate-free sequences: the argument never looked at which cell the pop
yields. -/
theorem winv_goH (grid : List (List Int)) (rows cols gr gc : Nat) :
    ∀ (fuel : Nat) (σ : AState), WInv rows cols σ →
      (aStarGoH grid rows cols gr gc fuel σ).Nodup
  | 0, σ, _ => by simp [aStarGoH]
  | fuel + 1, σ, hW => by
    rcases hop : σ.openSet with _ | ⟨c0, cs⟩
    · simp [aStarGoH, hop]
    · simp only [aStarGoH, hop]
      by_cases hcl : getCell σ.closedSet false c0.1 c0.2 = true
      · rw [if_pos hcl]
        exact winv_goH grid rows cols gr gc fuel _ ⟨hW.clen, hW.crow, hW.pg⟩
      · rw [if_neg hcl]
        have hW1 : WInv rows cols
            { σ with
              closedSet := setCell σ.closedSet c0.1 c0.2 true,
              openSet := heapPop σ.nodes (c0 :: cs) } := by
          refine ⟨?_, ?_, ?_⟩
          · show (setCell σ.closedSet c0.1 c0.2 true).length = rows
            rw [length_setCell]
            exact hW.clen
          · intro r hr
            show ((setCell σ.closedSet c0.1 c0.2 true).getD r []).length = cols
            rw [length_row_setCell]
            exact hW.crow r hr
          · intro c p hp
            obtain ⟨h1, h2⟩ := hW.pg c p hp
            refine ⟨h1, ?_⟩
            rcases h2 with h2 | h2
            · left
              show getCell (setCell σ.closedSet c0.1 c0.2 true) false p.1 p.2 = true
              exact getCell_set_true_mono h2
            · exact Or.inr h2
        by_cases hgoal : c0 = (gr, gc)
        · rw [if_pos hgoal]
          apply List.nodup_reverse.mpr
          exact tracePath_nodup (fun c p hp => (hW.pg c p hp).1) _ _
        · rw [if_neg hgoal]
          apply winv_goH grid rows cols gr gc fuel
          apply winv_foldH grid gr gc dirs (fun d hd => hd) hW1
          by_cases hb : c0.1 < rows ∧ c0.2 < cols
          · left
            show getCell (setCell σ.closedSet c0.1 c0.2 true) false c0.1 c0.2 = true
            apply getCell_setCell_self
            · rw [hW.clen]
              exact hb.1
            · rw [hW.crow _ hb.1]
              exact hb.2
          · exact Or.inr hb

/-- The path returned under the exact heap semantics never repeats a cell
either, for every input whatsoever: the parent-chain argument of
`aStar_path_nodup` is insensitive to the frontier extraction order (the
divergent run on `gridH` included). -/
theorem aStar_path_nodupH (grid : List (List Int)) (sr sc gr gc : Nat) :
    (aStarSearchH grid sr sc gr gc).Nodup :=
  winv_goH grid grid.length (grid.getD 0 []).length gr gc
    (5 * grid.length * (grid.getD 0 []).length + 1)
    (aStarInit grid sr sc gr gc) (winv_init grid sr sc gr gc)

end PathPlanning
